import Mathlib

/-!
# DeliveryRouter

A shallow embedding of the routing core of the DeliveryRouter repository:

* `ExpandableHashMap` (ExpandableHashMap.h): the chained hash table that doubles its
  bucket array when the load factor is exceeded;
* `StreetMapImpl.load` and `StreetMapImpl.getSegmentsThatStartWith` (StreetMap.cpp): the
  construction of the adjacency from the parsed map file, and the adjacency lookup;
* `PointToPointRouterImpl.generatePointToPointRoute` (PointToPointRouter.cpp): the A* search
  and the backward reconstruction of the route;
* `DeliveryOptimizerImpl.optimizeDeliveryOrder` (DeliveryOptimizer.cpp): the simulated
  annealing over the order of the stops, with its two distance computations;
* `DeliveryPlannerImpl.generateDeliveryPlan` (DeliveryPlanner.cpp): the routes of the legs of
  the optimized order and the commands generated from them.

Modelling conventions.

* C++ `int` counters (`num_buckets`, `num_items`) are natural numbers.  The bucket count
  leaves the range of `int` only at `2^31` buckets, after an array of `2^30` lists (tens of
  gigabytes) has been allocated; allocation failure and that overflow are outside the model.
* `double` values are exact numbers: the maximum load factor is a rational, distances live in
  an arbitrary linearly ordered commutative ring (the reals, the rationals, the integers).
* The bucket array `std::list<Item *> *hash_table` is a list of buckets, each bucket the list of
  the items it points to, in chain order.  An access beyond the array is undefined behaviour in
  C++; here it reads the empty bucket and writes nothing, and the theorems that speak about
  faults state the index bounds explicitly.
* In the optimizer distances live in a linearly ordered field, `sqrt` and `exp` are
  parameters, the random engines are streams of raw values, and vector indices of type `int`
  are integers; constants such as `0.995` and `1e-8` are the exact fractions.
* `hasher` (declared by prototype in ExpandableHashMap.h, defined per key type elsewhere) is a
  parameter.  Key equality `==` is decidable equality of the key type.
-/

namespace DeliveryRouter

/-! ## ExpandableHashMap.h -/

/-- Entry `struct Item { KeyType key; ValueType value; }`. -/
structure Item (K V : Type) where
  key : K
  value : V
deriving DecidableEq

/-- The private state of `ExpandableHashMap<KeyType, ValueType>`. -/
structure ExpandableHashMap (K V : Type) where
  max_load_factor : ℚ
  num_buckets : Nat
  num_items : Nat
  hash_table : List (List (Item K V))
deriving DecidableEq

namespace ExpandableHashMap

variable {K V : Type}

/-- Constructor `ExpandableHashMap(double maximumLoadFactor)`: eight empty buckets, and a
non-positive load factor is replaced by `0.5`. -/
def construct (maximumLoadFactor : ℚ) : ExpandableHashMap K V :=
  { max_load_factor := if maximumLoadFactor ≤ 0 then 1 / 2 else maximumLoadFactor
    num_buckets := 8
    num_items := 0
    hash_table := List.replicate 8 [] }

/-- Constructor with the default argument `maximumLoadFactor = 0.5`. -/
def constructDefault : ExpandableHashMap K V :=
  construct (1 / 2)

/-- Method `reset()`: the new array is allocated with the OLD `num_buckets` lists, then
`num_buckets` is set back to 8 and `num_items` to 0. -/
def reset (m : ExpandableHashMap K V) : ExpandableHashMap K V :=
  { max_load_factor := m.max_load_factor
    num_buckets := 8
    num_items := 0
    hash_table := List.replicate m.num_buckets [] }

/-- Method `size()`. -/
def size (m : ExpandableHashMap K V) : Nat :=
  m.num_items

/-- Read access `hash_table[i]`. -/
def bucket (m : ExpandableHashMap K V) (i : Nat) : List (Item K V) :=
  m.hash_table.getD i []

/-- The scan of one chain in `find`: the value of the first item whose key equals `key`. -/
def findInBucket [DecidableEq K] : List (Item K V) → K → Option V
  | [], _ => none
  | it :: p, key => if it.key = key then some it.value else findInBucket p key

/-- Method `find(key)`: `some v` for a pointer to the stored value `v`, `none` for `nullptr`. -/
def find [DecidableEq K] (hasher : K → Nat) (m : ExpandableHashMap K V) (key : K) : Option V :=
  let h := hasher key % m.num_buckets
  findInBucket (m.bucket h) key

/-- The write `*val = value` through the pointer that `find` returned: the first item of the
chain whose key equals `key` gets the new value. -/
def assignInBucket [DecidableEq K] : List (Item K V) → K → V → List (Item K V)
  | [], _, _ => []
  | it :: p, key, value =>
    if it.key = key then Item.mk it.key value :: p else it :: assignInBucket p key value

/-- Write access `table[h] = f(table[h])`. -/
def updateBucket (table : List (List (Item K V))) (h : Nat)
    (f : List (Item K V) → List (Item K V)) : List (List (Item K V)) :=
  match table, h with
  | [], _ => []
  | b :: t, 0 => f b :: t
  | b :: t, n + 1 => b :: updateBucket t n f

/-- The call `table[h].push_back(it)`. -/
def pushBack (table : List (List (Item K V))) (h : Nat) (it : Item K V) :
    List (List (Item K V)) :=
  updateBucket table h (fun b => b ++ [it])

/-- The rehash loops of `associate`: for each old bucket `i < num_buckets` in order, for each
item of its chain in order, push the item to the back of bucket `hasher(key) % new_size` of the
new array. -/
def rehash (hasher : K → Nat) (m : ExpandableHashMap K V) (new_size : Nat) :
    List (List (Item K V)) :=
  (List.range m.num_buckets).foldl
    (fun temp i => (m.bucket i).foldl (fun temp it => pushBack temp (hasher it.key % new_size) it) temp)
    (List.replicate new_size [])

/-- The growth step of `associate` after `++num_items`: when the load exceeds the maximum load
factor the bucket array is replaced by one of twice the size. -/
def grow (hasher : K → Nat) (m : ExpandableHashMap K V) : ExpandableHashMap K V :=
  let num_items := m.num_items + 1
  if (num_items : ℚ) / (m.num_buckets : ℚ) > m.max_load_factor then
    let new_size := m.num_buckets * 2
    { max_load_factor := m.max_load_factor
      num_buckets := new_size
      num_items := num_items
      hash_table := rehash hasher m new_size }
  else
    { max_load_factor := m.max_load_factor
      num_buckets := m.num_buckets
      num_items := num_items
      hash_table := m.hash_table }

/-- Method `associate(key, value)`. -/
def associate [DecidableEq K] (hasher : K → Nat) (m : ExpandableHashMap K V) (key : K)
    (value : V) : ExpandableHashMap K V :=
  match find hasher m key with
  | some _ =>
    { max_load_factor := m.max_load_factor
      num_buckets := m.num_buckets
      num_items := m.num_items
      hash_table :=
        updateBucket m.hash_table (hasher key % m.num_buckets)
          (fun b => assignInBucket b key value) }
  | none =>
    let m1 := grow hasher m
    let h := hasher key % m1.num_buckets
    { max_load_factor := m1.max_load_factor
      num_buckets := m1.num_buckets
      num_items := m1.num_items
      hash_table := pushBack m1.hash_table h (Item.mk key value) }

/-- A sequence of `associate` calls, first call first. -/
def associateAll [DecidableEq K] (hasher : K → Nat) (m : ExpandableHashMap K V)
    (calls : List (K × V)) : ExpandableHashMap K V :=
  calls.foldl (fun m kv => associate hasher m kv.1 kv.2) m

end ExpandableHashMap

end DeliveryRouter

namespace DeliveryRouter

open ExpandableHashMap

/-! ## provided.h: the types the router works on

`GeoCoord` is an abstract key type `K` with decidable equality, `distanceEarthMiles` a
parameter `dist : K → K → R`, and the order of `GeoCoord` that `std::pair` comparison falls
back on for equal priorities a parameter `coordLt`.  -/

/-- Result codes `enum DeliveryResult`. -/
inductive DeliveryResult
  | DELIVERY_SUCCESS
  | NO_ROUTE
  | BAD_COORD
deriving DecidableEq

/-- Directed edge `struct StreetSegment { GeoCoord start; GeoCoord end; std::string name; }`;
the field `end` is spelled `end_`. -/
structure StreetSegment (K : Type) where
  start : K
  end_ : K
  name : String
deriving DecidableEq

/-! ## StreetMap.cpp -/

/-- State of `StreetMapImpl`: the map from a coordinate to the segments stored under it. -/
structure StreetMapImpl (K : Type) where
  map : ExpandableHashMap K (List (StreetSegment K))

/-- Method `StreetMapImpl::getSegmentsThatStartWith(gc, segs)`: the returned flag, and the
contents of `segs` afterwards (unchanged when the coordinate is not found). -/
def StreetMapImpl.getSegmentsThatStartWith {K : Type} [DecidableEq K] (hasher : K → Nat)
    (sm : StreetMapImpl K) (gc : K) (segs : List (StreetSegment K)) :
    Bool × List (StreetSegment K) :=
  match find hasher sm.map gc with
  | none => (false, segs)
  | some v => (true, v)

/-- The write `map.find(key)->push_back(seg)` inside one chain: the vector of the first item
whose key equals `key` gets `seg` appended. -/
def appendInBucket {K : Type} [DecidableEq K] :
    List (Item K (List (StreetSegment K))) → K → StreetSegment K →
      List (Item K (List (StreetSegment K)))
  | [], _, _ => []
  | it :: p, key, seg =>
    if it.key = key then Item.mk it.key (it.value ++ [seg]) :: p
    else it :: appendInBucket p key seg

/-- The statement `map.find(key)->push_back(seg)` of `StreetMapImpl::load`, which modifies the
stored vector through the pointer that `find` returns.  (In `load` the key is always present
at this point; on a missing key the C++ dereferences `nullptr`, here nothing changes.) -/
def StreetMapImpl.pushSegment {K : Type} [DecidableEq K] (hasher : K → Nat)
    (m : ExpandableHashMap K (List (StreetSegment K))) (key : K) (seg : StreetSegment K) :
    ExpandableHashMap K (List (StreetSegment K)) :=
  { max_load_factor := m.max_load_factor
    num_buckets := m.num_buckets
    num_items := m.num_items
    hash_table :=
      updateBucket m.hash_table (hasher key % m.num_buckets)
        (fun b => appendInBucket b key seg) }

/-- Body of the inner loop of `StreetMapImpl::load` for one segment line, already parsed into
the pair `cur` of coordinates: both directions of the segment are recorded, each under its own
start coordinate. -/
def StreetMapImpl.loadLine {K : Type} [DecidableEq K] (hasher : K → Nat) (name : String)
    (m : ExpandableHashMap K (List (StreetSegment K))) (cur : K × K) :
    ExpandableHashMap K (List (StreetSegment K)) :=
  let m1 :=
    match find hasher m cur.1 with
    | none => associate hasher m cur.1 []
    | some _ => m
  let m2 := StreetMapImpl.pushSegment hasher m1 cur.1 ⟨cur.1, cur.2, name⟩
  let m3 :=
    match find hasher m2 cur.2 with
    | none => associate hasher m2 cur.2 []
    | some _ => m2
  StreetMapImpl.pushSegment hasher m3 cur.2 ⟨cur.2, cur.1, name⟩

/-- Method `StreetMapImpl::load` on the parsed contents of the map file: for each street its
name and the coordinate pairs of its segment lines, in file order.  Reading and splitting the
text lines is not modelled. -/
def StreetMapImpl.load {K : Type} [DecidableEq K] (hasher : K → Nat)
    (streets : List (String × List (K × K))) : StreetMapImpl K :=
  ⟨streets.foldl
    (fun m street => street.2.foldl (StreetMapImpl.loadLine hasher street.1) m)
    constructDefault⟩

/-! ## PointToPointRouter.cpp -/

/-- Local variables of `generatePointToPointRoute` that the search loop updates. -/
structure SearchState (K R : Type) where
  cost_map : ExpandableHashMap K R
  history : ExpandableHashMap K (StreetSegment K)
  open_list : List (R × K)

/-- The outputs of `generatePointToPointRoute`: the returned code and the two reference
parameters as they stand on return. -/
structure RouteOutput (K R : Type) where
  result : DeliveryResult
  route : List (StreetSegment K)
  totalDistanceTravelled : R
deriving DecidableEq

section Router

variable {K R : Type} [DecidableEq K] [LinearOrderedCommRing R]

/-- Comparison `operator<` of `std::pair<double, GeoCoord>`: by priority first, by the
coordinate order for equal priorities. -/
def pairLess (coordLt : K → K → Bool) (a b : R × K) : Bool :=
  decide (a.1 < b.1) || (!decide (b.1 < a.1) && coordLt a.2 b.2)

/-- The calls `open_list.top()` and `open_list.pop()` on the min-queue
`priority_queue<pair<double, GeoCoord>, vector<...>, greater<>>`: an entry that no other entry
is less than, and the queue without it.  The queue is kept as the list of its entries. -/
def popMin (coordLt : K → K → Bool) : List (R × K) → Option ((R × K) × List (R × K))
  | [] => none
  | x :: xs =>
    match popMin coordLt xs with
    | none => some (x, [])
    | some (m, rest) => if pairLess coordLt m x then some (m, x :: rest) else some (x, xs)

/-- Body of the loop `for (const auto &next_seg : options)`.  The result is `none` when
`*cost_map.find(current)` dereferences `nullptr`. -/
def relaxSegment (dist : K → K → R) (hasher : K → Nat) (end_ current : K)
    (st : SearchState K R) (next_seg : StreetSegment K) : Option (SearchState K R) :=
  let next := next_seg.end_
  match find hasher st.cost_map current with
  | none => none
  | some cur_cost =>
    let new_cost := cur_cost + dist next_seg.start next
    let improves :=
      match find hasher st.cost_map next with
      | none => true
      | some known => decide (new_cost < known)
    if improves then
      let approx_cost := new_cost + dist next end_
      some
        { cost_map := associate hasher st.cost_map next new_cost
          open_list := st.open_list ++ [(approx_cost, next)]
          history := associate hasher st.history next next_seg }
    else some st

/-- The loop `for (const auto &next_seg : options)` over all segments, in order. -/
def relaxAll (dist : K → K → R) (hasher : K → Nat) (end_ current : K) :
    SearchState K R → List (StreetSegment K) → Option (SearchState K R)
  | st, [] => some st
  | st, next_seg :: rest =>
    match relaxSegment dist hasher end_ current st next_seg with
    | none => none
    | some st1 => relaxAll dist hasher end_ current st1 rest

/-- The loop `while (!open_list.empty())`, at most `fuel` iterations.  The flag is the
variable `success`; the result is `none` when the fuel runs out or an iteration faults. -/
def searchLoop (dist : K → K → R) (hasher : K → Nat) (coordLt : K → K → Bool)
    (sm : StreetMapImpl K) (end_ : K) : Nat → SearchState K R → Option (Bool × SearchState K R)
  | 0, _ => none
  | fuel + 1, st =>
    match popMin coordLt st.open_list with
    | none => some (false, st)
    | some (top, rest) =>
      let current := top.2
      let st1 : SearchState K R :=
        { cost_map := st.cost_map, history := st.history, open_list := rest }
      if current = end_ then some (true, st1)
      else
        let options := (sm.getSegmentsThatStartWith hasher current []).2
        match relaxAll dist hasher end_ current st1 options with
        | none => none
        | some st2 => searchLoop dist hasher coordLt sm end_ fuel st2

/-- The loop `while (true)` that walks back from the destination, at most `fuel` iterations:
it stops at `start` or at a coordinate without a `history` entry. -/
def reconstruct (dist : K → K → R) (hasher : K → Nat) (start : K)
    (history : ExpandableHashMap K (StreetSegment K)) :
    Nat → K → List (StreetSegment K) → R → Option (List (StreetSegment K) × R)
  | 0, _, _, _ => none
  | fuel + 1, lastGeoCoord, route, totalDistanceTravelled =>
    if lastGeoCoord = start then some (route, totalDistanceTravelled)
    else
      match find hasher history lastGeoCoord with
      | none => some (route, totalDistanceTravelled)
      | some seg =>
        reconstruct dist hasher start history fuel seg.start (seg :: route)
          (totalDistanceTravelled + dist seg.start seg.end_)

/-- The state before the first iteration of the search loop: `open_list.push({0, start})` and
`cost_map.associate(start, 0)` on two default-constructed maps. -/
def initialState (hasher : K → Nat) (start : K) : SearchState K R :=
  { cost_map := associate hasher constructDefault start 0
    history := constructDefault
    open_list := [(0, start)] }

/-- Method `PointToPointRouterImpl::generatePointToPointRoute(start, end, route,
totalDistanceTravelled)`.  The arguments `route` and `totalDistanceTravelled` are the contents
of the reference parameters on entry.  Each of the two loops may run `fuel` iterations; the
result is `none` when that does not suffice. -/
def generatePointToPointRoute (dist : K → K → R) (hasher : K → Nat) (coordLt : K → K → Bool)
    (sm : StreetMapImpl K) (fuel : Nat) (start end_ : K) (_route : List (StreetSegment K))
    (totalDistanceTravelled : R) : Option (RouteOutput K R) :=
  let route : List (StreetSegment K) := []
  let valid : List (StreetSegment K) := []
  let known_start := sm.getSegmentsThatStartWith hasher start valid
  if known_start.1 = false then some ⟨DeliveryResult.BAD_COORD, route, totalDistanceTravelled⟩
  else
    let known_end := sm.getSegmentsThatStartWith hasher end_ known_start.2
    if known_end.1 = false then some ⟨DeliveryResult.BAD_COORD, route, totalDistanceTravelled⟩
    else
      match searchLoop dist hasher coordLt sm end_ fuel (initialState hasher start) with
      | none => none
      | some (false, _) => some ⟨DeliveryResult.NO_ROUTE, route, totalDistanceTravelled⟩
      | some (true, st) =>
        match reconstruct dist hasher start st.history fuel end_ route 0 with
        | none => none
        | some (route, total) => some ⟨DeliveryResult.DELIVERY_SUCCESS, route, total⟩

end Router

end DeliveryRouter

namespace DeliveryRouter

/-! ## DeliveryOptimizer.cpp

`double` values are exact numbers of an ordered field `R`; `sqrt` and `exp` are parameters
`sqrtFn` and `expFn`.  The two random engines are explicit streams: `ints i` is the `i`-th
raw value of the generator behind `randInt`, `reals i` the `i`-th value of `dis(gen)`, and
the cursors count the values consumed so far.  Every loop without a bound in the source
takes `fuel`; a result `none` stands for a run that exhausts the fuel or that reads a vector
outside its range. -/

/-- Stop `struct DeliveryRequest { std::string item; GeoCoord location; }`. -/
structure DeliveryRequest (K : Type) where
  item : String
  location : K
deriving DecidableEq

/-- The outputs of `optimizeDeliveryOrder`: the three reference parameters as they stand on
return. -/
structure OptimizerOutput (K R : Type) where
  deliveries : List (DeliveryRequest K)
  oldCrowDistance : R
  newCrowDistance : R
deriving DecidableEq

/-- Local variables of `optimizeDeliveryOrder` that the annealing loop updates, and the
number of values drawn so far from each of the two random engines. -/
structure AnnealState (K R : Type) where
  t : R
  best_dist : R
  currentSolution : List (DeliveryRequest K)
  intCursor : Nat
  realCursor : Nat
deriving DecidableEq

/-- Method `randInt(min, max)`: the bounds are exchanged when `max < min`, and
`uniform_int_distribution(min, max)` turns the raw value `raw` of the generator into a value
between the bounds, both included. -/
def randInt (raw : Nat) (min max : Int) : Int :=
  let lo := if max < min then max else min
  let hi := if max < min then min else max
  lo + (raw : Int) % (hi - lo + 1)

/-- Overload `randomlySwapDeliveries(vec, a, b)`, that is `swap(vec[a], vec[b])`; `none` when
an index is outside the vector. -/
def randomlySwapDeliveriesAt {K : Type} (vec : List (DeliveryRequest K)) (a b : Int) :
    Option (List (DeliveryRequest K)) :=
  if 0 ≤ a ∧ 0 ≤ b then
    match vec[a.toNat]?, vec[b.toNat]? with
    | some x, some y => some ((vec.set a.toNat y).set b.toNat x)
    | _, _ => none
  else none

/-- The loop `while (a == b)` of `randomlySwapDeliveries(vec)` for a vector of `size`
elements, at most `fuel` iterations.  As `a` and `b` both start at 0 the body runs at least
once.  `vec.size() - 1` is converted to `int`, which gives `-1` for the empty vector.  The
result is the pair `{a, b}` and the cursor of the integer stream after the loop. -/
def drawPositions (ints : Nat → Nat) (size : Nat) : Nat → Nat → Option ((Int × Int) × Nat)
  | 0, _ => none
  | fuel + 1, cursor =>
    let a := randInt (ints cursor) 0 ((size : Int) - 1)
    let b := randInt (ints (cursor + 1)) 0 ((size : Int) - 1)
    if a = b then drawPositions ints size fuel (cursor + 2) else some ((a, b), cursor + 2)

/-- Overload `randomlySwapDeliveries(vec)`: the vector after the swap, the returned pair and
the cursor of the integer stream. -/
def randomlySwapDeliveries {K : Type} (ints : Nat → Nat) (fuel : Nat)
    (vec : List (DeliveryRequest K)) (cursor : Nat) :
    Option (List (DeliveryRequest K) × (Int × Int) × Nat) :=
  match drawPositions ints vec.length fuel cursor with
  | none => none
  | some (ab, cursor1) =>
    match randomlySwapDeliveriesAt vec ab.1 ab.2 with
    | none => none
    | some vec1 => some (vec1, ab, cursor1)

section Optimizer

variable {K R : Type} [DecidableEq K] [LinearOrderedField R]

/-- The loop `for (int i = 0; i < deliveries.size() - 1; i++)` of `getApproxCrowDist`: the
first argument is the number of iterations still to run, the second the variable `i`. -/
def approxLegs (dist : K → K → R) (deliveries : List (DeliveryRequest K)) :
    Nat → Nat → R → Option R
  | 0, _, total_approx_dist => some total_approx_dist
  | n + 1, i, total_approx_dist =>
    match deliveries[i]?, deliveries[i + 1]? with
    | some a, some b =>
      approxLegs dist deliveries n (i + 1) (total_approx_dist + dist a.location b.location)
    | _, _ => none

/-- Method `getApproxCrowDist(depot, deliveries)`; `none` when `deliveries[0]` does not
exist. -/
def getApproxCrowDist (dist : K → K → R) (depot : K) (deliveries : List (DeliveryRequest K)) :
    Option R :=
  match deliveries[0]? with
  | none => none
  | some first =>
    let total_approx_dist := 0 + dist depot first.location
    match approxLegs dist deliveries (deliveries.length - 1) 0 total_approx_dist with
    | none => none
    | some total_approx_dist =>
      match deliveries[deliveries.length - 1]? with
      | none => none
      | some last => some (total_approx_dist + dist last.location depot)

/-- The loop `for (int i = 0; i < deliveries.size() - 1; i++)` of `getActualCrowDist`: the
first argument is the number of iterations still to run, the second the variable `i`, the
triple the variables `temp`, `temp_distance` and `total_dist`.  The code of the router is not
looked at: after a failed call `temp_distance` still holds what it held before. -/
def actualLegs (dist : K → K → R) (hasher : K → Nat) (coordLt : K → K → Bool)
    (sm : StreetMapImpl K) (fuel : Nat) (deliveries : List (DeliveryRequest K)) :
    Nat → Nat → List (StreetSegment K) × R × R → Option (List (StreetSegment K) × R × R)
  | 0, _, vars => some vars
  | n + 1, i, (temp, temp_distance, total_dist) =>
    match deliveries[i]?, deliveries[i + 1]? with
    | some a, some b =>
      match generatePointToPointRoute dist hasher coordLt sm fuel a.location b.location temp
          temp_distance with
      | none => none
      | some out =>
        actualLegs dist hasher coordLt sm fuel deliveries n (i + 1)
          (out.route, out.totalDistanceTravelled, total_dist + out.totalDistanceTravelled)
    | _, _ => none

/-- Method `getActualCrowDist(depot, deliveries)`; `none` when `deliveries[0]` does not exist
or a call of the router does not return within `fuel` iterations. -/
def getActualCrowDist (dist : K → K → R) (hasher : K → Nat) (coordLt : K → K → Bool)
    (sm : StreetMapImpl K) (fuel : Nat) (depot : K) (deliveries : List (DeliveryRequest K)) :
    Option R :=
  let temp_distance : R := 0
  let total_dist : R := 0
  let temp : List (StreetSegment K) := []
  match deliveries[0]? with
  | none => none
  | some first =>
    match generatePointToPointRoute dist hasher coordLt sm fuel depot first.location temp
        temp_distance with
    | none => none
    | some out =>
      match actualLegs dist hasher coordLt sm fuel deliveries (deliveries.length - 1) 0
          (out.route, out.totalDistanceTravelled, total_dist + out.totalDistanceTravelled) with
      | none => none
      | some (temp, temp_distance, total_dist) =>
        match deliveries[deliveries.length - 1]? with
        | none => none
        | some last =>
          match generatePointToPointRoute dist hasher coordLt sm fuel last.location depot temp
              temp_distance with
          | none => none
          | some out => some (total_dist + out.totalDistanceTravelled)

/-- The constant `cooling_rate = 0.995`. -/
def cooling_rate : R := 995 / 1000

/-- The floor `1e-8` of the temperature. -/
def temperatureFloor : R := 1 / 100000000

/-- Body of the annealing loop under `if (t > 1e-8)`: one random swap, the approximate
distance of the candidate, the accept/reject decision and the cooling step.  `dis(gen)` is
drawn only when the candidate is not better than the best distance. -/
def annealIteration (dist : K → K → R) (expFn : R → R) (ints : Nat → Nat) (reals : Nat → R)
    (fuel : Nat) (depot : K) (st : AnnealState K R) : Option (AnnealState K R) :=
  match randomlySwapDeliveries ints fuel st.currentSolution st.intCursor with
  | none => none
  | some (solution, swapped, cursor) =>
    match getApproxCrowDist dist depot solution with
    | none => none
    | some cur_dist =>
      if cur_dist < st.best_dist then
        some
          { t := st.t * cooling_rate
            best_dist := cur_dist
            currentSolution := solution
            intCursor := cursor
            realCursor := st.realCursor }
      else if expFn ((st.best_dist - cur_dist) / st.t) < reals st.realCursor then
        match randomlySwapDeliveriesAt solution swapped.2 swapped.1 with
        | none => none
        | some restored =>
          some
            { t := st.t * cooling_rate
              best_dist := st.best_dist
              currentSolution := restored
              intCursor := cursor
              realCursor := st.realCursor + 1 }
      else
        some
          { t := st.t * cooling_rate
            best_dist := st.best_dist
            currentSolution := solution
            intCursor := cursor
            realCursor := st.realCursor + 1 }

/-- The loop `for (int i = 0; i < 10000; i++)` with its `break`: the first argument is the
number of iterations the `for` still allows, the second the variable `i`.  The result is the
value of `i` when the loop is left, which is the number of iterations performed, and the
state then. -/
def annealLoop (dist : K → K → R) (expFn : R → R) (ints : Nat → Nat) (reals : Nat → R)
    (fuel : Nat) (depot : K) : Nat → Nat → AnnealState K R → Option (Nat × AnnealState K R)
  | 0, i, st => some (i, st)
  | n + 1, i, st =>
    if temperatureFloor < st.t then
      match annealIteration dist expFn ints reals fuel depot st with
      | none => none
      | some st1 => annealLoop dist expFn ints reals fuel depot n (i + 1) st1
    else some (i, st)

/-- The state before the first iteration of the annealing loop. -/
def annealStart (sqrtFn : Nat → R) (best_dist : R) (deliveries : List (DeliveryRequest K)) :
    AnnealState K R :=
  { t := sqrtFn deliveries.length
    best_dist := best_dist
    currentSolution := deliveries
    intCursor := 0
    realCursor := 0 }

/-- Method `DeliveryOptimizerImpl::optimizeDeliveryOrder(depot, deliveries, oldCrowDistance,
newCrowDistance)`. -/
def optimizeDeliveryOrder (dist : K → K → R) (hasher : K → Nat) (coordLt : K → K → Bool)
    (sm : StreetMapImpl K) (sqrtFn : Nat → R) (expFn : R → R) (ints : Nat → Nat)
    (reals : Nat → R) (fuel : Nat) (depot : K) (deliveries : List (DeliveryRequest K)) :
    Option (OptimizerOutput K R) :=
  match getActualCrowDist dist hasher coordLt sm fuel depot deliveries with
  | none => none
  | some oldCrowDistance =>
    match getApproxCrowDist dist depot deliveries with
    | none => none
    | some best_dist =>
      match annealLoop dist expFn ints reals fuel depot 10000 0
          (annealStart sqrtFn best_dist deliveries) with
      | none => none
      | some (_, st) =>
        match getActualCrowDist dist hasher coordLt sm fuel depot st.currentSolution with
        | none => none
        | some newCrowDistance =>
          if newCrowDistance < oldCrowDistance then
            some ⟨st.currentSolution, oldCrowDistance, newCrowDistance⟩
          else some ⟨deliveries, oldCrowDistance, oldCrowDistance⟩

end Optimizer

end DeliveryRouter

namespace DeliveryRouter

/-! ## DeliveryPlanner.cpp

`angleOfLine` and `angleBetween2Lines` of provided.h are parameters.  Angles are exact
numbers like the distances. -/

/-- Class `DeliveryCommand` is declared in provided.h, which is not among the sources.  A
command is represented by the `initAs...` call that set it, with the arguments of that
call. -/
inductive DeliveryCommand (R : Type)
  | proceed (dir : String) (streetName : String) (dist : R)
  | turn (dir : String) (streetName : String)
  | deliver (item : String)
deriving DecidableEq

/-- The outputs of `generateDeliveryPlan`: the returned code and the two reference parameters
as they stand on return. -/
structure PlanOutput (R : Type) where
  result : DeliveryResult
  commands : List (DeliveryCommand R)
  totalDistanceTravelled : R
deriving DecidableEq

/-- How the loop over the consecutive pairs of stops in `generateDeliveryPlan` is left: by
its `return res`, or at the end with the routes collected so far. -/
inductive LegsExit (K : Type)
  | returned (res : DeliveryResult)
  | completed (routes : List (List (StreetSegment K × String)))

/-- Local variables of the loop over the segments of one route in `generateDeliveryPlan`.
`lastSeg` is `none` as long as the source has not assigned it. -/
structure RouteVars (K R : Type) where
  commands : List (DeliveryCommand R)
  lastSeg : Option (StreetSegment K)
  j_index : Nat

section Planner

variable {K R : Type} [DecidableEq K] [LinearOrderedField R]

/-- Method `increaseDistance(dist)` of a proceed command; the planner calls it on proceed
commands only. -/
def DeliveryCommand.increaseDistance : DeliveryCommand R → R → DeliveryCommand R
  | DeliveryCommand.proceed dir streetName dist, amount =>
    DeliveryCommand.proceed dir streetName (dist + amount)
  | c, _ => c

/-- The call `commands.back().increaseDistance(amount)`. -/
def increaseBack : List (DeliveryCommand R) → R → List (DeliveryCommand R)
  | [], _ => []
  | [c], amount => [c.increaseDistance amount]
  | c :: rest, amount => c :: increaseBack rest amount

/-- Method `get_direction(angle)`. -/
def get_direction (angle : R) : String :=
  if 0 ≤ angle ∧ angle ≤ 45 / 2 then "east"
  else if 45 / 2 ≤ angle ∧ angle < 135 / 2 then "northeast"
  else if 135 / 2 ≤ angle ∧ angle < 225 / 2 then "north"
  else if 225 / 2 ≤ angle ∧ angle < 315 / 2 then "northwest"
  else if 315 / 2 ≤ angle ∧ angle < 405 / 2 then "west"
  else if 405 / 2 ≤ angle ∧ angle < 495 / 2 then "southwest"
  else if 495 / 2 ≤ angle ∧ angle < 585 / 2 then "south"
  else if 585 / 2 ≤ angle ∧ angle < 675 / 2 then "southeast"
  else if 675 / 2 ≤ angle then "east"
  else ""

/-- Method `get_street_direction(seg)`. -/
def get_street_direction (angleOfLine : StreetSegment K → R) (seg : StreetSegment K) : String :=
  get_direction (angleOfLine seg)

/-- Method `get_street_dist(seg)`. -/
def get_street_dist (dist : K → K → R) (seg : StreetSegment K) : R :=
  dist seg.start seg.end_

/-- Method `addStreetSegsToRoutes(start, end, item, routes)`: the returned code and `routes`
afterwards. -/
def addStreetSegsToRoutes (dist : K → K → R) (hasher : K → Nat) (coordLt : K → K → Bool)
    (sm : StreetMapImpl K) (fuel : Nat) (start end_ : K) (item : String)
    (routes : List (List (StreetSegment K × String))) :
    Option (DeliveryResult × List (List (StreetSegment K × String))) :=
  let temp : List (StreetSegment K) := []
  let temp_distance : R := 0
  match generatePointToPointRoute dist hasher coordLt sm fuel start end_ temp temp_distance with
  | none => none
  | some out =>
    let l := out.route.map (fun i => (i, item))
    some (out.result, routes ++ [l])

/-- The loop `for (int i = 0; i < mod.size() - 1; i++)` of `generateDeliveryPlan`: the first
argument is the number of iterations still to run, the second the variable `i`. -/
def planLegs (dist : K → K → R) (hasher : K → Nat) (coordLt : K → K → Bool)
    (sm : StreetMapImpl K) (fuel : Nat) (mod : List (DeliveryRequest K)) :
    Nat → Nat → List (List (StreetSegment K × String)) → Option (LegsExit K)
  | 0, _, routes => some (LegsExit.completed routes)
  | n + 1, i, routes =>
    match mod[i]?, mod[i + 1]? with
    | some a, some b =>
      match addStreetSegsToRoutes dist hasher coordLt sm fuel a.location b.location b.item
          routes with
      | none => none
      | some (res, routes1) =>
        if res ≠ DeliveryResult.DELIVERY_SUCCESS then some (LegsExit.returned res)
        else planLegs dist hasher coordLt sm fuel mod n (i + 1) routes1
    | _, _ => none

/-- Body of the loop `for (auto &jt : route)`. -/
def segmentStep (dist : K → K → R) (angleOfLine : StreetSegment K → R)
    (angleBetween2Lines : StreetSegment K → StreetSegment K → R) (i_index i_size j_size : Nat)
    (vars : RouteVars K R) (jt : StreetSegment K × String) : RouteVars K R :=
  let seg := jt.1
  let proceedCommand :=
    DeliveryCommand.proceed (get_street_direction angleOfLine seg) seg.name
      (get_street_dist dist seg)
  let commands1 :=
    if vars.j_index = 0 then vars.commands ++ [proceedCommand]
    else
      match vars.lastSeg with
      | none => vars.commands
      | some lastSeg =>
        if lastSeg.name = seg.name then increaseBack vars.commands (get_street_dist dist seg)
        else
          let ang := angleBetween2Lines lastSeg seg
          if ang < 1 ∨ ang > 359 then vars.commands ++ [proceedCommand]
          else
            vars.commands ++
              [DeliveryCommand.turn (if ang < 180 then "left" else "right") seg.name,
                proceedCommand]
  let commands2 :=
    if (vars.j_index : Int) = (j_size : Int) - 1 ∧ (i_index : Int) ≠ (i_size : Int) - 1 then
      commands1 ++ [DeliveryCommand.deliver jt.2]
    else commands1
  { commands := commands2, lastSeg := some seg, j_index := vars.j_index + 1 }

/-- Body of the loop `for (auto &route : routes)`: the pair is `commands` and `i_index`.  A
route of exactly one segment ends in `continue`, which skips `i_index++`. -/
def routeCommands (dist : K → K → R) (angleOfLine : StreetSegment K → R)
    (angleBetween2Lines : StreetSegment K → StreetSegment K → R) (i_size : Nat)
    (state : List (DeliveryCommand R) × Nat) (route : List (StreetSegment K × String)) :
    List (DeliveryCommand R) × Nat :=
  let commands := state.1
  let i_index := state.2
  let j_size := route.length
  match route with
  | [front] =>
    let seg := front.1
    if seg.start = seg.end_ then (commands ++ [DeliveryCommand.deliver front.2], i_index)
    else
      (commands ++
        [DeliveryCommand.proceed (get_street_direction angleOfLine seg) seg.name
            (get_street_dist dist seg),
          DeliveryCommand.deliver front.2], i_index)
  | _ =>
    let vars :=
      route.foldl (segmentStep dist angleOfLine angleBetween2Lines i_index i_size j_size)
        { commands := commands, lastSeg := none, j_index := 0 }
    (vars.commands, i_index + 1)

/-- The statements of `generateDeliveryPlan` from `commands.clear()` on: the commands for
all routes. -/
def buildCommands (dist : K → K → R) (angleOfLine : StreetSegment K → R)
    (angleBetween2Lines : StreetSegment K → StreetSegment K → R)
    (routes : List (List (StreetSegment K × String))) : List (DeliveryCommand R) :=
  (routes.foldl (routeCommands dist angleOfLine angleBetween2Lines routes.length) ([], 0)).1

/-- The statements of `generateDeliveryPlan` after the call of the optimizer, for the order
`mod` and the distance `totalDistanceTravelled` that the optimizer left; `commands` is the
content of the reference parameter on entry. -/
def planFromOrder (dist : K → K → R) (hasher : K → Nat) (coordLt : K → K → Bool)
    (sm : StreetMapImpl K) (angleOfLine : StreetSegment K → R)
    (angleBetween2Lines : StreetSegment K → StreetSegment K → R) (fuel : Nat) (depot : K)
    (mod : List (DeliveryRequest K)) (commands : List (DeliveryCommand R))
    (totalDistanceTravelled : R) : Option (PlanOutput R) :=
  let routes : List (List (StreetSegment K × String)) := []
  match mod[0]? with
  | none => none
  | some first =>
    match addStreetSegsToRoutes dist hasher coordLt sm fuel depot first.location first.item
        routes with
    | none => none
    | some (res1, routes) =>
      match planLegs dist hasher coordLt sm fuel mod (mod.length - 1) 0 routes with
      | none => none
      | some (LegsExit.returned res) => some ⟨res, commands, totalDistanceTravelled⟩
      | some (LegsExit.completed routes) =>
        match mod[mod.length - 1]? with
        | none => none
        | some last =>
          match addStreetSegsToRoutes dist hasher coordLt sm fuel last.location depot ""
              routes with
          | none => none
          | some (res2, routes) =>
            if res1 ≠ DeliveryResult.DELIVERY_SUCCESS ∧ res2 ≠ DeliveryResult.DELIVERY_SUCCESS
            then some ⟨res1, commands, totalDistanceTravelled⟩
            else
              some ⟨DeliveryResult.DELIVERY_SUCCESS,
                buildCommands dist angleOfLine angleBetween2Lines routes,
                totalDistanceTravelled⟩

/-- Method `DeliveryPlannerImpl::generateDeliveryPlan(depot, deliveries, commands,
totalDistanceTravelled)`: the optimizer works on the copy `mod` and writes its new distance
to `totalDistanceTravelled`. -/
def generateDeliveryPlan (dist : K → K → R) (hasher : K → Nat) (coordLt : K → K → Bool)
    (sm : StreetMapImpl K) (sqrtFn : Nat → R) (expFn : R → R) (ints : Nat → Nat)
    (reals : Nat → R) (angleOfLine : StreetSegment K → R)
    (angleBetween2Lines : StreetSegment K → StreetSegment K → R) (fuel : Nat) (depot : K)
    (deliveries : List (DeliveryRequest K)) (commands : List (DeliveryCommand R)) :
    Option (PlanOutput R) :=
  let mod := deliveries
  match optimizeDeliveryOrder dist hasher coordLt sm sqrtFn expFn ints reals fuel depot mod with
  | none => none
  | some optimized =>
    planFromOrder dist hasher coordLt sm angleOfLine angleBetween2Lines fuel depot
      optimized.deliveries commands optimized.newCrowDistance

end Planner

end DeliveryRouter

namespace DeliveryRouter

namespace ExpandableHashMap

variable {K V : Type}

/-- States of a map that the public interface can produce: construction followed by any
number of `associate` and `reset` calls. -/
inductive Reachable [DecidableEq K] (hasher : K → Nat) : ExpandableHashMap K V → Prop
  | construct (maximumLoadFactor : ℚ) : Reachable hasher (construct maximumLoadFactor)
  | associate {m : ExpandableHashMap K V} (key : K) (value : V) :
      Reachable hasher m → Reachable hasher (associate hasher m key value)
  | reset {m : ExpandableHashMap K V} : Reachable hasher m → Reachable hasher (reset m)

/-- Empty maps as the interface hands them out: freshly constructed, or reset from a
reachable state. -/
inductive Fresh [DecidableEq K] (hasher : K → Nat) : ExpandableHashMap K V → Prop
  | construct (maximumLoadFactor : ℚ) : Fresh hasher (construct maximumLoadFactor)
  | reset {m : ExpandableHashMap K V} : Reachable hasher m → Fresh hasher (reset m)

/-- Layout invariant used in the proofs: at least eight buckets, all of them inside the
allocated array, and every item sits in the bucket its hash selects. -/
structure Layout (hasher : K → Nat) (m : ExpandableHashMap K V) : Prop where
  buckets_ge : 8 ≤ m.num_buckets
  buckets_le : m.num_buckets ≤ m.hash_table.length
  hashed : ∀ i, ∀ it ∈ m.bucket i, hasher it.key % m.num_buckets = i

/-- The index computed by `find(key)` is a valid index of the bucket array and the modulus is
not zero: the two conditions under which the C++ `find` has defined behaviour. -/
def FindInBounds (hasher : K → Nat) (m : ExpandableHashMap K V) (key : K) : Prop :=
  0 < m.num_buckets ∧ hasher key % m.num_buckets < m.hash_table.length

/-- Structural invariant of the table: every stored entry lies in the bucket its hash selects,
no two stored entries have equal keys, and `num_items` counts the stored entries. -/
structure Structural (hasher : K → Nat) (m : ExpandableHashMap K V) : Prop where
  in_bucket : ∀ i, ∀ it ∈ m.bucket i, hasher it.key % m.num_buckets = i
  keys_unique : (m.hash_table.flatten.map (fun it => it.key)).Nodup
  counted : m.num_items = m.hash_table.flatten.length

/-- Two states with the same load factor, bucket count, item count and the same chain in
every bucket (they may differ in the number of unused lists allocated behind the last
bucket, which is what `reset` leaves behind). -/
structure SameContents (m1 m2 : ExpandableHashMap K V) : Prop where
  load : m1.max_load_factor = m2.max_load_factor
  buckets : m1.num_buckets = m2.num_buckets
  items : m1.num_items = m2.num_items
  chains : ∀ i, m1.bucket i = m2.bucket i

end ExpandableHashMap

end DeliveryRouter

namespace DeliveryRouter

open ExpandableHashMap

section RouterSpec

variable {K R : Type} [DecidableEq K] [LinearOrderedCommRing R]

/-! ## Vocabulary of the router's specification -/

/-- Segment `e` is one of the segments the street map returns for coordinate `c`. -/
def Adjacent (hasher : K → Nat) (sm : StreetMapImpl K) (c : K) (e : StreetSegment K) : Prop :=
  ∃ v, find hasher sm.map c = some v ∧ e ∈ v

/-- The adjacency lookup reports coordinate `c` as known. -/
def Known (hasher : K → Nat) (sm : StreetMapImpl K) (c : K) : Prop :=
  (sm.getSegmentsThatStartWith hasher c []).1 = true

/-- A directed edge path from `a` to `b`: each segment is returned for the coordinate the path
has reached, and leads to the segment's end. -/
def IsPath (hasher : K → Nat) (sm : StreetMapImpl K) : K → List (StreetSegment K) → K → Prop
  | a, [], b => a = b
  | a, e :: p, b => Adjacent hasher sm a e ∧ IsPath hasher sm e.end_ p b

/-- Sum of the segment lengths `distance(start, end)` along a list of segments. -/
def pathLength (dist : K → K → R) (p : List (StreetSegment K)) : R :=
  (p.map (fun e => dist e.start e.end_)).sum

/-- Every segment is stored under its own start coordinate (what `StreetMapImpl::load` does:
it pushes `{cur.first, cur.second, name}` to the vector of `cur.first`). -/
def StartsAtKey (hasher : K → Nat) (sm : StreetMapImpl K) : Prop :=
  ∀ c e, Adjacent hasher sm c e → e.start = c

/-- Every segment of the adjacency has a non-negative length. -/
def NonNegEdges (dist : K → K → R) (hasher : K → Nat) (sm : StreetMapImpl K) : Prop :=
  ∀ c e, Adjacent hasher sm c e → 0 ≤ dist e.start e.end_

/-- Consecutive segments of a route meet: `route[i].end == route[i+1].start`. -/
def Contiguous (route : List (StreetSegment K)) : Prop :=
  List.Chain' (fun a b : StreetSegment K => a.end_ = b.start) route

/-! ## Auxiliary notions of the correctness proof -/

/-- The coordinate a list of segments leads to when it is followed from `a`. -/
def pathEnd (a : K) (p : List (StreetSegment K)) : K :=
  match p.getLast? with
  | none => a
  | some e => e.end_

/-- What the search loop can observe of its state: the two maps as lookup functions, and the
queue. -/
structure View (K R : Type) where
  cost : K → Option R
  hist : K → Option (StreetSegment K)
  queue : List (R × K)

/-- The view of a search state. -/
def SearchState.view (hasher : K → Nat) (st : SearchState K R) : View K R :=
  { cost := find hasher st.cost_map
    hist := find hasher st.history
    queue := st.open_list }

/-- The view after a relaxation of segment `e` that recorded cost `c` for `e.end_`. -/
def View.relaxed (dist : K → K → R) (end_ : K) (w : View K R) (e : StreetSegment K) (c : R) :
    View K R :=
  { cost := fun x => if x = e.end_ then some c else w.cost x
    hist := fun x => if x = e.end_ then some e else w.hist x
    queue := w.queue ++ [(c + dist e.end_ end_, e.end_)] }

/-- The view after the queue has been replaced. -/
def View.withQueue (w : View K R) (q : List (R × K)) : View K R :=
  { cost := w.cost, hist := w.hist, queue := q }

/-- The predecessor entries lead from `v` back to `start`; the list holds the segments in the
order the reconstruction loop meets them (last segment of the route first). -/
def ChainRev (hist : K → Option (StreetSegment K)) (start : K) :
    K → List (StreetSegment K) → Prop
  | v, [] => v = start
  | v, e :: p => v ≠ start ∧ hist v = some e ∧ ChainRev hist start e.start p

/-- Coordinate `x` with recorded cost `c` is settled: it has a queue entry with its current
priority (or it is the start with the initial entry), or all its segments are relaxed. -/
def Settled (dist : K → K → R) (hasher : K → Nat) (sm : StreetMapImpl K) (start end_ : K)
    (w : View K R) (x : K) (c : R) : Prop :=
  (∃ p, (p, x) ∈ w.queue ∧ (p = c + dist x end_ ∨ (x = start ∧ p = 0))) ∨
  ∀ e, Adjacent hasher sm x e →
    ∃ c2, w.cost e.end_ = some c2 ∧ c2 ≤ c + dist e.start e.end_

/-- Every coordinate with a recorded cost is settled (holds between iterations). -/
def Closed (dist : K → K → R) (hasher : K → Nat) (sm : StreetMapImpl K) (start end_ : K)
    (w : View K R) : Prop :=
  ∀ x c, w.cost x = some c → Settled dist hasher sm start end_ w x c

/-- In the middle of the expansion of `u`: all other coordinates are settled and the segments
in `done` are relaxed. -/
structure Expanding (dist : K → K → R) (hasher : K → Nat) (sm : StreetMapImpl K)
    (start end_ : K) (u : K) (cu : R) (done : List (StreetSegment K)) (w : View K R) :
    Prop where
  cost_u : w.cost u = some cu
  others : ∀ x c, w.cost x = some c → x ≠ u → Settled dist hasher sm start end_ w x c
  relaxed : ∀ e ∈ done, ∃ c2, w.cost e.end_ = some c2 ∧ c2 ≤ cu + dist e.start e.end_

/-- Invariant of the search loop, kept by every pop and every relaxation. -/
structure SearchInv (dist : K → K → R) (hasher : K → Nat) (sm : StreetMapImpl K)
    (start end_ : K) (w : View K R) : Prop where
  start_cost : w.cost start = some 0
  cost_nonneg : ∀ v c, w.cost v = some c → 0 ≤ c
  queue_known : ∀ pc ∈ w.queue, ∃ c, w.cost pc.2 = some c
  witness : ∀ v c, w.cost v = some c →
    ∃ W, IsPath hasher sm start W v ∧ (W.map (fun e => e.end_)).Nodup ∧
      pathLength dist W = c ∧
      ∀ W1 W2, W = W1 ++ W2 →
        ∃ c1, w.cost (pathEnd start W1) = some c1 ∧ c1 ≤ pathLength dist W1
  priority : ∀ pc ∈ w.queue,
    (pc.2 = start ∧ pc.1 = 0) ∨ ∃ c, w.cost pc.2 = some c ∧ c + dist pc.2 end_ ≤ pc.1
  end_queued : ∀ c, w.cost end_ = some c → ∃ p, (p, end_) ∈ w.queue
  hist_edge : ∀ v e, w.hist v = some e →
    e.end_ = v ∧ Adjacent hasher sm e.start e ∧ v ≠ start ∧
      ∃ cu cv, w.cost e.start = some cu ∧ w.cost v = some cv ∧
        cu + dist e.start e.end_ ≤ cv
  chain : ∀ v c, w.cost v = some c → ∃ p, ChainRev w.hist start v p

/-- All segments stored in the street map. -/
def allSegments (sm : StreetMapImpl K) : List (StreetSegment K) :=
  (sm.map.hash_table.flatten.map (fun it => it.value)).flatten

/-- The lengths of all duplicate-free selections of stored segments: every cost the search
records is one of them. -/
def candidateCosts (dist : K → K → R) (sm : StreetMapImpl K) : List R :=
  (allSegments sm).dedup.sublists.map (pathLength dist)

/-- Rank of a recorded cost: the number of candidate costs below it, and one more than all
candidates when nothing is recorded. -/
def costRank (cands : List R) : Option R → Nat
  | none => cands.length + 1
  | some c => cands.countP (fun x => decide (x < c))

/-- Termination measure of the search loop: it drops with every iteration. -/
def searchMeasure (dist : K → K → R) (sm : StreetMapImpl K) (start : K) (w : View K R) : Nat :=
  w.queue.length +
    2 * ((start :: (allSegments sm).map (fun e => e.end_)).map
      (fun v => costRank (candidateCosts dist sm) (w.cost v))).sum

/-- The value of `lastGeoCoord` when the reconstruction loop exits with the given route: the
start of the first segment, or the destination when no segment was added. -/
def stopCoordinate (end_ : K) (route : List (StreetSegment K)) : K :=
  match route.head? with
  | none => end_
  | some e => e.start

/-- Executable test of `IsPath`. -/
def isPathCheck (hasher : K → Nat) (sm : StreetMapImpl K) :
    K → List (StreetSegment K) → K → Bool
  | a, [], b => decide (a = b)
  | a, e :: p, b =>
    (match find hasher sm.map a with
      | none => false
      | some v => decide (e ∈ v)) && isPathCheck hasher sm e.end_ p b

end RouterSpec

end DeliveryRouter

namespace DeliveryRouter

/-! ## Vocabulary for the optimizer -/

section OptimizerSpec

variable {K R : Type} [DecidableEq K] [LinearOrderedField R]

/-- The legs of a tour that stands at `a`, still has to visit `stops` in order and then goes
to `last`. -/
def legsFrom (a : K) : List K → K → List (K × K)
  | [], last => [(a, last)]
  | b :: rest, last => (a, b) :: legsFrom b rest last

/-- The `N + 1` legs depot → s1, s1 → s2, ..., sN → depot of a stop list `s1 .. sN`. -/
def tourLegs (depot : K) (deliveries : List (DeliveryRequest K)) : List (K × K) :=
  legsFrom depot (deliveries.map (fun d => d.location)) depot

/-- Both coordinates are known to the street map and a directed edge path leads from `a` to
`b`. -/
def Linked (hasher : K → Nat) (sm : StreetMapImpl K) (a b : K) : Prop :=
  Known hasher sm a ∧ Known hasher sm b ∧ ∃ p, IsPath hasher sm a p b

/-- The router, called on its own for one leg, returns `DELIVERY_SUCCESS`. -/
def RouterSucceeds (dist : K → K → R) (hasher : K → Nat) (coordLt : K → K → Bool)
    (sm : StreetMapImpl K) (fuel : Nat) (leg : K × K) : Prop :=
  ∃ out, generatePointToPointRoute dist hasher coordLt sm fuel leg.1 leg.2 [] 0 = some out ∧
    out.result = DeliveryResult.DELIVERY_SUCCESS

/-- The `totalDistanceTravelled` the router reports for one leg when called on its own. -/
def routerDistance (dist : K → K → R) (hasher : K → Nat) (coordLt : K → K → Bool)
    (sm : StreetMapImpl K) (fuel : Nat) (leg : K × K) : R :=
  match generatePointToPointRoute dist hasher coordLt sm fuel leg.1 leg.2 [] 0 with
  | some out => out.totalDistanceTravelled
  | none => 0

/-- Sum of the router's `totalDistanceTravelled` over the legs of the tour. -/
def tourDistance (dist : K → K → R) (hasher : K → Nat) (coordLt : K → K → Bool)
    (sm : StreetMapImpl K) (fuel : Nat) (depot : K) (deliveries : List (DeliveryRequest K)) :
    R :=
  ((tourLegs depot deliveries).map (routerDistance dist hasher coordLt sm fuel)).sum

/-- Each position draw eventually yields two distinct positions: from every cursor of the
integer stream on, some later pair of draws for a vector of `size` elements differs. -/
def DrawsSeparate (ints : Nat → Nat) (size : Nat) : Prop :=
  ∀ cursor, ∃ j,
    randInt (ints (cursor + 2 * j)) 0 ((size : Int) - 1)
      ≠ randInt (ints (cursor + 2 * j + 1)) 0 ((size : Int) - 1)

end OptimizerSpec

end DeliveryRouter

namespace DeliveryRouter

/-! ## Vocabulary for the planner -/

section PlannerSpec

variable {K R : Type} [DecidableEq K]

/-- Every segment is stored together with its reverse: with `e` under its start, the segment
from `e.end_` back to `e.start` with the same name is stored under `e.end_` (what
`StreetMapImpl::load` does for every segment line). -/
def TwoWay (hasher : K → Nat) (sm : StreetMapImpl K) : Prop :=
  ∀ c e, Adjacent hasher sm c e → Adjacent hasher sm e.end_ ⟨e.end_, e.start, e.name⟩

/-- The items of the deliver commands of a command list, in order. -/
def deliverItems : List (DeliveryCommand R) → List String
  | [] => []
  | DeliveryCommand.deliver item :: rest => item :: deliverItems rest
  | _ :: rest => deliverItems rest

end PlannerSpec

end DeliveryRouter

namespace DeliveryRouter

/-! ## Concrete inputs used to exercise the theorems -/

/-- The identity hash on natural-number keys. -/
def natHasher (k : Nat) : Nat := k

/-- Hash that sends every key to bucket 0. -/
def constHasher (_ : Nat) : Nat := 0

/-- The default map after `associate(1,10)`, `associate(2,20)`, `associate(3,30)`,
`associate(4,40)`: four items in eight buckets. -/
def fourKeys : ExpandableHashMap Nat Nat :=
  ExpandableHashMap.associateAll natHasher ExpandableHashMap.constructDefault
    [(1, 10), (2, 20), (3, 30), (4, 40)]

/-- The corners of the 2×2 grid are `0 = A`, `1 = B`, `2 = C`, `3 = D` in cyclic order; the
hash of a corner is its number. -/
def gridHasher (c : Fin 4) : Nat := c.val

/-- Order of the corners. -/
def gridLt (a b : Fin 4) : Bool := decide (a < b)

/-- Distance on the grid: 0 between equal corners, 1 between neighbours, 2 between opposite
corners. -/
def gridDist (a b : Fin 4) : ℤ :=
  if a = b then 0 else if a.val + 2 = b.val ∨ b.val + 2 = a.val then 2 else 1

/-- The directed unit edge from `a` to `b`. -/
def gridSeg (a b : Fin 4) : StreetSegment (Fin 4) := ⟨a, b, "edge"⟩

/-- The 2×2 grid: the four unit edges `A - B`, `B - C`, `C - D`, `D - A` of one street, loaded
in both directions. -/
def grid : StreetMapImpl (Fin 4) :=
  StreetMapImpl.load gridHasher [("edge", [(0, 1), (1, 2), (2, 3), (3, 0)])]

/-- Two separate components: `A - B` and `C - D`. -/
def islands : StreetMapImpl (Fin 4) :=
  StreetMapImpl.load gridHasher [("edge", [(0, 1), (2, 3)])]

/-- A map that knows only the corners `A` and `B`. -/
def twoCorners : StreetMapImpl (Fin 4) :=
  StreetMapImpl.load gridHasher [("edge", [(0, 1)])]

end DeliveryRouter

namespace DeliveryRouter

/-- Distance on the grid as a rational number. -/
def gridMiles (a b : Fin 4) : ℚ := (gridDist a b : ℚ)

/-- A rational stand-in for `sqrt` on vector sizes: the integer square root of `100 * n`,
found by counting the numbers whose square is at most `100 * n`, divided by 10. -/
def sqrtApprox (n : Nat) : ℚ :=
  ((((List.range (100 * n + 1)).filter (fun k => k * k ≤ 100 * n)).length - 1 : Nat) : ℚ) / 10

/-- A rational stand-in for `exp`: `1 / (1 - x)` for `x ≤ 0` and `1 + x` above. -/
def expApprox (x : ℚ) : ℚ := if x ≤ 0 then 1 / (1 - x) else 1 + x

/-- Integer stream `0, 1, 2, ...`. -/
def countingInts (i : Nat) : Nat := i

/-- Real stream that is constantly one half. -/
def halfReals (_ : Nat) : ℚ := 1 / 2

/-- Three stops at the corners `C`, `B`, `D` of the grid. -/
def threeStops : List (DeliveryRequest (Fin 4)) :=
  [⟨"chicken", 2⟩, ⟨"beer", 1⟩, ⟨"salmon", 3⟩]

/-- The same stops in the order `B`, `C`, `D` of a walk around the grid. -/
def roundTrip : List (DeliveryRequest (Fin 4)) :=
  [⟨"beer", 1⟩, ⟨"chicken", 2⟩, ⟨"salmon", 3⟩]

/-- An annealing state with the walk around the grid as working order, its approximate
distance 4 as best distance and temperature 1, before any random draw. -/
def roundTripState : AnnealState (Fin 4) ℚ :=
  { t := 1
    best_dist := 4
    currentSolution := roundTrip
    intCursor := 0
    realCursor := 0 }

end DeliveryRouter

namespace DeliveryRouter

/-- A network with one-way segments: `B` and `C` are joined in both directions and each has
a segment to `A`, while `A` is known to the map but has no outgoing segment. -/
def oneWay : StreetMapImpl (Fin 4) :=
  ⟨ExpandableHashMap.associateAll gridHasher ExpandableHashMap.constructDefault
    [(0, []), (1, [gridSeg 1 2, gridSeg 1 0]), (2, [gridSeg 2 1, gridSeg 2 0])]⟩

/-- Two stops at the corners `B` and `C`. -/
def stopsBC : List (DeliveryRequest (Fin 4)) :=
  [⟨"beer", 1⟩, ⟨"chicken", 2⟩]

/-- Two stops at the corners `B` and `D`, the two neighbours of `A` on the grid. -/
def stopsBD : List (DeliveryRequest (Fin 4)) :=
  [⟨"beer", 1⟩, ⟨"salmon", 3⟩]

/-- Two stops at the corner `A`, where the depot of the examples is. -/
def stopsAtDepot : List (DeliveryRequest (Fin 4)) :=
  [⟨"beer", 0⟩, ⟨"salmon", 0⟩]

/-- Stand-in for `angleOfLine`: every segment points east. -/
def eastAngle (_ : StreetSegment (Fin 4)) : ℚ := 0

/-- Stand-in for `angleBetween2Lines`: every pair of segments meets at 90 degrees. -/
def squareAngle (_ _ : StreetSegment (Fin 4)) : ℚ := 90

end DeliveryRouter

namespace DeliveryRouter
namespace ExpandableHashMap
variable {K V : Type}

set_option linter.unusedSectionVars false

theorem length_updateBucket (table : List (List (Item K V))) (h : Nat)
    (f : List (Item K V) → List (Item K V)) :
    (updateBucket table h f).length = table.length := by
  induction table generalizing h with
  | nil => simp [updateBucket]
  | cons b t ih =>
    cases h with
    | zero => simp [updateBucket]
    | succ n => simp [updateBucket, ih]

theorem getD_updateBucket (table : List (List (Item K V))) (h i : Nat)
    (f : List (Item K V) → List (Item K V)) :
    (updateBucket table h f).getD i [] =
      if i = h ∧ h < table.length then f (table.getD h []) else table.getD i [] := by
  induction table generalizing h i with
  | nil => simp [updateBucket]
  | cons b t ih =>
    cases h with
    | zero =>
      cases i with
      | zero => simp [updateBucket]
      | succ j => simp [updateBucket]
    | succ n =>
      cases i with
      | zero => simp [updateBucket]
      | succ j =>
        have h1 := ih n j
        simpa [updateBucket, List.getD_eq_getElem?_getD] using h1

theorem getD_replicate_nil (n i : Nat) :
    (List.replicate n ([] : List (Item K V))).getD i [] = [] := by
  by_cases hi : i < n
  · simp [List.getD_eq_getElem?_getD, List.getElem?_replicate, hi]
  · simp [List.getD_eq_getElem?_getD, List.getElem?_replicate, hi]

theorem getD_of_length_le (table : List (List (Item K V))) (i : Nat) (h : table.length ≤ i) :
    table.getD i [] = [] := by
  simp [List.getD_eq_getElem?_getD, List.getElem?_eq_none h]

section Find
variable [DecidableEq K]

theorem findInBucket_append (a b : List (Item K V)) (k : K) :
    findInBucket (a ++ b) k =
      match findInBucket a k with
      | some v => some v
      | none => findInBucket b k := by
  induction a with
  | nil => simp [findInBucket]
  | cons it p ih =>
    by_cases hk : it.key = k
    · simp [findInBucket, hk]
    · simp [findInBucket, hk, ih]

theorem findInBucket_eq_none_iff (b : List (Item K V)) (k : K) :
    findInBucket b k = none ↔ ∀ it ∈ b, it.key ≠ k := by
  induction b with
  | nil => simp [findInBucket]
  | cons it p ih =>
    by_cases hk : it.key = k
    · simp [findInBucket, hk]
    · simp [findInBucket, hk, ih]

theorem findInBucket_assign (b : List (Item K V)) (k k' : K) (v : V) :
    findInBucket (assignInBucket b k v) k' =
      if k' = k then (findInBucket b k).map (fun _ => v) else findInBucket b k' := by
  induction b with
  | nil => simp [findInBucket, assignInBucket]
  | cons it p ih =>
    by_cases hk : it.key = k
    · by_cases hk' : k' = k
      · simp [findInBucket, assignInBucket, hk, hk']
      · have : ¬ k = k' := fun h => hk' h.symm
        simp [findInBucket, assignInBucket, hk, hk', this]
    · by_cases hk' : k' = k
      · subst hk'
        simp [findInBucket, assignInBucket, hk, ih]
      · by_cases h3 : it.key = k'
        · simp [findInBucket, assignInBucket, hk, hk', h3]
        · simp [findInBucket, assignInBucket, hk, hk', h3, ih]

theorem findInBucket_filter (b : List (Item K V)) (k : K) (p : Item K V → Bool)
    (hp : ∀ it, it.key = k → p it = true) :
    findInBucket (b.filter p) k = findInBucket b k := by
  induction b with
  | nil => simp [findInBucket]
  | cons it q ih =>
    by_cases hk : it.key = k
    · simp [findInBucket, hk, List.filter_cons, hp it hk]
    · by_cases hpi : p it = true
      · simp [findInBucket, hk, List.filter_cons, hpi, ih]
      · simp [findInBucket, hk, List.filter_cons, hpi, ih]

theorem mem_assignInBucket_key (b : List (Item K V)) (k : K) (v : V) (it : Item K V)
    (h : it ∈ assignInBucket b k v) : ∃ it' ∈ b, it'.key = it.key := by
  induction b with
  | nil => simp [assignInBucket] at h
  | cons x q ih =>
    by_cases hk : x.key = k
    · simp only [assignInBucket, hk, if_true, List.mem_cons] at h
      rcases h with h | h
      · exact ⟨x, by simp, by simp [h, hk]⟩
      · exact ⟨it, by simp [h], rfl⟩
    · simp only [assignInBucket, hk, if_false, List.mem_cons] at h
      rcases h with h | h
      · exact ⟨x, by simp, by simp [h]⟩
      · obtain ⟨it', h1, h2⟩ := ih h
        exact ⟨it', by simp [h1], h2⟩

theorem length_foldl_pushBack (hasher : K → Nat) (n : Nat) (its : List (Item K V))
    (table : List (List (Item K V))) :
    (its.foldl (fun t it => pushBack t (hasher it.key % n) it) table).length = table.length := by
  induction its generalizing table with
  | nil => rfl
  | cons it its ih =>
    rw [List.foldl_cons, ih]
    simp [pushBack, length_updateBucket]

theorem getD_foldl_pushBack (hasher : K → Nat) (n : Nat) (hn : 0 < n) (its : List (Item K V))
    (table : List (List (Item K V))) (hlen : table.length = n) (j : Nat) :
    (its.foldl (fun t it => pushBack t (hasher it.key % n) it) table).getD j [] =
      table.getD j [] ++ its.filter (fun it => decide (hasher it.key % n = j)) := by
  induction its generalizing table with
  | nil => simp
  | cons it its ih =>
    have hlt : hasher it.key % n < table.length := by
      rw [hlen]; exact Nat.mod_lt _ hn
    rw [List.foldl_cons, ih _ (by simp [pushBack, length_updateBucket, hlen])]
    rw [pushBack, getD_updateBucket]
    by_cases hj : j = hasher it.key % n
    · subst hj
      simp [hlt, List.filter_cons]
    · have hj' : ¬ hasher it.key % n = j := fun h => hj h.symm
      simp [hj, hj', List.filter_cons]

theorem length_rehashFold (hasher : K → Nat) (m : ExpandableHashMap K V) (n : Nat)
    (is : List Nat) (table : List (List (Item K V))) :
    (is.foldl (fun temp i =>
        (m.bucket i).foldl (fun temp it => pushBack temp (hasher it.key % n) it) temp)
      table).length = table.length := by
  induction is generalizing table with
  | nil => rfl
  | cons i is ih => simp [List.foldl_cons, ih, length_foldl_pushBack]

theorem getD_rehashFold (hasher : K → Nat) (m : ExpandableHashMap K V) (n : Nat) (hn : 0 < n)
    (is : List Nat) (table : List (List (Item K V))) (hlen : table.length = n) (j : Nat) :
    (is.foldl (fun temp i =>
        (m.bucket i).foldl (fun temp it => pushBack temp (hasher it.key % n) it) temp)
      table).getD j [] =
      table.getD j [] ++
        ((is.map m.bucket).flatten).filter (fun it => decide (hasher it.key % n = j)) := by
  induction is generalizing table with
  | nil => simp
  | cons i is ih =>
    rw [List.foldl_cons, ih _ (by rw [length_foldl_pushBack, hlen]),
      getD_foldl_pushBack hasher n hn _ _ hlen]
    simp [List.append_assoc]

theorem length_rehash (hasher : K → Nat) (m : ExpandableHashMap K V) (n : Nat) :
    (rehash hasher m n).length = n := by
  simp [rehash, length_rehashFold]

theorem getD_rehash (hasher : K → Nat) (m : ExpandableHashMap K V) (n : Nat) (hn : 0 < n)
    (j : Nat) :
    (rehash hasher m n).getD j [] =
      (((List.range m.num_buckets).map m.bucket).flatten).filter
        (fun it => decide (hasher it.key % n = j)) := by
  rw [rehash, getD_rehashFold hasher m n hn _ _ (by simp)]
  rw [getD_replicate_nil, List.nil_append]

theorem findInBucket_join (m : ExpandableHashMap K V) (k : K) (h' : Nat)
    (hother : ∀ i, i ≠ h' → ∀ it ∈ m.bucket i, it.key ≠ k) (is : List Nat) :
    findInBucket ((is.map m.bucket).flatten) k =
      if h' ∈ is then findInBucket (m.bucket h') k else none := by
  induction is with
  | nil => simp [findInBucket]
  | cons i is ih =>
    rw [List.map_cons, List.flatten_cons, findInBucket_append, ih]
    by_cases hi : i = h'
    · subst hi
      cases hf : findInBucket (m.bucket i) k with
      | none => simp
      | some v => simp
    · have hnone : findInBucket (m.bucket i) k = none :=
        (findInBucket_eq_none_iff _ _).2 (hother i hi)
      have hi' : ¬ h' = i := fun h => hi h.symm
      simp [hnone, hi']

theorem Layout.other_buckets {hasher : K → Nat} {m : ExpandableHashMap K V}
    (hm : Layout hasher m) (k : K) :
    ∀ i, i ≠ hasher k % m.num_buckets → ∀ it ∈ m.bucket i, it.key ≠ k := by
  intro i hi it hit hk
  apply hi
  rw [← hm.hashed i it hit, hk]

theorem find_rehash {hasher : K → Nat} {m : ExpandableHashMap K V} (hm : Layout hasher m)
    (n : Nat) (hn : 0 < n) (k : K) :
    findInBucket ((rehash hasher m n).getD (hasher k % n) []) k = find hasher m k := by
  rw [getD_rehash hasher m n hn, findInBucket_filter _ _ _ (by intro it hit; simp [hit]),
    findInBucket_join m k _ (hm.other_buckets k)]
  have hpos : 0 < m.num_buckets := lt_of_lt_of_le (by norm_num) hm.buckets_ge
  simp [find, Nat.mod_lt _ hpos]

theorem layout_construct (hasher : K → Nat) (maximumLoadFactor : ℚ) :
    Layout hasher (construct maximumLoadFactor : ExpandableHashMap K V) := by
  refine ⟨le_refl _, by simp [construct], ?_⟩
  intro i it hit
  have : (construct maximumLoadFactor : ExpandableHashMap K V).bucket i = [] :=
    getD_replicate_nil 8 i
  rw [this] at hit
  cases hit

theorem layout_reset {hasher : K → Nat} {m : ExpandableHashMap K V} (hm : Layout hasher m) :
    Layout hasher (reset m) := by
  refine ⟨le_refl _, by simpa [reset] using hm.buckets_ge, ?_⟩
  intro i it hit
  have : (reset m).bucket i = [] := getD_replicate_nil m.num_buckets i
  rw [this] at hit
  cases hit

theorem layout_grow {hasher : K → Nat} {m : ExpandableHashMap K V} (hm : Layout hasher m) :
    Layout hasher (grow hasher m) := by
  have hpos : 0 < m.num_buckets := lt_of_lt_of_le (by norm_num) hm.buckets_ge
  unfold grow
  simp only
  split
  · refine ⟨?_, ?_, ?_⟩
    · show 8 ≤ m.num_buckets * 2
      have := hm.buckets_ge
      omega
    · show m.num_buckets * 2 ≤ (rehash hasher m (m.num_buckets * 2)).length
      rw [length_rehash]
    · intro i it hit
      have hit' : it ∈ (rehash hasher m (m.num_buckets * 2)).getD i [] := hit
      rw [getD_rehash hasher m _ (by omega)] at hit'
      simpa using (List.mem_filter.1 hit').2
  · exact ⟨hm.buckets_ge, hm.buckets_le, hm.hashed⟩

theorem find_grow {hasher : K → Nat} {m : ExpandableHashMap K V} (hm : Layout hasher m)
    (k : K) : find hasher (grow hasher m) k = find hasher m k := by
  have hpos : 0 < m.num_buckets := lt_of_lt_of_le (by norm_num) hm.buckets_ge
  unfold grow
  simp only
  split
  · exact find_rehash hm (m.num_buckets * 2) (by omega) k
  · rfl

theorem layout_associate {hasher : K → Nat} {m : ExpandableHashMap K V}
    (hm : Layout hasher m) (k : K) (v : V) : Layout hasher (associate hasher m k v) := by
  unfold associate
  split
  · refine ⟨hm.buckets_ge, ?_, ?_⟩
    · show m.num_buckets ≤ (updateBucket _ _ _).length
      rw [length_updateBucket]; exact hm.buckets_le
    · intro i it hit
      have hit' : it ∈ (updateBucket m.hash_table (hasher k % m.num_buckets)
          (fun b => assignInBucket b k v)).getD i [] := hit
      rw [getD_updateBucket] at hit'
      split at hit'
      · rename_i hcond
        obtain ⟨it', h1, h2⟩ := mem_assignInBucket_key _ _ _ _ hit'
        rw [← h2, hcond.1]
        exact hm.hashed _ it' h1
      · exact hm.hashed i it hit'
  · have hg := layout_grow hm
    refine ⟨hg.buckets_ge, ?_, ?_⟩
    · show (grow hasher m).num_buckets ≤ (pushBack _ _ _).length
      rw [pushBack, length_updateBucket]; exact hg.buckets_le
    · intro i it hit
      have hit' : it ∈ (pushBack (grow hasher m).hash_table
          (hasher k % (grow hasher m).num_buckets) (Item.mk k v)).getD i [] := hit
      rw [pushBack, getD_updateBucket] at hit'
      split at hit'
      · rename_i hcond
        rcases List.mem_append.1 hit' with h1 | h1
        · rw [hcond.1]; exact hg.hashed _ it h1
        · simp only [List.mem_singleton] at h1
          rw [h1, hcond.1]
      · exact hg.hashed i it hit'

theorem Reachable.layout {hasher : K → Nat} {m : ExpandableHashMap K V}
    (h : Reachable hasher m) : Layout hasher m := by
  induction h with
  | construct L => exact layout_construct hasher L
  | associate k v _ ih => exact layout_associate ih k v
  | reset _ ih => exact layout_reset ih

theorem Fresh.reachable {hasher : K → Nat} {m : ExpandableHashMap K V}
    (h : Fresh hasher m) : Reachable hasher m := by
  cases h with
  | construct L => exact Reachable.construct L
  | reset h => exact Reachable.reset h

theorem find_associate {hasher : K → Nat} {m : ExpandableHashMap K V} (hm : Layout hasher m)
    (k : K) (v : V) (k' : K) :
    find hasher (associate hasher m k v) k' = if k' = k then some v else find hasher m k' := by
  have hpos : 0 < m.num_buckets := lt_of_lt_of_le (by norm_num) hm.buckets_ge
  unfold associate
  split
  · rename_i v0 hfind
    show findInBucket ((updateBucket m.hash_table (hasher k % m.num_buckets)
      (fun b => assignInBucket b k v)).getD (hasher k' % m.num_buckets) []) k' = _
    have hlt : hasher k % m.num_buckets < m.hash_table.length :=
      lt_of_lt_of_le (Nat.mod_lt _ hpos) hm.buckets_le
    rw [getD_updateBucket]
    by_cases hk : k' = k
    · subst hk
      have hf : findInBucket (m.hash_table.getD (hasher k' % m.num_buckets) []) k' = some v0 :=
        hfind
      rw [if_pos ⟨rfl, hlt⟩, if_pos rfl, findInBucket_assign, if_pos rfl, hf]
      rfl
    · rw [if_neg hk]
      by_cases hh : hasher k' % m.num_buckets = hasher k % m.num_buckets
      · rw [if_pos ⟨hh, hlt⟩, findInBucket_assign, if_neg hk, ← hh]
        rfl
      · rw [if_neg (fun h => hh h.1)]
        rfl
  · rename_i hfind
    have hg := layout_grow hm
    have hgpos : 0 < (grow hasher m).num_buckets := lt_of_lt_of_le (by norm_num) hg.buckets_ge
    have hlt : hasher k % (grow hasher m).num_buckets < (grow hasher m).hash_table.length :=
      lt_of_lt_of_le (Nat.mod_lt _ hgpos) hg.buckets_le
    show findInBucket ((pushBack (grow hasher m).hash_table
      (hasher k % (grow hasher m).num_buckets) (Item.mk k v)).getD
        (hasher k' % (grow hasher m).num_buckets) []) k' = _
    rw [pushBack, getD_updateBucket]
    have hfg : ∀ x, findInBucket ((grow hasher m).hash_table.getD
        (hasher x % (grow hasher m).num_buckets) []) x = find hasher m x :=
      fun x => find_grow hm x
    by_cases hk : k' = k
    · subst hk
      rw [if_pos ⟨rfl, hlt⟩, if_pos rfl, findInBucket_append, hfg, hfind]
      simp [findInBucket]
    · have hk2 : ¬ k = k' := fun h => hk h.symm
      rw [if_neg hk]
      by_cases hh : hasher k' % (grow hasher m).num_buckets
          = hasher k % (grow hasher m).num_buckets
      · rw [if_pos ⟨hh, hlt⟩, findInBucket_append, ← hh, hfg]
        cases hf : find hasher m k' with
        | none => simp [findInBucket, hk2]
        | some w => rfl
      · rw [if_neg (fun h => hh h.1)]
        exact hfg k'

end Find
end ExpandableHashMap
end DeliveryRouter

namespace DeliveryRouter
namespace ExpandableHashMap
variable {K V : Type}

set_option linter.unusedSectionVars false

section Sequences
variable [DecidableEq K]

theorem associateAll_nil (hasher : K → Nat) (m : ExpandableHashMap K V) :
    associateAll hasher m [] = m := rfl

theorem associateAll_cons (hasher : K → Nat) (m : ExpandableHashMap K V) (kv : K × V)
    (calls : List (K × V)) :
    associateAll hasher m (kv :: calls) =
      associateAll hasher (associate hasher m kv.1 kv.2) calls := rfl

theorem associateAll_append (hasher : K → Nat) (m : ExpandableHashMap K V)
    (xs ys : List (K × V)) :
    associateAll hasher m (xs ++ ys) = associateAll hasher (associateAll hasher m xs) ys := by
  simp [associateAll, List.foldl_append]

theorem layout_associateAll {hasher : K → Nat} {m : ExpandableHashMap K V}
    (hm : Layout hasher m) (calls : List (K × V)) :
    Layout hasher (associateAll hasher m calls) := by
  induction calls generalizing m with
  | nil => exact hm
  | cons kv calls ih => exact ih (layout_associate hm kv.1 kv.2)

theorem reachable_associateAll {hasher : K → Nat} {m : ExpandableHashMap K V}
    (hm : Reachable hasher m) (calls : List (K × V)) :
    Reachable hasher (associateAll hasher m calls) := by
  induction calls generalizing m with
  | nil => exact hm
  | cons kv calls ih => exact ih (Reachable.associate kv.1 kv.2 hm)

theorem find_associateAll_of_not_mem {hasher : K → Nat} {m : ExpandableHashMap K V}
    (hm : Layout hasher m) (calls : List (K × V)) (k : K) (hk : ∀ kv ∈ calls, kv.1 ≠ k) :
    find hasher (associateAll hasher m calls) k = find hasher m k := by
  induction calls generalizing m with
  | nil => rfl
  | cons kv calls ih =>
    rw [associateAll_cons, ih (layout_associate hm kv.1 kv.2)
      (fun x hx => hk x (List.mem_cons_of_mem _ hx)), find_associate hm]
    have : ¬ k = kv.1 := fun h => hk kv (List.mem_cons_self _ _) h.symm
    rw [if_neg this]

theorem find_associateAll_last {hasher : K → Nat} {m : ExpandableHashMap K V}
    (hm : Layout hasher m) (before later : List (K × V)) (k : K) (v : V)
    (hk : ∀ kv ∈ later, kv.1 ≠ k) :
    find hasher (associateAll hasher m (before ++ (k, v) :: later)) k = some v := by
  rw [associateAll_append, associateAll_cons,
    find_associateAll_of_not_mem (layout_associate (layout_associateAll hm before) _ _) later k hk,
    find_associate (layout_associateAll hm before), if_pos rfl]

theorem exists_last_call (calls : List (K × V)) (k : K) (hk : k ∈ calls.map Prod.fst) :
    ∃ before v later, calls = before ++ (k, v) :: later ∧ ∀ kv ∈ later, kv.1 ≠ k := by
  induction calls with
  | nil => simp at hk
  | cons kv calls ih =>
    by_cases h : k ∈ calls.map Prod.fst
    · obtain ⟨b, v, l, h1, h2⟩ := ih h
      exact ⟨kv :: b, v, l, by rw [h1]; rfl, h2⟩
    · refine ⟨[], kv.2, calls, ?_, ?_⟩
      · have : kv.1 = k := by
          simp only [List.map_cons, List.mem_cons] at hk
          rcases hk with hk | hk
          · exact hk.symm
          · exact absurd hk h
        rw [← this]; rfl
      · intro x hx hxk
        exact h (List.mem_map.2 ⟨x, hx, hxk⟩)

theorem find_fresh {hasher : K → Nat} {m : ExpandableHashMap K V} (hm : Fresh hasher m)
    (k : K) : find hasher m k = none := by
  cases hm with
  | construct L =>
    show findInBucket ((List.replicate 8 []).getD _ []) k = none
    rw [getD_replicate_nil]; rfl
  | reset h =>
    rename_i m'
    show findInBucket ((List.replicate m'.num_buckets []).getD _ []) k = none
    rw [getD_replicate_nil]; rfl

theorem find_isSome_iff_mem {hasher : K → Nat} {m : ExpandableHashMap K V}
    (hm : Fresh hasher m) (calls : List (K × V)) (k : K) :
    find hasher (associateAll hasher m calls) k ≠ none ↔ k ∈ calls.map Prod.fst := by
  constructor
  · intro h
    by_contra hk
    apply h
    rw [find_associateAll_of_not_mem hm.reachable.layout calls k
      (fun x hx hxk => hk (List.mem_map.2 ⟨x, hx, hxk⟩))]
    exact find_fresh hm k
  · intro hk
    obtain ⟨b, v, l, h1, h2⟩ := exists_last_call calls k hk
    rw [h1, find_associateAll_last hm.reachable.layout b l k v h2]
    simp

theorem num_items_grow (hasher : K → Nat) (m : ExpandableHashMap K V) :
    (grow hasher m).num_items = m.num_items + 1 := by
  unfold grow
  simp only
  split <;> rfl

theorem size_associate (hasher : K → Nat) (m : ExpandableHashMap K V) (k : K) (v : V) :
    size (associate hasher m k v) =
      match find hasher m k with
      | some _ => size m
      | none => size m + 1 := by
  cases hf : find hasher m k with
  | some v0 => simp [associate, hf, size]
  | none => simp [associate, hf, size, num_items_grow]

theorem size_associateAll {hasher : K → Nat} {m : ExpandableHashMap K V}
    (hm : Fresh hasher m) (calls : List (K × V)) :
    size (associateAll hasher m calls) = (calls.map Prod.fst).toFinset.card := by
  induction calls using List.reverseRecOn with
  | nil =>
    cases hm with
    | construct L => rfl
    | reset h => rfl
  | append_singleton calls kv ih =>
    rw [associateAll_append, associateAll_cons, associateAll_nil, size_associate, ih]
    by_cases hk : kv.1 ∈ calls.map Prod.fst
    · have hf := (find_isSome_iff_mem hm calls kv.1).2 hk
      cases hf2 : find hasher (associateAll hasher m calls) kv.1 with
      | none => exact absurd hf2 hf
      | some w => ?_
      simp only
      congr 1
      ext x
      simp only [List.map_append, List.map_cons, List.map_nil, List.mem_toFinset,
        List.mem_append, List.mem_singleton]
      constructor
      · intro h; exact Or.inl h
      · rintro (h | h)
        · exact h
        · rw [h]; exact hk
    · have hf : find hasher (associateAll hasher m calls) kv.1 = none := by
        by_contra h
        exact hk ((find_isSome_iff_mem hm calls kv.1).1 h)
      rw [hf]
      simp only
      have : (List.map Prod.fst (calls ++ [kv])).toFinset
          = insert kv.1 (calls.map Prod.fst).toFinset := by
        ext x
        simp only [List.map_append, List.map_cons, List.map_nil, List.mem_toFinset,
          List.mem_append, List.mem_singleton, Finset.mem_insert]
        tauto
      rw [this, Finset.card_insert_of_not_mem (by simpa using hk)]

theorem Layout.findInBounds {hasher : K → Nat} {m : ExpandableHashMap K V}
    (hm : Layout hasher m) (k : K) : FindInBounds hasher m k := by
  have hpos : 0 < m.num_buckets := lt_of_lt_of_le (by norm_num) hm.buckets_ge
  exact ⟨hpos, lt_of_lt_of_le (Nat.mod_lt _ hpos) hm.buckets_le⟩

theorem num_buckets_grow (hasher : K → Nat) (m : ExpandableHashMap K V) :
    (grow hasher m).num_buckets =
      if ((m.num_items : ℚ) + 1) / (m.num_buckets : ℚ) > m.max_load_factor then
        2 * m.num_buckets
      else m.num_buckets := by
  unfold grow
  simp only [Nat.cast_add, Nat.cast_one]
  split
  · exact Nat.mul_comm _ _
  · rfl

theorem num_buckets_associate (hasher : K → Nat) (m : ExpandableHashMap K V) (k : K) (v : V) :
    (associate hasher m k v).num_buckets =
      match find hasher m k with
      | some _ => m.num_buckets
      | none =>
        if ((m.num_items : ℚ) + 1) / (m.num_buckets : ℚ) > m.max_load_factor then
          2 * m.num_buckets
        else m.num_buckets := by
  cases hf : find hasher m k with
  | some v0 => simp [associate, hf]
  | none => simp [associate, hf, num_buckets_grow]

end Sequences
end ExpandableHashMap
end DeliveryRouter

namespace DeliveryRouter
namespace ExpandableHashMap
variable {K V : Type} [DecidableEq K]

set_option linter.unusedSectionVars false

theorem flatten_pushBack_perm (table : List (List (Item K V))) (h : Nat) (it : Item K V)
    (hlt : h < table.length) : (pushBack table h it).flatten.Perm (it :: table.flatten) := by
  induction table generalizing h with
  | nil => exact absurd hlt (Nat.not_lt_zero _)
  | cons b t ih =>
    cases h with
    | zero =>
      simp only [pushBack, updateBucket, List.flatten_cons, List.append_assoc,
        List.singleton_append]
      exact List.perm_middle
    | succ n =>
      have hn : n < t.length := by simpa using hlt
      have h1 := ih n hn
      simp only [pushBack, updateBucket, List.flatten_cons] at h1 ⊢
      exact (List.Perm.append_left b h1).trans List.perm_middle

theorem flatten_foldl_pushBack_perm (hasher : K → Nat) (n : Nat) (hn : 0 < n)
    (its : List (Item K V)) (table : List (List (Item K V))) (hlen : table.length = n) :
    (its.foldl (fun t it => pushBack t (hasher it.key % n) it) table).flatten.Perm
      (table.flatten ++ its) := by
  induction its generalizing table with
  | nil => simp
  | cons it its ih =>
    have hlt : hasher it.key % n < table.length := by
      rw [hlen]; exact Nat.mod_lt _ hn
    rw [List.foldl_cons]
    refine (ih _ (by simp [pushBack, length_updateBucket, hlen])).trans ?_
    refine (List.Perm.append_right its (flatten_pushBack_perm table _ it hlt)).trans ?_
    simp only [List.cons_append]
    exact List.perm_middle.symm

theorem flatten_rehashFold_perm (hasher : K → Nat) (m : ExpandableHashMap K V) (n : Nat)
    (hn : 0 < n) (is : List Nat) (table : List (List (Item K V))) (hlen : table.length = n) :
    (is.foldl (fun temp i =>
        (m.bucket i).foldl (fun temp it => pushBack temp (hasher it.key % n) it) temp)
      table).flatten.Perm (table.flatten ++ (is.map m.bucket).flatten) := by
  induction is generalizing table with
  | nil => simp
  | cons i is ih =>
    rw [List.foldl_cons]
    refine (ih _ (by rw [length_foldl_pushBack, hlen])).trans ?_
    refine (List.Perm.append_right _
      (flatten_foldl_pushBack_perm hasher n hn (m.bucket i) table hlen)).trans ?_
    simp [List.append_assoc]

theorem flatten_replicate_nil (n : Nat) :
    (List.replicate n ([] : List (Item K V))).flatten = [] := by
  induction n with
  | zero => rfl
  | succ n ih => simp [List.replicate_succ, ih]

theorem flatten_rehash_perm (hasher : K → Nat) (m : ExpandableHashMap K V) (n : Nat)
    (hn : 0 < n) :
    (rehash hasher m n).flatten.Perm (((List.range m.num_buckets).map m.bucket).flatten) := by
  have h := flatten_rehashFold_perm hasher m n hn (List.range m.num_buckets)
    (List.replicate n []) (by simp)
  rw [flatten_replicate_nil, List.nil_append] at h
  exact h

theorem map_getD_range (table : List (List (Item K V))) (n : Nat) (hn : n ≤ table.length) :
    (List.range n).map (fun i => table.getD i []) = table.take n := by
  induction n with
  | zero => simp
  | succ n ih =>
    have hlt : n < table.length := hn
    rw [List.range_succ, List.map_append, ih (Nat.le_of_lt hlt), List.take_succ]
    simp [List.getD_eq_getElem?_getD, List.getElem?_eq_getElem hlt]

theorem flatten_eq_nil_of_forall (l : List (List (Item K V))) (h : ∀ b ∈ l, b = []) :
    l.flatten = [] := by
  induction l with
  | nil => rfl
  | cons b t ih =>
    rw [List.flatten_cons, h b (List.mem_cons_self _ _),
      ih (fun x hx => h x (List.mem_cons_of_mem _ hx))]
    rfl

theorem Layout.flatten_buckets {hasher : K → Nat} {m : ExpandableHashMap K V}
    (hm : Layout hasher m) :
    ((List.range m.num_buckets).map m.bucket).flatten = m.hash_table.flatten := by
  have hpos : 0 < m.num_buckets := lt_of_lt_of_le (by norm_num) hm.buckets_ge
  have h1 : (List.range m.num_buckets).map m.bucket = m.hash_table.take m.num_buckets :=
    map_getD_range m.hash_table m.num_buckets hm.buckets_le
  have h2 : (m.hash_table.drop m.num_buckets).flatten = [] := by
    apply flatten_eq_nil_of_forall
    intro b hb
    obtain ⟨j, hj⟩ := List.mem_iff_getElem?.1 hb
    rw [List.getElem?_drop] at hj
    cases hb' : b with
    | nil => rfl
    | cons it rest =>
      exfalso
      have hmem : it ∈ m.bucket (m.num_buckets + j) := by
        unfold bucket
        rw [List.getD_eq_getElem?_getD, hj, hb']
        simp
      have := hm.hashed _ it hmem
      have hlt := Nat.mod_lt (hasher it.key) hpos
      omega
  rw [h1]
  conv_rhs => rw [← List.take_append_drop m.num_buckets m.hash_table]
  rw [List.flatten_append, h2, List.append_nil]

theorem flatten_grow_perm {hasher : K → Nat} {m : ExpandableHashMap K V}
    (hm : Layout hasher m) :
    (grow hasher m).hash_table.flatten.Perm m.hash_table.flatten := by
  have hpos : 0 < m.num_buckets := lt_of_lt_of_le (by norm_num) hm.buckets_ge
  unfold grow
  simp only
  split
  · show (rehash hasher m (m.num_buckets * 2)).flatten.Perm _
    rw [← hm.flatten_buckets]
    exact flatten_rehash_perm hasher m _ (by omega)
  · exact List.Perm.refl _

theorem flatten_associate_absent {hasher : K → Nat}
    {m : ExpandableHashMap K V} (hm : Layout hasher m) (k : K) (v : V)
    (hnew : find hasher m k = none) :
    (associate hasher m k v).hash_table.flatten.Perm (Item.mk k v :: m.hash_table.flatten) := by
  have hg := layout_grow hm
  have hgpos : 0 < (grow hasher m).num_buckets := lt_of_lt_of_le (by norm_num) hg.buckets_ge
  have hlt : hasher k % (grow hasher m).num_buckets < (grow hasher m).hash_table.length :=
    lt_of_lt_of_le (Nat.mod_lt _ hgpos) hg.buckets_le
  have h1 : (associate hasher m k v).hash_table
      = pushBack (grow hasher m).hash_table (hasher k % (grow hasher m).num_buckets)
          (Item.mk k v) := by
    unfold associate
    rw [hnew]
  rw [h1]
  exact (flatten_pushBack_perm _ _ _ hlt).trans (List.Perm.cons _ (flatten_grow_perm hm))

end ExpandableHashMap
end DeliveryRouter

namespace DeliveryRouter
open ExpandableHashMap

set_option linter.unusedSectionVars false

section Load
variable {K : Type} [DecidableEq K]

theorem layout_constructDefault {V : Type} (hasher : K → Nat) :
    Layout hasher (constructDefault : ExpandableHashMap K V) :=
  layout_construct hasher (1 / 2)

theorem find_constructDefault {V : Type} (hasher : K → Nat) (k : K) :
    find hasher (constructDefault : ExpandableHashMap K V) k = none :=
  find_fresh (Fresh.construct (1 / 2)) k

theorem findInBucket_appendInBucket (b : List (Item K (List (StreetSegment K)))) (k k' : K)
    (seg : StreetSegment K) :
    findInBucket (appendInBucket b k seg) k' =
      if k' = k then (findInBucket b k).map (fun v => v ++ [seg]) else findInBucket b k' := by
  induction b with
  | nil => simp [findInBucket, appendInBucket]
  | cons it p ih =>
    by_cases hk : it.key = k
    · by_cases hk' : k' = k
      · simp [findInBucket, appendInBucket, hk, hk']
      · have : ¬ k = k' := fun h => hk' h.symm
        simp [findInBucket, appendInBucket, hk, hk', this]
    · by_cases hk' : k' = k
      · subst hk'
        simp [findInBucket, appendInBucket, hk, ih]
      · by_cases h3 : it.key = k'
        · simp [findInBucket, appendInBucket, hk, hk', h3]
        · simp [findInBucket, appendInBucket, hk, hk', h3, ih]

theorem mem_appendInBucket_key (b : List (Item K (List (StreetSegment K)))) (k : K)
    (seg : StreetSegment K) (it : Item K (List (StreetSegment K)))
    (h : it ∈ appendInBucket b k seg) : ∃ it' ∈ b, it'.key = it.key := by
  induction b with
  | nil => simp [appendInBucket] at h
  | cons x q ih =>
    by_cases hk : x.key = k
    · simp only [appendInBucket, hk, if_true, List.mem_cons] at h
      rcases h with h | h
      · exact ⟨x, by simp, by simp [h, hk]⟩
      · exact ⟨it, by simp [h], rfl⟩
    · simp only [appendInBucket, hk, if_false, List.mem_cons] at h
      rcases h with h | h
      · exact ⟨x, by simp, by simp [h]⟩
      · obtain ⟨it', h1, h2⟩ := ih h
        exact ⟨it', by simp [h1], h2⟩

theorem layout_pushSegment {hasher : K → Nat}
    {m : ExpandableHashMap K (List (StreetSegment K))} (hm : Layout hasher m) (k : K)
    (seg : StreetSegment K) : Layout hasher (StreetMapImpl.pushSegment hasher m k seg) := by
  refine ⟨hm.buckets_ge, ?_, ?_⟩
  · show m.num_buckets ≤ (updateBucket _ _ _).length
    rw [length_updateBucket]; exact hm.buckets_le
  · intro i it hit
    have hit' : it ∈ (updateBucket m.hash_table (hasher k % m.num_buckets)
        (fun b => appendInBucket b k seg)).getD i [] := hit
    rw [getD_updateBucket] at hit'
    split at hit'
    · rename_i hcond
      obtain ⟨it', h1, h2⟩ := mem_appendInBucket_key _ _ _ _ hit'
      rw [← h2, hcond.1]
      exact hm.hashed _ it' h1
    · exact hm.hashed i it hit'

theorem find_pushSegment {hasher : K → Nat}
    {m : ExpandableHashMap K (List (StreetSegment K))} (hm : Layout hasher m) (k : K)
    (seg : StreetSegment K) (k' : K) :
    find hasher (StreetMapImpl.pushSegment hasher m k seg) k' =
      if k' = k then (find hasher m k).map (fun v => v ++ [seg]) else find hasher m k' := by
  have hpos : 0 < m.num_buckets := lt_of_lt_of_le (by norm_num) hm.buckets_ge
  have hlt : hasher k % m.num_buckets < m.hash_table.length :=
    lt_of_lt_of_le (Nat.mod_lt _ hpos) hm.buckets_le
  show findInBucket ((updateBucket m.hash_table (hasher k % m.num_buckets)
    (fun b => appendInBucket b k seg)).getD (hasher k' % m.num_buckets) []) k' = _
  rw [getD_updateBucket]
  by_cases hk : k' = k
  · subst hk
    rw [if_pos ⟨rfl, hlt⟩, if_pos rfl, findInBucket_appendInBucket, if_pos rfl]
    rfl
  · rw [if_neg hk]
    by_cases hh : hasher k' % m.num_buckets = hasher k % m.num_buckets
    · rw [if_pos ⟨hh, hlt⟩, findInBucket_appendInBucket, if_neg hk, ← hh]
      rfl
    · rw [if_neg (fun h => hh h.1)]
      rfl

/-- What `loadLine` keeps: the layout, and that stored segments start at their key. -/
theorem loadLine_keeps {hasher : K → Nat} (name : String)
    {m : ExpandableHashMap K (List (StreetSegment K))} (cur : K × K)
    (hm : Layout hasher m)
    (hstart : ∀ c v, find hasher m c = some v → ∀ e ∈ v, e.start = c) :
    Layout hasher (StreetMapImpl.loadLine hasher name m cur) ∧
    ∀ c v, find hasher (StreetMapImpl.loadLine hasher name m cur) c = some v →
      ∀ e ∈ v, e.start = c := by
  -- one half of the body: make sure the key is present, then append a segment starting there
  have half : ∀ (m0 : ExpandableHashMap K (List (StreetSegment K))) (a b : K),
      Layout hasher m0 →
      (∀ c v, find hasher m0 c = some v → ∀ e ∈ v, e.start = c) →
      Layout hasher (StreetMapImpl.pushSegment hasher
        (match find hasher m0 a with
          | none => associate hasher m0 a []
          | some _ => m0) a ⟨a, b, name⟩) ∧
      ∀ c v, find hasher (StreetMapImpl.pushSegment hasher
        (match find hasher m0 a with
          | none => associate hasher m0 a []
          | some _ => m0) a ⟨a, b, name⟩) c = some v → ∀ e ∈ v, e.start = c := by
    intro m0 a b hm0 hs0
    have h1 : Layout hasher (match find hasher m0 a with
          | none => associate hasher m0 a []
          | some _ => m0) ∧
        ∀ c v, find hasher (match find hasher m0 a with
          | none => associate hasher m0 a []
          | some _ => m0) c = some v → ∀ e ∈ v, e.start = c := by
      cases hf : find hasher m0 a with
      | some v0 => exact ⟨hm0, hs0⟩
      | none =>
        refine ⟨layout_associate hm0 _ _, ?_⟩
        intro c v hcv e he
        have hcv' : find hasher (associate hasher m0 a []) c = some v := hcv
        rw [find_associate hm0] at hcv'
        by_cases hca : c = a
        · rw [if_pos hca] at hcv'
          rw [← Option.some.inj hcv'] at he
          cases he
        · rw [if_neg hca] at hcv'
          exact hs0 c v hcv' e he
    refine ⟨layout_pushSegment h1.1 _ _, ?_⟩
    intro c v hcv e he
    rw [find_pushSegment h1.1] at hcv
    by_cases hca : c = a
    · rw [if_pos hca] at hcv
      cases hf : find hasher (match find hasher m0 a with
          | none => associate hasher m0 a []
          | some _ => m0) a with
      | none => rw [hf] at hcv; cases hcv
      | some v1 =>
        rw [hf] at hcv
        simp only [Option.map_some'] at hcv
        rw [← Option.some.inj hcv] at he
        rcases List.mem_append.1 he with h | h
        · rw [hca]; exact h1.2 a v1 hf e h
        · simp only [List.mem_singleton] at h
          rw [h, hca]
    · rw [if_neg hca] at hcv
      exact h1.2 c v hcv e he
  obtain ⟨hl1, hs1⟩ := half m cur.1 cur.2 hm hstart
  exact half _ cur.2 cur.1 hl1 hs1

theorem load_startsAtKey (hasher : K → Nat) (streets : List (String × List (K × K))) :
    StartsAtKey hasher (StreetMapImpl.load hasher streets) := by
  have hfold : ∀ (streets : List (String × List (K × K)))
      (m : ExpandableHashMap K (List (StreetSegment K))),
      Layout hasher m →
      (∀ c v, find hasher m c = some v → ∀ e ∈ v, e.start = c) →
      Layout hasher (streets.foldl
        (fun m street => street.2.foldl (StreetMapImpl.loadLine hasher street.1) m) m) ∧
      ∀ c v, find hasher (streets.foldl
        (fun m street => street.2.foldl (StreetMapImpl.loadLine hasher street.1) m) m) c
          = some v → ∀ e ∈ v, e.start = c := by
    intro streets
    induction streets with
    | nil => intro m hm hs; exact ⟨hm, hs⟩
    | cons street streets ih =>
      intro m hm hs
      have hinner : ∀ (lines : List (K × K))
          (m : ExpandableHashMap K (List (StreetSegment K))),
          Layout hasher m →
          (∀ c v, find hasher m c = some v → ∀ e ∈ v, e.start = c) →
          Layout hasher (lines.foldl (StreetMapImpl.loadLine hasher street.1) m) ∧
          ∀ c v, find hasher (lines.foldl (StreetMapImpl.loadLine hasher street.1) m) c
            = some v → ∀ e ∈ v, e.start = c := by
        intro lines
        induction lines with
        | nil => intro m hm hs; exact ⟨hm, hs⟩
        | cons line lines ih2 =>
          intro m hm hs
          obtain ⟨h1, h2⟩ := loadLine_keeps street.1 line hm hs
          exact ih2 _ h1 h2
      obtain ⟨h1, h2⟩ := hinner street.2 m hm hs
      exact ih _ h1 h2
  obtain ⟨_, hs⟩ := hfold streets constructDefault (layout_constructDefault hasher)
    (by
      intro c v hcv
      rw [find_constructDefault] at hcv
      cases hcv)
  intro c e hadj
  obtain ⟨v, hv, he⟩ := hadj
  exact hs c v hv e he

/-- After `loadLine` a coordinate is found exactly when it was found before or is one of the
two endpoints of the line. -/
theorem loadLine_found {hasher : K → Nat} (name : String)
    {m : ExpandableHashMap K (List (StreetSegment K))} (cur : K × K)
    (hm : Layout hasher m) (c : K) :
    Layout hasher (StreetMapImpl.loadLine hasher name m cur) ∧
    (find hasher (StreetMapImpl.loadLine hasher name m cur) c ≠ none ↔
      (find hasher m c ≠ none ∨ c = cur.1 ∨ c = cur.2)) := by
  have half : ∀ (m0 : ExpandableHashMap K (List (StreetSegment K))) (a b : K),
      Layout hasher m0 →
      Layout hasher (StreetMapImpl.pushSegment hasher
        (match find hasher m0 a with
          | none => associate hasher m0 a []
          | some _ => m0) a ⟨a, b, name⟩) ∧
      (find hasher (StreetMapImpl.pushSegment hasher
        (match find hasher m0 a with
          | none => associate hasher m0 a []
          | some _ => m0) a ⟨a, b, name⟩) c ≠ none ↔ (find hasher m0 c ≠ none ∨ c = a)) := by
    intro m0 a b hm0
    have h1 : Layout hasher (match find hasher m0 a with
          | none => associate hasher m0 a []
          | some _ => m0) ∧
        ∀ x, (find hasher (match find hasher m0 a with
          | none => associate hasher m0 a []
          | some _ => m0) x ≠ none ↔ (find hasher m0 x ≠ none ∨ x = a)) := by
      cases hf : find hasher m0 a with
      | some v0 =>
        refine ⟨hm0, ?_⟩
        intro x
        constructor
        · intro h; exact Or.inl h
        · rintro (h | h)
          · exact h
          · show find hasher m0 x ≠ none
            rw [h, hf]; simp
      | none =>
        refine ⟨layout_associate hm0 _ _, ?_⟩
        intro x
        show find hasher (associate hasher m0 a []) x ≠ none ↔ _
        rw [find_associate hm0]
        by_cases hxa : x = a
        · simp [hxa]
        · simp [hxa]
    refine ⟨layout_pushSegment h1.1 _ _, ?_⟩
    rw [find_pushSegment h1.1]
    by_cases hca : c = a
    · rw [if_pos hca]
      have hpresent := (h1.2 a).2 (Or.inr rfl)
      constructor
      · intro _; exact Or.inr hca
      · intro _
        cases hf : find hasher (match find hasher m0 a with
            | none => associate hasher m0 a []
            | some _ => m0) a with
        | none => exact absurd hf hpresent
        | some v1 => simp
    · rw [if_neg hca]
      exact h1.2 c
  obtain ⟨hl1, hf1⟩ := half m cur.1 cur.2 hm
  obtain ⟨hl2, hf2⟩ := half _ cur.2 cur.1 hl1
  exact ⟨hl2, hf2.trans ((or_congr_left hf1).trans or_assoc)⟩

/-- A coordinate is known to a loaded street map exactly when it is an endpoint of one of the
segment lines of the file. -/
theorem load_known_iff (hasher : K → Nat) (streets : List (String × List (K × K))) (c : K) :
    Known hasher (StreetMapImpl.load hasher streets) c ↔
      ∃ street ∈ streets, ∃ line ∈ street.2, c = line.1 ∨ c = line.2 := by
  have hinner : ∀ (name : String) (lines : List (K × K))
      (m : ExpandableHashMap K (List (StreetSegment K))), Layout hasher m →
      Layout hasher (lines.foldl (StreetMapImpl.loadLine hasher name) m) ∧
      (find hasher (lines.foldl (StreetMapImpl.loadLine hasher name) m) c ≠ none ↔
        (find hasher m c ≠ none ∨ ∃ line ∈ lines, c = line.1 ∨ c = line.2)) := by
    intro name lines
    induction lines with
    | nil => intro m hm; exact ⟨hm, by simp⟩
    | cons line lines ih =>
      intro m hm
      obtain ⟨h1, h2⟩ := loadLine_found name line hm c
      obtain ⟨h3, h4⟩ := ih _ h1
      refine ⟨h3, h4.trans ?_⟩
      constructor
      · rintro (h | ⟨l, hl, hc⟩)
        · rcases h2.1 h with h' | h'
          · exact Or.inl h'
          · exact Or.inr ⟨line, List.mem_cons_self _ _, h'⟩
        · exact Or.inr ⟨l, List.mem_cons_of_mem _ hl, hc⟩
      · rintro (h | ⟨l, hl, hc⟩)
        · exact Or.inl (h2.2 (Or.inl h))
        · rcases List.mem_cons.1 hl with h' | h'
          · exact Or.inl (h2.2 (Or.inr (h' ▸ hc)))
          · exact Or.inr ⟨l, h', hc⟩
  have hfold : ∀ (streets : List (String × List (K × K)))
      (m : ExpandableHashMap K (List (StreetSegment K))), Layout hasher m →
      (find hasher (streets.foldl
        (fun m street => street.2.foldl (StreetMapImpl.loadLine hasher street.1) m) m) c
          ≠ none ↔
        (find hasher m c ≠ none ∨
          ∃ street ∈ streets, ∃ line ∈ street.2, c = line.1 ∨ c = line.2)) := by
    intro streets
    induction streets with
    | nil => intro m _; simp
    | cons street streets ih =>
      intro m hm
      obtain ⟨h1, h2⟩ := hinner street.1 street.2 m hm
      refine (ih _ h1).trans ?_
      constructor
      · rintro (h | ⟨s, hs, l, hl, hc⟩)
        · rcases h2.1 h with h' | ⟨l, hl, hc⟩
          · exact Or.inl h'
          · exact Or.inr ⟨street, List.mem_cons_self _ _, l, hl, hc⟩
        · exact Or.inr ⟨s, List.mem_cons_of_mem _ hs, l, hl, hc⟩
      · rintro (h | ⟨s, hs, l, hl, hc⟩)
        · exact Or.inl (h2.2 (Or.inl h))
        · rcases List.mem_cons.1 hs with h' | h'
          · exact Or.inl (h2.2 (Or.inr ⟨l, h' ▸ hl, hc⟩))
          · exact Or.inr ⟨s, h', l, hl, hc⟩
  have hk : Known hasher (StreetMapImpl.load hasher streets) c ↔
      find hasher (StreetMapImpl.load hasher streets).map c ≠ none := by
    unfold Known StreetMapImpl.getSegmentsThatStartWith
    cases hf : find hasher (StreetMapImpl.load hasher streets).map c with
    | none => simp
    | some v => simp
  rw [hk]
  show find hasher (streets.foldl
    (fun m street => street.2.foldl (StreetMapImpl.loadLine hasher street.1) m)
    constructDefault) c ≠ none ↔ _
  rw [hfold streets constructDefault (layout_constructDefault hasher), find_constructDefault]
  simp

end Load
end DeliveryRouter

namespace DeliveryRouter
namespace ExpandableHashMap
variable {K V : Type} [DecidableEq K]

set_option linter.unusedSectionVars false

theorem max_load_factor_grow (hasher : K → Nat) (m : ExpandableHashMap K V) :
    (grow hasher m).max_load_factor = m.max_load_factor := by
  unfold grow
  simp only
  split <;> rfl

theorem max_load_factor_associate (hasher : K → Nat) (m : ExpandableHashMap K V) (k : K)
    (v : V) : (associate hasher m k v).max_load_factor = m.max_load_factor := by
  cases hf : find hasher m k with
  | some v0 => simp [associate, hf]
  | none => simp [associate, hf, max_load_factor_grow]

theorem max_load_factor_associateAll (hasher : K → Nat) (m : ExpandableHashMap K V)
    (calls : List (K × V)) :
    (associateAll hasher m calls).max_load_factor = m.max_load_factor := by
  induction calls generalizing m with
  | nil => rfl
  | cons kv calls ih => rw [associateAll_cons, ih, max_load_factor_associate]

theorem Reachable.load_pos {hasher : K → Nat} {m : ExpandableHashMap K V}
    (h : Reachable hasher m) : 0 < m.max_load_factor := by
  induction h with
  | construct L =>
    show 0 < (if L ≤ 0 then 1 / 2 else L)
    split
    · norm_num
    · rename_i hL; exact lt_of_not_le hL
  | associate k v _ ih => rw [max_load_factor_associate]; exact ih
  | reset _ ih => exact ih

theorem load_exceeds_half_iff (n b : Nat) (hb : 0 < b) :
    ((n : ℚ) + 1) / (b : ℚ) > 1 / 2 ↔ b < 2 * (n + 1) := by
  have hb' : (0 : ℚ) < b := by exact_mod_cast hb
  rw [gt_iff_lt, div_lt_div_iff₀ (by norm_num) hb']
  constructor
  · intro h
    have h' : ((b : ℚ)) < 2 * ((n : ℚ) + 1) := by linarith
    exact_mod_cast h'
  · intro h
    have h' : ((b : ℚ)) < 2 * ((n : ℚ) + 1) := by exact_mod_cast h
    linarith

/-- Bucket count after `n` insertions of distinct keys into a fresh map with load factor 0.5:
the least `8 * 2^j` with `n ≤ 4 * 2^j`. -/
theorem num_buckets_distinct_inserts {hasher : K → Nat} {m0 : ExpandableHashMap K V}
    (h0 : Fresh hasher m0) (hL : m0.max_load_factor = 1 / 2) (calls : List (K × V))
    (hdistinct : (calls.map Prod.fst).Nodup) :
    ∃ j, (associateAll hasher m0 calls).num_buckets = 8 * 2 ^ j ∧ calls.length ≤ 4 * 2 ^ j ∧
      ∀ i, calls.length ≤ 4 * 2 ^ i → j ≤ i := by
  induction calls using List.reverseRecOn with
  | nil =>
    refine ⟨0, ?_, by simp, fun i _ => Nat.zero_le i⟩
    cases h0 with
    | construct L => rfl
    | reset h => rfl
  | append_singleton calls kv ih =>
    have hnd : (calls.map Prod.fst).Nodup ∧ kv.1 ∉ calls.map Prod.fst := by
      rw [List.map_append, List.nodup_append] at hdistinct
      refine ⟨hdistinct.1, ?_⟩
      intro hmem
      exact hdistinct.2.2 hmem (by simp)
    obtain ⟨j, hj, hle, hleast⟩ := ih hnd.1
    have hfind : find hasher (associateAll hasher m0 calls) kv.1 = none := by
      by_contra h
      exact hnd.2 ((find_isSome_iff_mem h0 calls kv.1).1 h)
    have hsize : (associateAll hasher m0 calls).num_items = calls.length := by
      have := size_associateAll h0 calls
      rw [List.toFinset_card_of_nodup hnd.1, List.length_map] at this
      exact this
    have hload : (associateAll hasher m0 calls).max_load_factor = 1 / 2 := by
      rw [max_load_factor_associateAll, hL]
    have hpos : 0 < (associateAll hasher m0 calls).num_buckets := by
      rw [hj]; positivity
    rw [associateAll_append, associateAll_cons, associateAll_nil, num_buckets_associate, hfind]
    simp only [List.length_append, List.length_singleton]
    rw [hload]
    have hiff := load_exceeds_half_iff (associateAll hasher m0 calls).num_items
      (associateAll hasher m0 calls).num_buckets hpos
    rw [hsize, hj] at hiff
    rw [hsize]
    by_cases hgrow : ((calls.length : ℚ) + 1) / ((associateAll hasher m0 calls).num_buckets : ℚ)
        > 1 / 2
    · rw [if_pos hgrow, hj]
      rw [hj] at hgrow
      have hg := hiff.1 hgrow
      refine ⟨j + 1, by rw [pow_succ]; ring, ?_, ?_⟩
      · rw [pow_succ]; omega
      · intro i hi
        by_contra hlt
        have hij : i ≤ j := by omega
        have : 2 ^ i ≤ 2 ^ j := Nat.pow_le_pow_right (by norm_num) hij
        omega
    · rw [if_neg hgrow, hj]
      rw [hj] at hgrow
      have hg : ¬ 8 * 2 ^ j < 2 * (calls.length + 1) := fun h => hgrow (hiff.2 h)
      refine ⟨j, rfl, by omega, ?_⟩
      intro i hi
      exact hleast i (by omega)

theorem load_bound_reachable {hasher : K → Nat} {m : ExpandableHashMap K V}
    (h : Reachable hasher m) (hL : 1 / 8 ≤ m.max_load_factor) :
    (m.num_items : ℚ) ≤ m.max_load_factor * (m.num_buckets : ℚ) := by
  induction h with
  | construct L =>
    have hpos := (Reachable.construct L : Reachable hasher (construct L : ExpandableHashMap K V)).load_pos
    show ((0 : Nat) : ℚ) ≤ _ * ((8 : Nat) : ℚ)
    have : (0 : ℚ) ≤ (construct L : ExpandableHashMap K V).max_load_factor := le_of_lt hpos
    push_cast
    linarith
  | reset hm _ =>
    have hpos := hm.load_pos
    show ((0 : Nat) : ℚ) ≤ _ * ((8 : Nat) : ℚ)
    have hpos' : (0 : ℚ) < (reset _ : ExpandableHashMap K V).max_load_factor := hpos
    push_cast
    linarith
  | associate k v hm ih =>
    rename_i m'
    rw [max_load_factor_associate] at hL ⊢
    have ih' := ih hL
    have hb : 8 ≤ m'.num_buckets := hm.layout.buckets_ge
    have hbq : (8 : ℚ) ≤ (m'.num_buckets : ℚ) := by exact_mod_cast hb
    have hone : 1 ≤ m'.max_load_factor * (m'.num_buckets : ℚ) := by
      have hLpos : 0 ≤ m'.max_load_factor := by linarith
      calc (1 : ℚ) = 1 / 8 * 8 := by norm_num
        _ ≤ m'.max_load_factor * (m'.num_buckets : ℚ) :=
          mul_le_mul hL hbq (by norm_num) hLpos
    cases hf : find hasher m' k with
    | some v0 =>
      have h1 : (associate hasher m' k v).num_items = m'.num_items := by
        simp [associate, hf]
      have h2 : (associate hasher m' k v).num_buckets = m'.num_buckets := by
        simp [associate, hf]
      rw [h1, h2]; exact ih'
    | none =>
      have h1 : (associate hasher m' k v).num_items = m'.num_items + 1 := by
        simp [associate, hf, num_items_grow]
      have h2 := num_buckets_associate hasher m' k v
      rw [hf] at h2
      simp only at h2
      rw [h1, h2]
      push_cast
      by_cases hgrow : ((m'.num_items : ℚ) + 1) / (m'.num_buckets : ℚ) > m'.max_load_factor
      · rw [if_pos hgrow]
        linarith
      · rw [if_neg hgrow]
        have hbpos : (0 : ℚ) < (m'.num_buckets : ℚ) := by linarith
        have hle : ((m'.num_items : ℚ) + 1) / (m'.num_buckets : ℚ) ≤ m'.max_load_factor :=
          le_of_not_lt hgrow
        exact (div_le_iff₀ hbpos).1 hle

theorem map_key_assignInBucket (b : List (Item K V)) (k : K) (v : V) :
    (assignInBucket b k v).map (fun it => it.key) = b.map (fun it => it.key) := by
  induction b with
  | nil => rfl
  | cons it p ih =>
    by_cases hk : it.key = k
    · simp [assignInBucket, hk]
    · simp [assignInBucket, hk, ih]

theorem map_key_flatten_updateBucket (table : List (List (Item K V))) (h : Nat)
    (f : List (Item K V) → List (Item K V))
    (hf : ∀ b, (f b).map (fun it => it.key) = b.map (fun it => it.key)) :
    (updateBucket table h f).flatten.map (fun it => it.key)
      = table.flatten.map (fun it => it.key) := by
  induction table generalizing h with
  | nil => rfl
  | cons b t ih =>
    cases h with
    | zero => simp [updateBucket, hf]
    | succ n => simp [updateBucket, ih n]

theorem mem_bucket_of_mem_flatten (m : ExpandableHashMap K V) (it : Item K V)
    (h : it ∈ m.hash_table.flatten) : ∃ i, it ∈ m.bucket i := by
  obtain ⟨b, hb, hit⟩ := List.mem_flatten.1 h
  obtain ⟨i, hi⟩ := List.mem_iff_getElem?.1 hb
  refine ⟨i, ?_⟩
  unfold bucket
  rw [List.getD_eq_getElem?_getD, hi]
  exact hit

theorem key_not_stored_of_find_none {hasher : K → Nat} {m : ExpandableHashMap K V}
    (hm : Layout hasher m) (k : K) (hf : find hasher m k = none) :
    k ∉ m.hash_table.flatten.map (fun it => it.key) := by
  intro hmem
  obtain ⟨it, hit, hk⟩ := List.mem_map.1 hmem
  obtain ⟨i, hi⟩ := mem_bucket_of_mem_flatten m it hit
  have hidx := hm.hashed i it hi
  rw [hk] at hidx
  rw [← hidx] at hi
  exact (findInBucket_eq_none_iff _ _).1 hf it hi hk

theorem structural_construct (hasher : K → Nat) (L : ℚ) :
    Structural hasher (construct L : ExpandableHashMap K V) := by
  refine ⟨(layout_construct hasher L).hashed, ?_, ?_⟩
  · show ((List.replicate 8 ([] : List (Item K V))).flatten.map _).Nodup
    rw [flatten_replicate_nil]; exact List.nodup_nil
  · show 0 = (List.replicate 8 ([] : List (Item K V))).flatten.length
    rw [flatten_replicate_nil]; rfl

theorem structural_reset (hasher : K → Nat) (m : ExpandableHashMap K V) :
    Structural hasher (reset m) := by
  refine ⟨?_, ?_, ?_⟩
  · intro i it hit
    have hb : (reset m).bucket i = [] := getD_replicate_nil m.num_buckets i
    rw [hb] at hit
    exact absurd hit (List.not_mem_nil it)
  · show ((List.replicate m.num_buckets ([] : List (Item K V))).flatten.map _).Nodup
    rw [flatten_replicate_nil]; exact List.nodup_nil
  · show 0 = (List.replicate m.num_buckets ([] : List (Item K V))).flatten.length
    rw [flatten_replicate_nil]; rfl

theorem structural_associate {hasher : K → Nat} {m : ExpandableHashMap K V}
    (hm : Layout hasher m) (hs : Structural hasher m) (k : K) (v : V) :
    Structural hasher (associate hasher m k v) := by
  refine ⟨(layout_associate hm k v).hashed, ?_, ?_⟩
  · cases hf : find hasher m k with
    | some v0 =>
      have h1 : (associate hasher m k v).hash_table
          = updateBucket m.hash_table (hasher k % m.num_buckets)
              (fun b => assignInBucket b k v) := by
        simp [associate, hf]
      rw [h1, map_key_flatten_updateBucket _ _ _ (fun b => map_key_assignInBucket b k v)]
      exact hs.keys_unique
    | none =>
      have hperm := flatten_associate_absent hm k v hf
      have hperm' := hperm.map (fun it : Item K V => it.key)
      rw [hperm'.nodup_iff, List.map_cons, List.nodup_cons]
      exact ⟨key_not_stored_of_find_none hm k hf, hs.keys_unique⟩
  · cases hf : find hasher m k with
    | some v0 =>
      have h1 : (associate hasher m k v).hash_table
          = updateBucket m.hash_table (hasher k % m.num_buckets)
              (fun b => assignInBucket b k v) := by
        simp [associate, hf]
      have h2 : (associate hasher m k v).num_items = m.num_items := by
        simp [associate, hf]
      have h3 := congrArg List.length
        (map_key_flatten_updateBucket m.hash_table (hasher k % m.num_buckets)
          (fun b => assignInBucket b k v) (fun b => map_key_assignInBucket b k v))
      rw [List.length_map, List.length_map] at h3
      rw [h1, h2, h3]
      exact hs.counted
    | none =>
      have hperm := flatten_associate_absent hm k v hf
      have h2 : (associate hasher m k v).num_items = m.num_items + 1 := by
        simp [associate, hf, num_items_grow]
      rw [h2, hperm.length_eq, List.length_cons, hs.counted]

theorem Reachable.structural {hasher : K → Nat} {m : ExpandableHashMap K V}
    (h : Reachable hasher m) : Structural hasher m := by
  induction h with
  | construct L => exact structural_construct hasher L
  | associate k v hm ih => exact structural_associate hm.layout ih k v
  | reset hm _ => exact structural_reset hasher _

theorem SameContents.find_eq (hasher : K → Nat) {m1 m2 : ExpandableHashMap K V}
    (h : SameContents m1 m2) (k : K) : find hasher m1 k = find hasher m2 k := by
  unfold find
  simp only
  rw [h.buckets, h.chains]

theorem rehash_congr (hasher : K → Nat) {m1 m2 : ExpandableHashMap K V}
    (h : SameContents m1 m2) (n : Nat) : rehash hasher m1 n = rehash hasher m2 n := by
  unfold rehash
  rw [h.buckets]
  congr 1
  funext temp i
  rw [h.chains]

theorem sameContents_grow (hasher : K → Nat) {m1 m2 : ExpandableHashMap K V}
    (h : SameContents m1 m2) : SameContents (grow hasher m1) (grow hasher m2) := by
  unfold grow
  simp only
  rw [h.items, h.buckets, h.load]
  split
  · refine ⟨rfl, rfl, rfl, ?_⟩
    intro i
    show (rehash hasher m1 (m2.num_buckets * 2)).getD i [] = (rehash hasher m2 _).getD i []
    rw [rehash_congr hasher h]
  · exact ⟨rfl, rfl, rfl, h.chains⟩

theorem sameContents_associate {hasher : K → Nat} {m1 m2 : ExpandableHashMap K V}
    (hl1 : Layout hasher m1) (hl2 : Layout hasher m2) (h : SameContents m1 m2) (k : K)
    (v : V) : SameContents (associate hasher m1 k v) (associate hasher m2 k v) := by
  have hfind := SameContents.find_eq hasher h k
  have hpos1 : 0 < m1.num_buckets := lt_of_lt_of_le (by norm_num) hl1.buckets_ge
  have hpos2 : 0 < m2.num_buckets := lt_of_lt_of_le (by norm_num) hl2.buckets_ge
  cases hf : find hasher m2 k with
  | some v0 =>
    rw [hf] at hfind
    have e1 : associate hasher m1 k v =
        { max_load_factor := m1.max_load_factor, num_buckets := m1.num_buckets,
          num_items := m1.num_items,
          hash_table := updateBucket m1.hash_table (hasher k % m1.num_buckets)
            (fun b => assignInBucket b k v) } := by
      simp [associate, hfind]
    have e2 : associate hasher m2 k v =
        { max_load_factor := m2.max_load_factor, num_buckets := m2.num_buckets,
          num_items := m2.num_items,
          hash_table := updateBucket m2.hash_table (hasher k % m2.num_buckets)
            (fun b => assignInBucket b k v) } := by
      simp [associate, hf]
    rw [e1, e2]
    refine ⟨h.load, h.buckets, h.items, ?_⟩
    intro i
    show (updateBucket m1.hash_table _ _).getD i [] = (updateBucket m2.hash_table _ _).getD i []
    rw [getD_updateBucket, getD_updateBucket, h.buckets]
    have hlt1 : hasher k % m2.num_buckets < m1.hash_table.length := by
      rw [← h.buckets]; exact lt_of_lt_of_le (Nat.mod_lt _ hpos1) hl1.buckets_le
    have hlt2 : hasher k % m2.num_buckets < m2.hash_table.length :=
      lt_of_lt_of_le (Nat.mod_lt _ hpos2) hl2.buckets_le
    by_cases hi : i = hasher k % m2.num_buckets
    · rw [if_pos ⟨hi, hlt1⟩, if_pos ⟨hi, hlt2⟩]
      have := h.chains (hasher k % m2.num_buckets)
      unfold bucket at this
      rw [this]
    · rw [if_neg (fun hc => hi hc.1), if_neg (fun hc => hi hc.1)]
      exact h.chains i
  | none =>
    rw [hf] at hfind
    have hg := sameContents_grow hasher h
    have hlg1 := layout_grow hl1
    have hlg2 := layout_grow hl2
    have hgpos1 : 0 < (grow hasher m1).num_buckets :=
      lt_of_lt_of_le (by norm_num) hlg1.buckets_ge
    have hgpos2 : 0 < (grow hasher m2).num_buckets :=
      lt_of_lt_of_le (by norm_num) hlg2.buckets_ge
    have e1 : associate hasher m1 k v =
        { max_load_factor := (grow hasher m1).max_load_factor,
          num_buckets := (grow hasher m1).num_buckets,
          num_items := (grow hasher m1).num_items,
          hash_table := pushBack (grow hasher m1).hash_table
            (hasher k % (grow hasher m1).num_buckets) (Item.mk k v) } := by
      simp [associate, hfind]
    have e2 : associate hasher m2 k v =
        { max_load_factor := (grow hasher m2).max_load_factor,
          num_buckets := (grow hasher m2).num_buckets,
          num_items := (grow hasher m2).num_items,
          hash_table := pushBack (grow hasher m2).hash_table
            (hasher k % (grow hasher m2).num_buckets) (Item.mk k v) } := by
      simp [associate, hf]
    rw [e1, e2]
    refine ⟨hg.load, hg.buckets, hg.items, ?_⟩
    intro i
    show (pushBack (grow hasher m1).hash_table _ _).getD i []
      = (pushBack (grow hasher m2).hash_table _ _).getD i []
    rw [pushBack, pushBack, getD_updateBucket, getD_updateBucket, hg.buckets]
    have hlt1 : hasher k % (grow hasher m2).num_buckets < (grow hasher m1).hash_table.length := by
      rw [← hg.buckets]; exact lt_of_lt_of_le (Nat.mod_lt _ hgpos1) hlg1.buckets_le
    have hlt2 : hasher k % (grow hasher m2).num_buckets < (grow hasher m2).hash_table.length :=
      lt_of_lt_of_le (Nat.mod_lt _ hgpos2) hlg2.buckets_le
    by_cases hi : i = hasher k % (grow hasher m2).num_buckets
    · rw [if_pos ⟨hi, hlt1⟩, if_pos ⟨hi, hlt2⟩]
      have := hg.chains (hasher k % (grow hasher m2).num_buckets)
      unfold bucket at this
      rw [this]
    · rw [if_neg (fun hc => hi hc.1), if_neg (fun hc => hi hc.1)]
      exact hg.chains i

theorem sameContents_associateAll {hasher : K → Nat} (calls : List (K × V)) :
    ∀ {m1 m2 : ExpandableHashMap K V}, Layout hasher m1 → Layout hasher m2 →
      SameContents m1 m2 →
      SameContents (associateAll hasher m1 calls) (associateAll hasher m2 calls) := by
  induction calls with
  | nil => intro m1 m2 _ _ h; exact h
  | cons kv calls ih =>
    intro m1 m2 hl1 hl2 h
    exact ih (layout_associate hl1 _ _) (layout_associate hl2 _ _)
      (sameContents_associate hl1 hl2 h kv.1 kv.2)

theorem sameContents_reset {hasher : K → Nat} {m : ExpandableHashMap K V}
    (hm : Reachable hasher m) : SameContents (reset m) (construct m.max_load_factor) := by
  refine ⟨?_, rfl, rfl, ?_⟩
  · show m.max_load_factor = if m.max_load_factor ≤ 0 then 1 / 2 else m.max_load_factor
    rw [if_neg (not_le.2 hm.load_pos)]
  · intro i
    show (List.replicate m.num_buckets []).getD i [] = (List.replicate 8 []).getD i []
    rw [getD_replicate_nil, getD_replicate_nil]

end ExpandableHashMap
end DeliveryRouter

namespace DeliveryRouter
open ExpandableHashMap

set_option linter.unusedSectionVars false

section Paths
variable {K R : Type} [DecidableEq K] [LinearOrderedCommRing R]

theorem pathEnd_nil (a : K) : pathEnd a [] = a := rfl

theorem pathEnd_append_singleton (a : K) (p : List (StreetSegment K)) (e : StreetSegment K) :
    pathEnd a (p ++ [e]) = e.end_ := by
  simp [pathEnd]

theorem pathEnd_cons (a : K) (e : StreetSegment K) (p : List (StreetSegment K)) :
    pathEnd a (e :: p) = pathEnd e.end_ p := by
  cases p with
  | nil => simp [pathEnd]
  | cons x q =>
    unfold pathEnd
    rw [List.getLast?_cons_cons]
    cases hq : (x :: q).getLast? with
    | none => simp at hq
    | some y => rfl

theorem IsPath.pathEnd_eq {hasher : K → Nat} {sm : StreetMapImpl K} {a b : K}
    {p : List (StreetSegment K)} (h : IsPath hasher sm a p b) : pathEnd a p = b := by
  induction p generalizing a with
  | nil => exact h
  | cons e p ih => rw [pathEnd_cons]; exact ih h.2

theorem isPath_append {hasher : K → Nat} {sm : StreetMapImpl K} (a c : K)
    (p q : List (StreetSegment K)) :
    IsPath hasher sm a (p ++ q) c ↔
      IsPath hasher sm a p (pathEnd a p) ∧ IsPath hasher sm (pathEnd a p) q c := by
  induction p generalizing a with
  | nil => simp [IsPath, pathEnd]
  | cons e p ih =>
    rw [List.cons_append, pathEnd_cons]
    simp only [IsPath]
    rw [ih]
    tauto

theorem pathLength_nil (dist : K → K → R) : pathLength dist [] = 0 := rfl

theorem pathLength_cons (dist : K → K → R) (e : StreetSegment K)
    (p : List (StreetSegment K)) :
    pathLength dist (e :: p) = dist e.start e.end_ + pathLength dist p := by
  simp [pathLength]

theorem pathLength_append (dist : K → K → R) (p q : List (StreetSegment K)) :
    pathLength dist (p ++ q) = pathLength dist p + pathLength dist q := by
  simp [pathLength]

theorem pathLength_reverse (dist : K → K → R) (p : List (StreetSegment K)) :
    pathLength dist p.reverse = pathLength dist p := by
  simp [pathLength, List.sum_reverse]

theorem pathLength_nonneg {dist : K → K → R} {hasher : K → Nat} {sm : StreetMapImpl K}
    (hnn : NonNegEdges dist hasher sm) {a b : K} {p : List (StreetSegment K)}
    (h : IsPath hasher sm a p b) : 0 ≤ pathLength dist p := by
  induction p generalizing a with
  | nil => simp [pathLength]
  | cons e p ih =>
    rw [pathLength_cons]
    exact add_nonneg (hnn a e h.1) (ih h.2)

theorem IsPath.mem_adjacent {hasher : K → Nat} {sm : StreetMapImpl K} {a b : K}
    {p : List (StreetSegment K)} (h : IsPath hasher sm a p b) {e : StreetSegment K}
    (he : e ∈ p) : ∃ c, Adjacent hasher sm c e := by
  induction p generalizing a with
  | nil => cases he
  | cons x p ih =>
    rcases List.mem_cons.1 he with h1 | h1
    · exact ⟨a, h1 ▸ h.1⟩
    · exact ih h.2 h1

theorem mem_of_findInBucket {V : Type} (b : List (Item K V)) (k : K) (v : V)
    (h : findInBucket b k = some v) : ∃ it ∈ b, it.value = v := by
  induction b with
  | nil => simp [findInBucket] at h
  | cons it p ih =>
    by_cases hk : it.key = k
    · simp [findInBucket, hk] at h
      exact ⟨it, by simp, h⟩
    · simp [findInBucket, hk] at h
      obtain ⟨it', h1, h2⟩ := ih h
      exact ⟨it', by simp [h1], h2⟩

theorem mem_flatten_of_find {V : Type} (hasher : K → Nat) (m : ExpandableHashMap K V) (k : K)
    (v : V) (h : find hasher m k = some v) : ∃ it ∈ m.hash_table.flatten, it.value = v := by
  obtain ⟨it, h1, h2⟩ := mem_of_findInBucket _ _ _ h
  refine ⟨it, ?_, h2⟩
  rw [List.mem_flatten]
  refine ⟨m.bucket (hasher k % m.num_buckets), ?_, h1⟩
  unfold bucket at h1 ⊢
  rw [List.getD_eq_getElem?_getD] at h1 ⊢
  cases hget : m.hash_table[hasher k % m.num_buckets]? with
  | none => rw [hget] at h1; simp at h1
  | some b =>
    simp only [Option.getD_some]
    exact List.getElem?_mem hget

theorem Adjacent.mem_allSegments {hasher : K → Nat} {sm : StreetMapImpl K} {c : K}
    {e : StreetSegment K} (h : Adjacent hasher sm c e) : e ∈ allSegments sm := by
  obtain ⟨v, hv, he⟩ := h
  obtain ⟨it, h1, h2⟩ := mem_flatten_of_find hasher sm.map c v hv
  unfold allSegments
  rw [List.mem_flatten]
  exact ⟨v, List.mem_map.2 ⟨it, h1, h2⟩, he⟩

end Paths
end DeliveryRouter

namespace DeliveryRouter
open ExpandableHashMap

set_option linter.unusedSectionVars false

section Queue
variable {K R : Type} [DecidableEq K] [LinearOrderedCommRing R]

theorem popMin_eq_none (coordLt : K → K → Bool) (l : List (R × K)) :
    popMin coordLt l = none ↔ l = [] := by
  cases l with
  | nil => simp [popMin]
  | cons x xs =>
    simp only [popMin]
    cases popMin coordLt xs with
    | none => simp
    | some mr =>
      obtain ⟨m, rest⟩ := mr
      simp only
      split <;> simp

theorem popMin_mem (coordLt : K → K → Bool) (l : List (R × K)) (m : R × K)
    (rest : List (R × K)) (h : popMin coordLt l = some (m, rest)) :
    ∀ x, x ∈ l ↔ x = m ∨ x ∈ rest := by
  induction l generalizing m rest with
  | nil => simp [popMin] at h
  | cons y ys ih =>
    simp only [popMin] at h
    cases hp : popMin coordLt ys with
    | none =>
      rw [hp] at h
      simp only [Option.some.injEq, Prod.mk.injEq] at h
      have hys : ys = [] := (popMin_eq_none coordLt ys).1 hp
      intro x
      rw [← h.1, ← h.2, hys]
      simp
    | some mr =>
      obtain ⟨m', rest'⟩ := mr
      rw [hp] at h
      simp only at h
      have ih' := ih m' rest' hp
      split at h
      · simp only [Option.some.injEq, Prod.mk.injEq] at h
        intro x
        rw [← h.1, ← h.2, List.mem_cons, List.mem_cons, ih' x]
        tauto
      · simp only [Option.some.injEq, Prod.mk.injEq] at h
        intro x
        rw [← h.1, ← h.2, List.mem_cons]

theorem popMin_length (coordLt : K → K → Bool) (l : List (R × K)) (m : R × K)
    (rest : List (R × K)) (h : popMin coordLt l = some (m, rest)) :
    rest.length + 1 = l.length := by
  induction l generalizing m rest with
  | nil => simp [popMin] at h
  | cons y ys ih =>
    simp only [popMin] at h
    cases hp : popMin coordLt ys with
    | none =>
      rw [hp] at h
      simp only [Option.some.injEq, Prod.mk.injEq] at h
      have hys : ys = [] := (popMin_eq_none coordLt ys).1 hp
      rw [← h.2, hys]
      rfl
    | some mr =>
      obtain ⟨m', rest'⟩ := mr
      rw [hp] at h
      simp only at h
      have ih' := ih m' rest' hp
      split at h
      · simp only [Option.some.injEq, Prod.mk.injEq] at h
        rw [← h.2]
        simp [ih']
      · simp only [Option.some.injEq, Prod.mk.injEq] at h
        rw [← h.2]
        rfl

theorem pairLess_le (coordLt : K → K → Bool) (a b : R × K) (h : pairLess coordLt a b = true) :
    a.1 ≤ b.1 := by
  unfold pairLess at h
  simp only [Bool.or_eq_true, decide_eq_true_eq, Bool.and_eq_true, Bool.not_eq_true',
    decide_eq_false_iff_not] at h
  rcases h with h | h
  · exact le_of_lt h
  · exact le_of_not_lt h.1

theorem le_of_not_pairLess (coordLt : K → K → Bool) (a b : R × K)
    (h : ¬ pairLess coordLt a b = true) : b.1 ≤ a.1 := by
  unfold pairLess at h
  simp only [Bool.or_eq_true, decide_eq_true_eq, Bool.and_eq_true, Bool.not_eq_true',
    decide_eq_false_iff_not, not_or] at h
  exact le_of_not_lt h.1

theorem popMin_min (coordLt : K → K → Bool) (l : List (R × K)) (m : R × K)
    (rest : List (R × K)) (h : popMin coordLt l = some (m, rest)) :
    ∀ x ∈ l, m.1 ≤ x.1 := by
  induction l generalizing m rest with
  | nil => simp [popMin] at h
  | cons y ys ih =>
    simp only [popMin] at h
    cases hp : popMin coordLt ys with
    | none =>
      rw [hp] at h
      simp only [Option.some.injEq, Prod.mk.injEq] at h
      have hys : ys = [] := (popMin_eq_none coordLt ys).1 hp
      intro x hx
      rw [hys] at hx
      simp only [List.mem_singleton] at hx
      rw [hx, h.1]
    | some mr =>
      obtain ⟨m', rest'⟩ := mr
      rw [hp] at h
      simp only at h
      have ih' := ih m' rest' hp
      split at h
      · rename_i hless
        simp only [Option.some.injEq, Prod.mk.injEq] at h
        intro x hx
        rw [← h.1]
        rcases List.mem_cons.1 hx with hx | hx
        · rw [hx]; exact pairLess_le coordLt _ _ hless
        · exact ih' x hx
      · rename_i hless
        simp only [Option.some.injEq, Prod.mk.injEq] at h
        intro x hx
        rw [← h.1]
        rcases List.mem_cons.1 hx with hx | hx
        · rw [hx]
        · exact le_trans (le_of_not_pairLess coordLt _ _ hless) (ih' x hx)

end Queue

section Rank
variable {K R : Type} [DecidableEq K] [LinearOrderedCommRing R]

theorem countP_lt_countP {α : Type} (l : List α) (p q : α → Bool)
    (hpq : ∀ x ∈ l, p x = true → q x = true) (hex : ∃ a ∈ l, p a = false ∧ q a = true) :
    l.countP p < l.countP q := by
  induction l with
  | nil => obtain ⟨a, ha, _⟩ := hex; cases ha
  | cons x xs ih =>
    have hmono : xs.countP p ≤ xs.countP q :=
      List.countP_mono_left (fun y hy => hpq y (List.mem_cons_of_mem _ hy))
    obtain ⟨a, ha, hpa, hqa⟩ := hex
    rw [List.countP_cons, List.countP_cons]
    rcases List.mem_cons.1 ha with hax | hax
    · subst hax
      rw [if_neg (by simp [hpa]), if_pos hqa]
      omega
    · have hlt := ih (fun y hy => hpq y (List.mem_cons_of_mem _ hy)) ⟨a, hax, hpa, hqa⟩
      by_cases hpx : p x = true
      · have hqx := hpq x (List.mem_cons_self _ _) hpx
        rw [if_pos hpx, if_pos hqx]
        omega
      · by_cases hqx : q x = true
        · rw [if_neg hpx, if_pos hqx]
          omega
        · rw [if_neg hpx, if_neg hqx]
          omega

theorem costRank_lt (cands : List R) (old : Option R) (c : R) (hc : c ∈ cands)
    (himp : ∀ c0, old = some c0 → c < c0) : costRank cands (some c) < costRank cands old := by
  cases old with
  | none =>
    simp only [costRank]
    exact Nat.lt_succ_of_le (List.countP_le_length _)
  | some c0 =>
    have hlt := himp c0 rfl
    simp only [costRank]
    apply countP_lt_countP
    · intro x _ hx
      simp only [decide_eq_true_eq] at hx ⊢
      exact lt_trans hx hlt
    · exact ⟨c, hc, by simp, by simpa using hlt⟩

theorem mem_candidateCosts (dist : K → K → R) (hasher : K → Nat) (sm : StreetMapImpl K)
    (a b : K) (W : List (StreetSegment K)) (hW : IsPath hasher sm a W b)
    (hnd : (W.map (fun e => e.end_)).Nodup) : pathLength dist W ∈ candidateCosts dist sm := by
  have hnd' : W.Nodup := List.Nodup.of_map _ hnd
  have hsub : W ⊆ (allSegments sm).dedup := by
    intro e he
    obtain ⟨c, hc⟩ := hW.mem_adjacent he
    exact List.mem_dedup.2 hc.mem_allSegments
  obtain ⟨s, hperm, hsl⟩ := List.subperm_of_subset hnd' hsub
  unfold candidateCosts
  refine List.mem_map.2 ⟨s, List.mem_sublists.2 hsl, ?_⟩
  unfold pathLength
  exact (hperm.map _).sum_eq

end Rank
end DeliveryRouter

namespace DeliveryRouter
open ExpandableHashMap

set_option linter.unusedSectionVars false

section Invariant
variable {K R : Type} [DecidableEq K] [LinearOrderedCommRing R]
variable (dist : K → K → R) (hasher : K → Nat) (sm : StreetMapImpl K) (start end_ : K)

/-- Costs never go up in a relaxation. -/
theorem View.relaxed_cost_le (w : View K R) (e : StreetSegment K) (c : R)
    (himp : ∀ c0, w.cost e.end_ = some c0 → c < c0) (x : K) (cx : R)
    (hx : w.cost x = some cx) :
    ∃ c', (w.relaxed dist end_ e c).cost x = some c' ∧ c' ≤ cx := by
  by_cases hxv : x = e.end_
  · refine ⟨c, by simp [View.relaxed, hxv], ?_⟩
    exact le_of_lt (himp cx (hxv ▸ hx))
  · exact ⟨cx, by simp [View.relaxed, hxv, hx], le_refl _⟩

theorem chainRev_keep (w : View K R) (hnn : NonNegEdges dist hasher sm)
    (inv : SearchInv dist hasher sm start end_ w) (e : StreetSegment K) (c bound : R)
    (himp : ∀ c0, w.cost e.end_ = some c0 → c < c0) (hbc : bound ≤ c)
    (p : List (StreetSegment K)) (x : K) (cx : R) (hx : w.cost x = some cx)
    (hle : cx ≤ bound) (hch : ChainRev w.hist start x p) :
    ChainRev (w.relaxed dist end_ e c).hist start x p := by
  induction p generalizing x cx with
  | nil => exact hch
  | cons a p ih =>
    obtain ⟨hxs, hxa, hrest⟩ := hch
    have hxv : x ≠ e.end_ := by
      intro hxv
      have := himp cx (hxv ▸ hx)
      exact absurd (lt_of_lt_of_le this (le_trans hle hbc)) (lt_irrefl _)
    obtain ⟨_, hadj, _, ca, cx', hca, hcx', hineq⟩ := inv.hist_edge x a hxa
    rw [hx] at hcx'
    cases hcx'
    have hw := hnn _ _ hadj
    refine ⟨hxs, by simp [View.relaxed, hxv, hxa], ?_⟩
    exact ih a.start ca hca (by linarith) hrest

theorem chainRev_rebuild (w : View K R) (e : StreetSegment K) (c : R)
    (q : List (StreetSegment K))
    (hq : ChainRev (w.relaxed dist end_ e c).hist start e.end_ q)
    (p : List (StreetSegment K)) (x : K) (hch : ChainRev w.hist start x p) :
    ∃ p', ChainRev (w.relaxed dist end_ e c).hist start x p' := by
  induction p generalizing x with
  | nil => exact ⟨[], hch⟩
  | cons a p ih =>
    by_cases hxv : x = e.end_
    · exact ⟨q, hxv ▸ hq⟩
    · obtain ⟨hxs, hxa, hrest⟩ := hch
      obtain ⟨p', hp'⟩ := ih a.start hrest
      exact ⟨a :: p', hxs, by simp [View.relaxed, hxv, hxa], hp'⟩

theorem searchInv_relax (hwf : StartsAtKey hasher sm) (hnn : NonNegEdges dist hasher sm)
    (w : View K R) (inv : SearchInv dist hasher sm start end_ w) (u : K)
    (e : StreetSegment K) (cu : R) (hu : w.cost u = some cu) (hadj : Adjacent hasher sm u e)
    (himp : ∀ c0, w.cost e.end_ = some c0 → cu + dist e.start e.end_ < c0) :
    SearchInv dist hasher sm start end_ (w.relaxed dist end_ e (cu + dist e.start e.end_)) := by
  have hes : e.start = u := hwf u e hadj
  subst hes
  have hd : 0 ≤ dist e.start e.end_ := hnn _ e hadj
  have hcu : 0 ≤ cu := inv.cost_nonneg _ cu hu
  have hvs : e.end_ ≠ start := by
    intro h
    have := himp 0 (h ▸ inv.start_cost)
    linarith
  have hvu : e.end_ ≠ e.start := by
    intro h
    have := himp cu (h ▸ hu)
    linarith
  have hmono := View.relaxed_cost_le dist end_ w e _ himp
  have hcostv : (w.relaxed dist end_ e (cu + dist e.start e.end_)).cost e.end_
      = some (cu + dist e.start e.end_) := by simp [View.relaxed]
  have hcostx : ∀ x, x ≠ e.end_ →
      (w.relaxed dist end_ e (cu + dist e.start e.end_)).cost x = w.cost x := by
    intro x hx; simp [View.relaxed, hx]
  have hqueue : ∀ pc, pc ∈ (w.relaxed dist end_ e (cu + dist e.start e.end_)).queue ↔
      pc ∈ w.queue ∨ pc = (cu + dist e.start e.end_ + dist e.end_ end_, e.end_) := by
    intro pc; simp [View.relaxed]
  -- the witness path of the relaxed coordinate
  obtain ⟨Wu, hWu, hWund, hWulen, hWupre⟩ := inv.witness _ cu hu
  have hWuEnd : pathEnd start Wu = e.start := hWu.pathEnd_eq
  have hvnot : e.end_ ∉ Wu.map (fun s => s.end_) := by
    intro hmem
    obtain ⟨e', he', he'v⟩ := List.mem_map.1 hmem
    obtain ⟨W1, W2, hsplit⟩ := List.append_of_mem he'
    have hsplit' : Wu = (W1 ++ [e']) ++ W2 := by simp [hsplit]
    obtain ⟨c1, hc1, hc1le⟩ := hWupre (W1 ++ [e']) W2 hsplit'
    rw [pathEnd_append_singleton, he'v] at hc1
    have hlt := himp c1 hc1
    have hp2 : IsPath hasher sm (pathEnd start (W1 ++ [e'])) W2 e.start := by
      have := hWu
      rw [hsplit', isPath_append] at this
      exact this.2
    have hnn2 := pathLength_nonneg hnn hp2
    have hlen : pathLength dist Wu = pathLength dist (W1 ++ [e']) + pathLength dist W2 := by
      rw [hsplit', pathLength_append]
    linarith
  -- the chain of the relaxed coordinate
  obtain ⟨qu, hqu⟩ := inv.chain _ cu hu
  have hqu' := chainRev_keep dist hasher sm start end_ w hnn inv e
    (cu + dist e.start e.end_) cu himp (by linarith) qu e.start cu hu (le_refl _) hqu
  have hqv : ChainRev (w.relaxed dist end_ e (cu + dist e.start e.end_)).hist start e.end_
      (e :: qu) := by
    exact ⟨hvs, by simp [View.relaxed], hqu'⟩
  refine ⟨?_, ?_, ?_, ?_, ?_, ?_, ?_, ?_⟩
  · -- start_cost
    rw [hcostx start (fun h => hvs h.symm)]; exact inv.start_cost
  · -- cost_nonneg
    intro v c hv
    by_cases hvv : v = e.end_
    · rw [hvv, hcostv] at hv
      cases hv
      linarith
    · rw [hcostx v hvv] at hv
      exact inv.cost_nonneg v c hv
  · -- queue_known
    intro pc hpc
    rcases (hqueue pc).1 hpc with h | h
    · obtain ⟨c, hc⟩ := inv.queue_known pc h
      obtain ⟨c', hc', _⟩ := hmono pc.2 c hc
      exact ⟨c', hc'⟩
    · rw [h]; exact ⟨_, hcostv⟩
  · -- witness
    intro v c hv
    by_cases hvv : v = e.end_
    · rw [hvv, hcostv] at hv
      cases hv
      refine ⟨Wu ++ [e], ?_, ?_, ?_, ?_⟩
      · rw [hvv, isPath_append, hWuEnd]
        exact ⟨hWuEnd ▸ hWu, hadj, rfl⟩
      · rw [List.map_append, List.nodup_append]
        refine ⟨hWund, by simp, ?_⟩
        intro a ha hb
        simp only [List.map_cons, List.map_nil, List.mem_singleton] at hb
        exact hvnot (hb ▸ ha)
      · rw [pathLength_append, hWulen, pathLength_cons, pathLength_nil, add_zero]
      · intro W1 W2 hsplit
        rcases List.eq_nil_or_concat W2 with h2 | ⟨L, b, h2⟩
        · rw [h2, List.append_nil] at hsplit
          rw [← hsplit, pathEnd_append_singleton]
          refine ⟨_, hcostv, ?_⟩
          rw [pathLength_append, hWulen, pathLength_cons, pathLength_nil, add_zero]
        · rw [h2, List.concat_eq_append, ← List.append_assoc] at hsplit
          have hWu1 : Wu = W1 ++ L := (List.append_inj' hsplit rfl).1
          obtain ⟨c1, hc1, hc1le⟩ := hWupre W1 L hWu1
          obtain ⟨c', hc', hc'le⟩ := hmono _ c1 hc1
          exact ⟨c', hc', le_trans hc'le hc1le⟩
    · rw [hcostx v hvv] at hv
      obtain ⟨W, hW, hWnd, hWlen, hWpre⟩ := inv.witness v c hv
      refine ⟨W, hW, hWnd, hWlen, ?_⟩
      intro W1 W2 hsplit
      obtain ⟨c1, hc1, hc1le⟩ := hWpre W1 W2 hsplit
      obtain ⟨c', hc', hc'le⟩ := hmono _ c1 hc1
      exact ⟨c', hc', le_trans hc'le hc1le⟩
  · -- priority
    intro pc hpc
    rcases (hqueue pc).1 hpc with h | h
    · rcases inv.priority pc h with h1 | ⟨c, hc, hcle⟩
      · exact Or.inl h1
      · obtain ⟨c', hc', hc'le⟩ := hmono pc.2 c hc
        exact Or.inr ⟨c', hc', by linarith⟩
    · rw [h]
      exact Or.inr ⟨_, hcostv, le_refl _⟩
  · -- end_queued
    intro c hc
    by_cases hev : end_ = e.end_
    · exact ⟨_, (hqueue _).2 (Or.inr (by rw [hev]))⟩
    · rw [hcostx end_ hev] at hc
      obtain ⟨p, hp⟩ := inv.end_queued c hc
      exact ⟨p, (hqueue _).2 (Or.inl hp)⟩
  · -- hist_edge
    intro v s hs
    by_cases hvv : v = e.end_
    · have hse : s = e := by
        have : (w.relaxed dist end_ e (cu + dist e.start e.end_)).hist v = some e := by
          simp [View.relaxed, hvv]
        rw [this] at hs
        exact (Option.some.inj hs).symm
      rw [hse, hvv]
      refine ⟨rfl, hadj, hvs, cu, _, ?_, hcostv, le_refl _⟩
      rw [hcostx e.start (fun h => hvu h.symm)]
      exact hu
    · have hs' : w.hist v = some s := by
        simpa [View.relaxed, hvv] using hs
      obtain ⟨h1, h2, h3, ca, cb, hca, hcb, hineq⟩ := inv.hist_edge v s hs'
      obtain ⟨ca', hca', hca'le⟩ := hmono _ ca hca
      refine ⟨h1, h2, h3, ca', cb, hca', ?_, by linarith⟩
      rw [hcostx v hvv]; exact hcb
  · -- chain
    intro v c hv
    by_cases hvv : v = e.end_
    · exact ⟨e :: qu, hvv ▸ hqv⟩
    · rw [hcostx v hvv] at hv
      obtain ⟨p, hp⟩ := inv.chain v c hv
      exact chainRev_rebuild dist start end_ w e _ (e :: qu) hqv p v hp

end Invariant
end DeliveryRouter

namespace DeliveryRouter
open ExpandableHashMap

set_option linter.unusedSectionVars false

section Steps
variable {K R : Type} [DecidableEq K] [LinearOrderedCommRing R]
variable (dist : K → K → R) (hasher : K → Nat) (sm : StreetMapImpl K) (start end_ : K)

theorem SearchInv.pop (coordLt : K → K → Bool) (w : View K R)
    (inv : SearchInv dist hasher sm start end_ w) (top : R × K) (rest : List (R × K))
    (hpop : popMin coordLt w.queue = some (top, rest)) (hne : top.2 ≠ end_) :
    SearchInv dist hasher sm start end_ (w.withQueue rest) := by
  have hmem := popMin_mem coordLt w.queue top rest hpop
  refine ⟨inv.start_cost, inv.cost_nonneg, ?_, inv.witness, ?_, ?_, inv.hist_edge, inv.chain⟩
  · intro pc hpc
    exact inv.queue_known pc ((hmem pc).2 (Or.inr hpc))
  · intro pc hpc
    exact inv.priority pc ((hmem pc).2 (Or.inr hpc))
  · intro c hc
    obtain ⟨p, hp⟩ := inv.end_queued c hc
    rcases (hmem _).1 hp with h | h
    · exact absurd (by rw [← h]) hne
    · exact ⟨p, h⟩

theorem Expanding.ofClosed (coordLt : K → K → Bool) (w : View K R)
    (hcl : Closed dist hasher sm start end_ w) (top : R × K) (rest : List (R × K))
    (hpop : popMin coordLt w.queue = some (top, rest)) (cu : R)
    (hcu : w.cost top.2 = some cu) :
    Expanding dist hasher sm start end_ top.2 cu [] (w.withQueue rest) := by
  have hmem := popMin_mem coordLt w.queue top rest hpop
  refine ⟨hcu, ?_, ?_⟩
  · intro x c hx hxu
    rcases hcl x c hx with ⟨p, hp, hpc⟩ | h
    · left
      refine ⟨p, ?_, hpc⟩
      rcases (hmem _).1 hp with h | h
      · exact absurd (by rw [← h]) hxu
      · exact h
    · exact Or.inr h
  · intro e he
    cases he

theorem Expanding.skip (w : View K R) (u : K) (cu : R) (done : List (StreetSegment K))
    (hex : Expanding dist hasher sm start end_ u cu done w) (e : StreetSegment K) (c : R)
    (hc : w.cost e.end_ = some c) (hle : c ≤ cu + dist e.start e.end_) :
    Expanding dist hasher sm start end_ u cu (done ++ [e]) w := by
  refine ⟨hex.cost_u, hex.others, ?_⟩
  intro e' he'
  rcases List.mem_append.1 he' with h | h
  · exact hex.relaxed e' h
  · simp only [List.mem_singleton] at h
    rw [h]
    exact ⟨c, hc, hle⟩

theorem expanding_relax (w : View K R) (u : K) (cu : R) (done : List (StreetSegment K))
    (hex : Expanding dist hasher sm start end_ u cu done w) (e : StreetSegment K)
    (hvu : e.end_ ≠ u)
    (himp : ∀ c0, w.cost e.end_ = some c0 → cu + dist e.start e.end_ < c0) :
    Expanding dist hasher sm start end_ u cu (done ++ [e])
      (w.relaxed dist end_ e (cu + dist e.start e.end_)) := by
  have hmono := View.relaxed_cost_le dist end_ w e _ himp
  have hcostv : (w.relaxed dist end_ e (cu + dist e.start e.end_)).cost e.end_
      = some (cu + dist e.start e.end_) := by simp [View.relaxed]
  have hcostx : ∀ x, x ≠ e.end_ →
      (w.relaxed dist end_ e (cu + dist e.start e.end_)).cost x = w.cost x := by
    intro x hx; simp [View.relaxed, hx]
  have hqueue : ∀ pc, pc ∈ (w.relaxed dist end_ e (cu + dist e.start e.end_)).queue ↔
      pc ∈ w.queue ∨ pc = (cu + dist e.start e.end_ + dist e.end_ end_, e.end_) := by
    intro pc; simp [View.relaxed]
  refine ⟨?_, ?_, ?_⟩
  · rw [hcostx u (fun h => hvu h.symm)]; exact hex.cost_u
  · intro x c hx hxu
    by_cases hxv : x = e.end_
    · rw [hxv, hcostv] at hx
      cases hx
      left
      exact ⟨_, (hqueue _).2 (Or.inr (by rw [hxv])), Or.inl (by rw [hxv])⟩
    · rw [hcostx x hxv] at hx
      rcases hex.others x c hx hxu with ⟨p, hp, hpc⟩ | h
      · exact Or.inl ⟨p, (hqueue _).2 (Or.inl hp), hpc⟩
      · right
        intro e' he'
        obtain ⟨c2, hc2, hc2le⟩ := h e' he'
        obtain ⟨c', hc', hc'le⟩ := hmono _ c2 hc2
        exact ⟨c', hc', le_trans hc'le hc2le⟩
  · intro e' he'
    rcases List.mem_append.1 he' with h | h
    · obtain ⟨c2, hc2, hc2le⟩ := hex.relaxed e' h
      obtain ⟨c', hc', hc'le⟩ := hmono _ c2 hc2
      exact ⟨c', hc', le_trans hc'le hc2le⟩
    · simp only [List.mem_singleton] at h
      rw [h]
      exact ⟨_, hcostv, le_refl _⟩

theorem Expanding.toClosed (w : View K R) (u : K) (cu : R) (options : List (StreetSegment K))
    (hex : Expanding dist hasher sm start end_ u cu options w)
    (hall : ∀ e, Adjacent hasher sm u e → e ∈ options) :
    Closed dist hasher sm start end_ w := by
  intro x c hx
  by_cases hxu : x = u
  · right
    intro e he
    rw [hxu] at hx he
    rw [hex.cost_u] at hx
    cases hx
    exact hex.relaxed e (hall e he)
  · exact hex.others x c hx hxu

theorem searchMeasure_withQueue (w : View K R) (q : List (R × K)) :
    searchMeasure dist sm start (w.withQueue q) + w.queue.length
      = searchMeasure dist sm start w + q.length := by
  unfold searchMeasure View.withQueue
  simp only
  omega

theorem searchMeasure_relaxed (hwf : StartsAtKey hasher sm)
    (hnn : NonNegEdges dist hasher sm) (w : View K R)
    (inv : SearchInv dist hasher sm start end_ w) (u : K) (e : StreetSegment K) (cu : R)
    (hu : w.cost u = some cu) (hadj : Adjacent hasher sm u e)
    (himp : ∀ c0, w.cost e.end_ = some c0 → cu + dist e.start e.end_ < c0) :
    searchMeasure dist sm start (w.relaxed dist end_ e (cu + dist e.start e.end_)) + 1
      ≤ searchMeasure dist sm start w := by
  have inv' := searchInv_relax dist hasher sm start end_ hwf hnn w inv u e cu hu hadj himp
  have hcostv : (w.relaxed dist end_ e (cu + dist e.start e.end_)).cost e.end_
      = some (cu + dist e.start e.end_) := by simp [View.relaxed]
  obtain ⟨W, hW, hWnd, hWlen, _⟩ := inv'.witness e.end_ _ hcostv
  have hcand : cu + dist e.start e.end_ ∈ candidateCosts dist sm := by
    rw [← hWlen]
    exact mem_candidateCosts dist hasher sm start e.end_ W hW hWnd
  have hsum : ((start :: (allSegments sm).map (fun s => s.end_)).map
        (fun v => costRank (candidateCosts dist sm)
          ((w.relaxed dist end_ e (cu + dist e.start e.end_)).cost v))).sum
      < ((start :: (allSegments sm).map (fun s => s.end_)).map
        (fun v => costRank (candidateCosts dist sm) (w.cost v))).sum := by
    apply List.sum_lt_sum
    · intro v _
      by_cases hv : v = e.end_
      · rw [hv, hcostv]
        exact le_of_lt (costRank_lt _ _ _ hcand himp)
      · simp [View.relaxed, hv]
    · refine ⟨e.end_, ?_, ?_⟩
      · exact List.mem_cons_of_mem _ (List.mem_map.2 ⟨e, hadj.mem_allSegments, rfl⟩)
      · rw [hcostv]
        exact costRank_lt _ _ _ hcand himp
  unfold searchMeasure
  have hq : (w.relaxed dist end_ e (cu + dist e.start e.end_)).queue.length
      = w.queue.length + 1 := by simp [View.relaxed]
  rw [hq]
  omega

end Steps
end DeliveryRouter

namespace DeliveryRouter
open ExpandableHashMap

set_option linter.unusedSectionVars false

section Concrete
variable {K R : Type} [DecidableEq K] [LinearOrderedCommRing R]
variable (dist : K → K → R) (hasher : K → Nat) (sm : StreetMapImpl K) (start end_ : K)

theorem mem_options_iff (current : K) (e : StreetSegment K) :
    e ∈ (sm.getSegmentsThatStartWith hasher current []).2 ↔ Adjacent hasher sm current e := by
  unfold StreetMapImpl.getSegmentsThatStartWith Adjacent
  cases hf : find hasher sm.map current with
  | none => simp
  | some v => simp

theorem known_iff (c : K) : Known hasher sm c ↔ find hasher sm.map c ≠ none := by
  unfold Known StreetMapImpl.getSegmentsThatStartWith
  cases hf : find hasher sm.map c with
  | none => simp
  | some v => simp

theorem relaxSegment_spec (st : SearchState K R) (hlc : Layout hasher st.cost_map)
    (hlh : Layout hasher st.history) (u : K) (e : StreetSegment K) (cu : R)
    (hu : (st.view hasher).cost u = some cu) :
    ∃ st', relaxSegment dist hasher end_ u st e = some st' ∧
      Layout hasher st'.cost_map ∧ Layout hasher st'.history ∧
      ((st' = st ∧ ∃ c, (st.view hasher).cost e.end_ = some c ∧
          c ≤ cu + dist e.start e.end_) ∨
        ((∀ c0, (st.view hasher).cost e.end_ = some c0 → cu + dist e.start e.end_ < c0) ∧
          st'.view hasher =
            (st.view hasher).relaxed dist end_ e (cu + dist e.start e.end_))) := by
  have hu' : find hasher st.cost_map u = some cu := hu
  have hview : ∀ c, (SearchState.view hasher
      { cost_map := associate hasher st.cost_map e.end_ c
        open_list := st.open_list ++ [(c + dist e.end_ end_, e.end_)]
        history := associate hasher st.history e.end_ e } : View K R)
      = (st.view hasher).relaxed dist end_ e c := by
    intro c
    unfold SearchState.view View.relaxed
    simp only
    congr 1
    · funext x; exact find_associate hlc _ _ x
    · funext x; exact find_associate hlh _ _ x
  unfold relaxSegment
  simp only [hu']
  cases hnext : find hasher st.cost_map e.end_ with
  | none =>
    simp only [if_true]
    refine ⟨_, rfl, layout_associate hlc _ _, layout_associate hlh _ _, Or.inr ⟨?_, hview _⟩⟩
    intro c0 hc0
    have : find hasher st.cost_map e.end_ = some c0 := hc0
    rw [hnext] at this
    cases this
  | some known =>
    simp only
    by_cases hlt : cu + dist e.start e.end_ < known
    · rw [if_pos (by simpa using hlt)]
      refine ⟨_, rfl, layout_associate hlc _ _, layout_associate hlh _ _,
        Or.inr ⟨?_, hview _⟩⟩
      intro c0 hc0
      have : find hasher st.cost_map e.end_ = some c0 := hc0
      rw [hnext] at this
      cases this
      exact hlt
    · rw [if_neg (by simpa using hlt)]
      exact ⟨st, rfl, hlc, hlh, Or.inl ⟨rfl, known, hnext, le_of_not_lt hlt⟩⟩

theorem relaxAll_spec (hwf : StartsAtKey hasher sm) (hnn : NonNegEdges dist hasher sm)
    (u : K) (cu : R) (segs : List (StreetSegment K)) :
    ∀ (st : SearchState K R) (done : List (StreetSegment K)),
      Layout hasher st.cost_map → Layout hasher st.history →
      SearchInv dist hasher sm start end_ (st.view hasher) →
      Expanding dist hasher sm start end_ u cu done (st.view hasher) →
      (∀ e ∈ segs, Adjacent hasher sm u e) →
      ∃ st', relaxAll dist hasher end_ u st segs = some st' ∧
        Layout hasher st'.cost_map ∧ Layout hasher st'.history ∧
        SearchInv dist hasher sm start end_ (st'.view hasher) ∧
        Expanding dist hasher sm start end_ u cu (done ++ segs) (st'.view hasher) ∧
        searchMeasure dist sm start (st'.view hasher)
          ≤ searchMeasure dist sm start (st.view hasher) := by
  induction segs with
  | nil =>
    intro st done hlc hlh inv hex _
    exact ⟨st, rfl, hlc, hlh, inv, by simpa using hex, le_refl _⟩
  | cons e segs ih =>
    intro st done hlc hlh inv hex hadj
    have hadje : Adjacent hasher sm u e := hadj e (List.mem_cons_self _ _)
    obtain ⟨st1, hst1, hlc1, hlh1, hcase⟩ :=
      relaxSegment_spec dist hasher end_ st hlc hlh u e cu hex.cost_u
    have hnext : ∃ st', relaxAll dist hasher end_ u st1 segs = some st' ∧
        Layout hasher st'.cost_map ∧ Layout hasher st'.history ∧
        SearchInv dist hasher sm start end_ (st'.view hasher) ∧
        Expanding dist hasher sm start end_ u cu ((done ++ [e]) ++ segs) (st'.view hasher) ∧
        searchMeasure dist sm start (st'.view hasher)
          ≤ searchMeasure dist sm start (st1.view hasher) ∧
        searchMeasure dist sm start (st1.view hasher)
          ≤ searchMeasure dist sm start (st.view hasher) := by
      rcases hcase with ⟨heq, c, hc, hle⟩ | ⟨himp, hview⟩
      · rw [heq]
        obtain ⟨st', h1, h2, h3, h4, h5, h6⟩ := ih st (done ++ [e]) hlc hlh inv
          (Expanding.skip dist hasher sm start end_ _ u cu done hex e c hc hle)
          (fun x hx => hadj x (List.mem_cons_of_mem _ hx))
        exact ⟨st', h1, h2, h3, h4, h5, h6, le_refl _⟩
      · have hvu : e.end_ ≠ u := by
          intro h
          have h1 := himp cu (h ▸ hex.cost_u)
          have h2 := hnn u e hadje
          linarith
        have inv1 : SearchInv dist hasher sm start end_ (st1.view hasher) := by
          rw [hview]
          exact searchInv_relax dist hasher sm start end_ hwf hnn _ inv u e cu hex.cost_u
            hadje himp
        have hex1 : Expanding dist hasher sm start end_ u cu (done ++ [e])
            (st1.view hasher) := by
          rw [hview]
          exact expanding_relax dist hasher sm start end_ _ u cu done hex e hvu himp
        have hm1 : searchMeasure dist sm start (st1.view hasher) + 1
            ≤ searchMeasure dist sm start (st.view hasher) := by
          rw [hview]
          exact searchMeasure_relaxed dist hasher sm start end_ hwf hnn _ inv u e cu
            hex.cost_u hadje himp
        obtain ⟨st', h1, h2, h3, h4, h5, h6⟩ := ih st1 (done ++ [e]) hlc1 hlh1 inv1 hex1
          (fun x hx => hadj x (List.mem_cons_of_mem _ hx))
        exact ⟨st', h1, h2, h3, h4, h5, h6, by omega⟩
    obtain ⟨st', h1, h2, h3, h4, h5, h6, h7⟩ := hnext
    refine ⟨st', ?_, h2, h3, h4, ?_, le_trans h6 h7⟩
    · simp only [relaxAll, hst1]
      exact h1
    · simpa [List.append_assoc] using h5

end Concrete
end DeliveryRouter

namespace DeliveryRouter
open ExpandableHashMap

set_option linter.unusedSectionVars false

section Loop
variable {K R : Type} [DecidableEq K] [LinearOrderedCommRing R]
variable (dist : K → K → R) (hasher : K → Nat) (sm : StreetMapImpl K) (start end_ : K)

theorem searchLoop_spec (coordLt : K → K → Bool) (hwf : StartsAtKey hasher sm)
    (hnn : NonNegEdges dist hasher sm) :
    ∀ (fuel : Nat) (st : SearchState K R),
      Layout hasher st.cost_map → Layout hasher st.history →
      SearchInv dist hasher sm start end_ (st.view hasher) →
      Closed dist hasher sm start end_ (st.view hasher) →
      searchMeasure dist sm start (st.view hasher) < fuel →
      ∃ b st', searchLoop dist hasher coordLt sm end_ fuel st = some (b, st') ∧
        ∃ st0 : SearchState K R, Layout hasher st0.history ∧
          SearchInv dist hasher sm start end_ (st0.view hasher) ∧
          Closed dist hasher sm start end_ (st0.view hasher) ∧
          st'.cost_map = st0.cost_map ∧ st'.history = st0.history ∧
          ((b = false ∧ st0.open_list = []) ∨
            (b = true ∧ ∃ top rest, popMin coordLt st0.open_list = some (top, rest) ∧
              top.2 = end_)) := by
  intro fuel
  induction fuel with
  | zero => intro st _ _ _ _ h; exact absurd h (Nat.not_lt_zero _)
  | succ fuel ih =>
    intro st hlc hlh inv hcl hfuel
    cases hpop : popMin coordLt st.open_list with
    | none =>
      refine ⟨false, st, by simp [searchLoop, hpop], st, hlh, inv, hcl, rfl, rfl, Or.inl ⟨rfl, ?_⟩⟩
      exact (popMin_eq_none coordLt _).1 hpop
    | some tr =>
      obtain ⟨top, rest⟩ := tr
      by_cases hend : top.2 = end_
      · refine ⟨true, { cost_map := st.cost_map, history := st.history, open_list := rest },
          by simp [searchLoop, hpop, hend], st, hlh, inv, hcl, rfl, rfl,
          Or.inr ⟨rfl, top, rest, hpop, hend⟩⟩
      · have hpop' : popMin coordLt (st.view hasher).queue = some (top, rest) := hpop
        have hmem := popMin_mem coordLt _ top rest hpop'
        obtain ⟨cu, hcu⟩ := inv.queue_known top ((hmem top).2 (Or.inl rfl))
        have inv1 := SearchInv.pop dist hasher sm start end_ coordLt _ inv top rest hpop' hend
        have hex1 := Expanding.ofClosed dist hasher sm start end_ coordLt _ hcl top rest
          hpop' cu hcu
        obtain ⟨st2, hst2, hlc2, hlh2, inv2, hex2, hm2⟩ :=
          relaxAll_spec dist hasher sm start end_ hwf hnn top.2 cu
            (sm.getSegmentsThatStartWith hasher top.2 []).2
            { cost_map := st.cost_map, history := st.history, open_list := rest } []
            hlc hlh inv1 hex1
            (fun e he => (mem_options_iff hasher sm top.2 e).1 he)
        have hcl2 : Closed dist hasher sm start end_ (st2.view hasher) :=
          Expanding.toClosed dist hasher sm start end_ _ top.2 cu _ hex2
            (fun e he => by simpa using (mem_options_iff hasher sm top.2 e).2 he)
        have hlen := popMin_length coordLt _ top rest hpop'
        have hmq := searchMeasure_withQueue dist sm start (st.view hasher) rest
        have hm1 : searchMeasure dist sm start (st2.view hasher) < fuel := by
          have : searchMeasure dist sm start
              (SearchState.view hasher
                { cost_map := st.cost_map, history := st.history, open_list := rest })
              = searchMeasure dist sm start ((st.view hasher).withQueue rest) := rfl
          omega
        obtain ⟨b, st', hres, hfinal⟩ := ih st2 hlc2 hlh2 inv2 hcl2 hm1
        refine ⟨b, st', ?_, hfinal⟩
        simp only [searchLoop, hpop, hend, if_false, hst2]
        exact hres

theorem searchLoop_mono (coordLt : K → K → Bool) :
    ∀ (fuel : Nat) (st : SearchState K R) (r : Bool × SearchState K R),
      searchLoop dist hasher coordLt sm end_ fuel st = some r →
      ∀ k, searchLoop dist hasher coordLt sm end_ (fuel + k) st = some r := by
  intro fuel
  induction fuel with
  | zero => intro st r h; simp [searchLoop] at h
  | succ fuel ih =>
    intro st r h k
    have hk : fuel + 1 + k = (fuel + k) + 1 := by omega
    rw [hk]
    simp only [searchLoop] at h ⊢
    cases hpop : popMin coordLt st.open_list with
    | none => rw [hpop] at h; simpa using h
    | some tr =>
      obtain ⟨top, rest⟩ := tr
      rw [hpop] at h
      simp only at h ⊢
      by_cases hend : top.2 = end_
      · simpa [hend] using h
      · simp only [hend, if_false] at h ⊢
        cases hrel : relaxAll dist hasher end_ top.2
            { cost_map := st.cost_map, history := st.history, open_list := rest }
            (sm.getSegmentsThatStartWith hasher top.2 []).2 with
        | none => rw [hrel] at h; simp at h
        | some st2 =>
          rw [hrel] at h
          simp only at h ⊢
          exact ih st2 r h k

theorem reconstruct_chain (history : ExpandableHashMap K (StreetSegment K))
    (p : List (StreetSegment K)) :
    ∀ (v : K), ChainRev (find hasher history) start v p →
      ∀ (fuel : Nat), p.length < fuel → ∀ (route : List (StreetSegment K)) (total : R),
        reconstruct dist hasher start history fuel v route total
          = some (p.reverse ++ route, total + pathLength dist p) := by
  induction p with
  | nil =>
    intro v hv fuel hfuel route total
    cases fuel with
    | zero => exact absurd hfuel (Nat.not_lt_zero _)
    | succ fuel =>
      have hv' : v = start := hv
      simp [reconstruct, hv', pathLength]
  | cons e p ih =>
    intro v hv fuel hfuel route total
    obtain ⟨hvs, hve, hrest⟩ := hv
    cases fuel with
    | zero => exact absurd hfuel (Nat.not_lt_zero _)
    | succ fuel =>
      have hfuel' : p.length < fuel := by simpa using hfuel
      simp only [reconstruct, hvs, if_false, hve]
      rw [ih e.start hrest fuel hfuel']
      simp [pathLength_cons, add_assoc]

theorem chainRev_isPath (w : View K R) (inv : SearchInv dist hasher sm start end_ w)
    (p : List (StreetSegment K)) :
    ∀ v, ChainRev w.hist start v p → IsPath hasher sm start p.reverse v := by
  induction p with
  | nil => intro v hv; exact (show v = start from hv).symm
  | cons e p ih =>
    intro v hv
    obtain ⟨_, hve, hrest⟩ := hv
    obtain ⟨hev, hadj, _, _⟩ := inv.hist_edge v e hve
    have hp := ih e.start hrest
    rw [List.reverse_cons, isPath_append, hp.pathEnd_eq]
    exact ⟨hp, hadj, hev⟩

theorem chainRev_length_le (w : View K R)
    (inv : SearchInv dist hasher sm start end_ w) (p : List (StreetSegment K)) :
    ∀ v cv, w.cost v = some cv → ChainRev w.hist start v p → pathLength dist p ≤ cv := by
  induction p with
  | nil =>
    intro v cv hcv _
    rw [pathLength_nil]
    exact inv.cost_nonneg v cv hcv
  | cons e p ih =>
    intro v cv hcv hv
    obtain ⟨_, hve, hrest⟩ := hv
    obtain ⟨_, _, _, ca, cb, hca, hcb, hineq⟩ := inv.hist_edge v e hve
    rw [hcv] at hcb
    cases hcb
    have := ih e.start ca hca hrest
    rw [pathLength_cons]
    linarith

theorem closed_reach (w : View K R) (hcl : Closed dist hasher sm start end_ w)
    (hq : w.queue = []) (p : List (StreetSegment K)) :
    ∀ a ca x, w.cost a = some ca → IsPath hasher sm a p x → ∃ c, w.cost x = some c := by
  induction p with
  | nil =>
    intro a ca x ha hp
    exact ⟨ca, (show a = x from hp) ▸ ha⟩
  | cons e p ih =>
    intro a ca x ha hp
    rcases hcl a ca ha with ⟨q, hq', _⟩ | h
    · rw [hq] at hq'; cases hq'
    · obtain ⟨c2, hc2, _⟩ := h e hp.1
      exact ih e.end_ c2 x hc2 hp.2

theorem dist_le_pathLength (hwf : StartsAtKey hasher sm) (hzero : ∀ a, dist a a = 0)
    (htri : ∀ a b c, dist a c ≤ dist a b + dist b c) (p : List (StreetSegment K)) :
    ∀ a b, IsPath hasher sm a p b → dist a b ≤ pathLength dist p := by
  induction p with
  | nil =>
    intro a b h
    rw [show a = b from h, hzero, pathLength_nil]
  | cons e p ih =>
    intro a b h
    have hes : e.start = a := hwf a e h.1
    have h1 := ih e.end_ b h.2
    have h2 := htri a e.end_ b
    rw [pathLength_cons, hes]
    linarith

theorem astar_bound (coordLt : K → K → Bool) (hwf : StartsAtKey hasher sm)
    (hpos : ∀ a b, 0 ≤ dist a b) (hzero : ∀ a, dist a a = 0)
    (htri : ∀ a b c, dist a c ≤ dist a b + dist b c) (w : View K R)
    (inv : SearchInv dist hasher sm start end_ w)
    (hcl : Closed dist hasher sm start end_ w) (top : R × K) (rest : List (R × K))
    (hpop : popMin coordLt w.queue = some (top, rest)) (htop : top.2 = end_) (ce : R)
    (hce : w.cost end_ = some ce) (p : List (StreetSegment K)) :
    ∀ a ca bound, w.cost a = some ca → ca ≤ bound → IsPath hasher sm a p end_ →
      ce ≤ bound + pathLength dist p := by
  have hnn : NonNegEdges dist hasher sm := fun _ e _ => hpos e.start e.end_
  have hmin := popMin_min coordLt _ top rest hpop
  have hmem := popMin_mem coordLt _ top rest hpop
  have htopq : top ∈ w.queue := (hmem top).2 (Or.inl rfl)
  have hce_top : ce ≤ top.1 ∨ ce = 0 := by
    rcases inv.priority top htopq with ⟨h1, _⟩ | ⟨c, hc, hle⟩
    · right
      rw [htop] at h1
      rw [h1, inv.start_cost] at hce
      exact (Option.some.inj hce).symm
    · left
      rw [htop, hce] at hc
      cases hc
      rw [htop, hzero] at hle
      linarith
  induction p with
  | nil =>
    intro a ca bound ha hle hp
    rw [show a = end_ from hp, hce] at ha
    cases ha
    rw [pathLength_nil]
    linarith
  | cons e p ih =>
    intro a ca bound ha hle hp
    have hca : 0 ≤ ca := inv.cost_nonneg a ca ha
    have hlen : 0 ≤ pathLength dist (e :: p) := pathLength_nonneg hnn hp
    rcases hcl a ca ha with ⟨q, hq, hqc⟩ | h
    · have hq1 : top.1 ≤ q := hmin (q, a) hq
      have hadm := dist_le_pathLength dist hasher sm hwf hzero htri (e :: p) a end_ hp
      rcases hce_top with h1 | h1
      · rcases hqc with h2 | ⟨_, h2⟩
        · linarith
        · linarith
      · linarith
    · obtain ⟨c2, hc2, hc2le⟩ := h e hp.1
      have := ih e.end_ c2 (bound + dist e.start e.end_) hc2 (by linarith) hp.2
      rw [pathLength_cons]
      linarith

end Loop
end DeliveryRouter

namespace DeliveryRouter
open ExpandableHashMap

set_option linter.unusedSectionVars false

section Assembly
variable {K R : Type} [DecidableEq K] [LinearOrderedCommRing R]
variable (dist : K → K → R) (hasher : K → Nat) (sm : StreetMapImpl K) (start end_ : K)

theorem initialState_cost (x : K) :
    ((initialState hasher start : SearchState K R).view hasher).cost x =
      if x = start then some 0 else none := by
  show find hasher (associate hasher constructDefault start 0) x = _
  rw [find_associate (layout_constructDefault hasher), find_constructDefault]

theorem initialState_hist (x : K) :
    ((initialState hasher start : SearchState K R).view hasher).hist x = none :=
  find_constructDefault hasher x

theorem initialState_inv :
    SearchInv dist hasher sm start end_
      ((initialState hasher start : SearchState K R).view hasher) := by
  have hc : ∀ x, ((initialState hasher start : SearchState K R).view hasher).cost x =
      if x = start then some 0 else none := initialState_cost hasher start
  refine ⟨?_, ?_, ?_, ?_, ?_, ?_, ?_, ?_⟩
  · rw [hc]; simp
  · intro v c hv
    rw [hc] at hv
    by_cases hvs : v = start
    · simp [hvs] at hv; rw [← hv]
    · simp [hvs] at hv
  · intro pc hpc
    have : pc = (0, start) := by simpa [SearchState.view, initialState] using hpc
    rw [this, hc]; simp
  · intro v c hv
    rw [hc] at hv
    by_cases hvs : v = start
    · simp [hvs] at hv
      refine ⟨[], hvs.symm, by simp, by rw [pathLength_nil, hv], ?_⟩
      intro W1 W2 hsplit
      have hW1 : W1 = [] := (List.append_eq_nil.1 hsplit.symm).1
      rw [hW1, pathEnd_nil, hc, pathLength_nil]
      exact ⟨0, by simp, le_refl _⟩
    · simp [hvs] at hv
  · intro pc hpc
    have : pc = (0, start) := by simpa [SearchState.view, initialState] using hpc
    left; rw [this]; exact ⟨rfl, rfl⟩
  · intro c hce
    rw [hc] at hce
    by_cases hes : end_ = start
    · exact ⟨0, by simp [SearchState.view, initialState, hes]⟩
    · simp [hes] at hce
  · intro v e hve
    rw [initialState_hist] at hve
    cases hve
  · intro v c hv
    rw [hc] at hv
    by_cases hvs : v = start
    · exact ⟨[], hvs⟩
    · simp [hvs] at hv

theorem initialState_closed :
    Closed dist hasher sm start end_
      ((initialState hasher start : SearchState K R).view hasher) := by
  intro x c hx
  rw [initialState_cost] at hx
  by_cases hxs : x = start
  · left
    exact ⟨0, by simp [SearchState.view, initialState, hxs], Or.inr ⟨hxs, rfl⟩⟩
  · simp [hxs] at hx

theorem initialState_layout :
    Layout hasher (initialState hasher start : SearchState K R).cost_map ∧
    Layout hasher (initialState hasher start : SearchState K R).history :=
  ⟨layout_associate (layout_constructDefault hasher) _ _, layout_constructDefault hasher⟩

theorem reconstruct_mono (history : ExpandableHashMap K (StreetSegment K)) :
    ∀ (fuel : Nat) (v : K) (route : List (StreetSegment K)) (total : R)
      (r : List (StreetSegment K) × R),
      reconstruct dist hasher start history fuel v route total = some r →
      ∀ k, reconstruct dist hasher start history (fuel + k) v route total = some r := by
  intro fuel
  induction fuel with
  | zero => intro v route total r h; simp [reconstruct] at h
  | succ fuel ih =>
    intro v route total r h k
    have hk : fuel + 1 + k = (fuel + k) + 1 := by omega
    rw [hk]
    simp only [reconstruct] at h ⊢
    by_cases hvs : v = start
    · simpa [hvs] using h
    · simp only [hvs, if_false] at h ⊢
      cases hf : find hasher history v with
      | none => rw [hf] at h; simpa using h
      | some seg =>
        rw [hf] at h
        simp only at h ⊢
        exact ih _ _ _ r h k

theorem generatePointToPointRoute_mono (coordLt : K → K → Bool) (fuel : Nat)
    (route0 : List (StreetSegment K)) (total0 : R) (out : RouteOutput K R)
    (h : generatePointToPointRoute dist hasher coordLt sm fuel start end_ route0 total0
      = some out) (k : Nat) :
    generatePointToPointRoute dist hasher coordLt sm (fuel + k) start end_ route0 total0
      = some out := by
  unfold generatePointToPointRoute at h ⊢
  simp only at h ⊢
  split
  · rename_i h1; simpa [h1] using h
  · rename_i h1
    simp only [h1, if_false] at h
    split
    · rename_i h2; simpa [h2] using h
    · rename_i h2
      simp only [h2, if_false] at h
      cases hs : searchLoop dist hasher coordLt sm end_ fuel (initialState hasher start) with
      | none => rw [hs] at h; simp at h
      | some r =>
        rw [hs] at h
        rw [searchLoop_mono dist hasher sm end_ coordLt fuel _ r hs k]
        obtain ⟨b, st⟩ := r
        cases b with
        | false => simpa using h
        | true =>
          simp only at h ⊢
          cases hr : reconstruct dist hasher start st.history fuel end_ [] 0 with
          | none => rw [hr] at h; simp at h
          | some rt =>
            rw [hr] at h
            rw [reconstruct_mono dist hasher start st.history fuel end_ [] 0 rt hr k]
            exact h

/-- The predecessor table only ever maps a coordinate to a segment that ends there. -/
theorem relaxSegment_histEnds (u : K) (st st' : SearchState K R) (e : StreetSegment K)
    (hlh : Layout hasher st.history)
    (hends : ∀ v s, find hasher st.history v = some s → s.end_ = v)
    (h : relaxSegment dist hasher end_ u st e = some st') :
    Layout hasher st'.history ∧ ∀ v s, find hasher st'.history v = some s → s.end_ = v := by
  unfold relaxSegment at h
  cases hu : find hasher st.cost_map u with
  | none => rw [hu] at h; simp at h
  | some cu =>
    rw [hu] at h
    simp only at h
    split at h
    · simp only [Option.some.injEq] at h
      rw [← h]
      refine ⟨layout_associate hlh _ _, ?_⟩
      intro v s hvs
      have hvs' : find hasher (associate hasher st.history e.end_ e) v = some s := hvs
      rw [find_associate hlh] at hvs'
      by_cases hv : v = e.end_
      · rw [if_pos hv] at hvs'
        rw [← Option.some.inj hvs', hv]
      · rw [if_neg hv] at hvs'
        exact hends v s hvs'
    · simp only [Option.some.injEq] at h
      rw [← h]
      exact ⟨hlh, hends⟩

theorem relaxAll_histEnds (u : K) (segs : List (StreetSegment K)) :
    ∀ (st st' : SearchState K R), Layout hasher st.history →
      (∀ v s, find hasher st.history v = some s → s.end_ = v) →
      relaxAll dist hasher end_ u st segs = some st' →
      Layout hasher st'.history ∧
        ∀ v s, find hasher st'.history v = some s → s.end_ = v := by
  induction segs with
  | nil =>
    intro st st' hlh hends h
    simp only [relaxAll, Option.some.injEq] at h
    rw [← h]; exact ⟨hlh, hends⟩
  | cons e segs ih =>
    intro st st' hlh hends h
    simp only [relaxAll] at h
    cases h1 : relaxSegment dist hasher end_ u st e with
    | none => rw [h1] at h; simp at h
    | some st1 =>
      rw [h1] at h
      obtain ⟨hl1, he1⟩ := relaxSegment_histEnds dist hasher end_ u st st1 e hlh hends h1
      exact ih st1 st' hl1 he1 h

theorem searchLoop_histEnds (coordLt : K → K → Bool) :
    ∀ (fuel : Nat) (st : SearchState K R) (b : Bool) (st' : SearchState K R),
      Layout hasher st.history →
      (∀ v s, find hasher st.history v = some s → s.end_ = v) →
      searchLoop dist hasher coordLt sm end_ fuel st = some (b, st') →
      ∀ v s, find hasher st'.history v = some s → s.end_ = v := by
  intro fuel
  induction fuel with
  | zero => intro st b st' _ _ h; simp [searchLoop] at h
  | succ fuel ih =>
    intro st b st' hlh hends h
    simp only [searchLoop] at h
    cases hpop : popMin coordLt st.open_list with
    | none =>
      rw [hpop] at h
      simp only [Option.some.injEq, Prod.mk.injEq] at h
      rw [← h.2]; exact hends
    | some tr =>
      obtain ⟨top, rest⟩ := tr
      rw [hpop] at h
      simp only at h
      by_cases hend : top.2 = end_
      · simp only [hend, if_true, Option.some.injEq, Prod.mk.injEq] at h
        rw [← h.2]; exact hends
      · simp only [hend, if_false] at h
        cases hrel : relaxAll dist hasher end_ top.2
            { cost_map := st.cost_map, history := st.history, open_list := rest }
            (sm.getSegmentsThatStartWith hasher top.2 []).2 with
        | none => rw [hrel] at h; simp at h
        | some st2 =>
          rw [hrel] at h
          obtain ⟨hl2, he2⟩ := relaxAll_histEnds dist hasher end_ top.2 _
            { cost_map := st.cost_map, history := st.history, open_list := rest } st2
            hlh hends hrel
          exact ih st2 b st' hl2 he2 h

theorem reconstruct_contiguous (history : ExpandableHashMap K (StreetSegment K))
    (hends : ∀ v s, find hasher history v = some s → s.end_ = v) :
    ∀ (fuel : Nat) (v : K) (route : List (StreetSegment K)) (total : R)
      (route' : List (StreetSegment K)) (total' : R),
      Contiguous route → (∀ e, route.head? = some e → e.start = v) →
      reconstruct dist hasher start history fuel v route total = some (route', total') →
      Contiguous route' ∧ total' - pathLength dist route' = total - pathLength dist route := by
  intro fuel
  induction fuel with
  | zero => intro v route total route' total' _ _ h; simp [reconstruct] at h
  | succ fuel ih =>
    intro v route total route' total' hc hhead h
    simp only [reconstruct] at h
    by_cases hvs : v = start
    · simp only [hvs, if_true, Option.some.injEq, Prod.mk.injEq] at h
      rw [← h.1, ← h.2]; exact ⟨hc, rfl⟩
    · simp only [hvs, if_false] at h
      cases hf : find hasher history v with
      | none =>
        rw [hf] at h
        simp only [Option.some.injEq, Prod.mk.injEq] at h
        rw [← h.1, ← h.2]; exact ⟨hc, rfl⟩
      | some seg =>
        rw [hf] at h
        simp only at h
        have hsv := hends v seg hf
        have hc' : Contiguous (seg :: route) := by
          unfold Contiguous at hc ⊢
          rw [List.chain'_cons']
          refine ⟨?_, hc⟩
          intro y hy
          rw [hsv]
          exact (hhead y hy).symm
        obtain ⟨h1, h2⟩ := ih seg.start (seg :: route) _ route' total' hc'
          (by intro e he; simp at he; rw [← he]) h
        refine ⟨h1, ?_⟩
        rw [h2, pathLength_cons]
        ring

end Assembly
end DeliveryRouter

namespace DeliveryRouter
open ExpandableHashMap

set_option linter.unusedSectionVars false

section Outcome
variable {K R : Type} [DecidableEq K] [LinearOrderedCommRing R]
variable (dist : K → K → R) (hasher : K → Nat) (sm : StreetMapImpl K) (start end_ : K)

theorem getSegments_fst (c : K) (segs : List (StreetSegment K)) :
    (sm.getSegmentsThatStartWith hasher c segs).1 = (sm.getSegmentsThatStartWith hasher c []).1 := by
  unfold StreetMapImpl.getSegmentsThatStartWith
  cases find hasher sm.map c <;> rfl

theorem generate_unknown (coordLt : K → K → Bool) (fuel : Nat)
    (route0 : List (StreetSegment K)) (total0 : R)
    (h : ¬ Known hasher sm start ∨ ¬ Known hasher sm end_) :
    generatePointToPointRoute dist hasher coordLt sm fuel start end_ route0 total0
      = some ⟨DeliveryResult.BAD_COORD, [], total0⟩ := by
  unfold generatePointToPointRoute
  simp only
  by_cases hs : Known hasher sm start
  · have he : ¬ Known hasher sm end_ := h.resolve_left (fun hn => hn hs)
    have hs' : (sm.getSegmentsThatStartWith hasher start []).1 = true := hs
    have he' : (sm.getSegmentsThatStartWith hasher end_
        (sm.getSegmentsThatStartWith hasher start []).2).1 = false := by
      rw [getSegments_fst]
      unfold Known at he
      simpa using he
    rw [if_neg (by simp [hs']), if_pos he']
  · have hs' : (sm.getSegmentsThatStartWith hasher start []).1 = false := by
      unfold Known at hs
      simpa using hs
    rw [if_pos hs']

theorem generate_no_route (coordLt : K → K → Bool) (fuel : Nat)
    (route0 : List (StreetSegment K)) (total0 : R)
    (hs : Known hasher sm start) (he : Known hasher sm end_) (st : SearchState K R)
    (hsl : searchLoop dist hasher coordLt sm end_ fuel (initialState hasher start)
      = some (false, st)) :
    generatePointToPointRoute dist hasher coordLt sm fuel start end_ route0 total0
      = some ⟨DeliveryResult.NO_ROUTE, [], total0⟩ := by
  unfold generatePointToPointRoute
  simp only
  have hs' : (sm.getSegmentsThatStartWith hasher start []).1 = true := hs
  have he' : (sm.getSegmentsThatStartWith hasher end_
      (sm.getSegmentsThatStartWith hasher start []).2).1 = true := by
    rw [getSegments_fst]; exact he
  rw [if_neg (by simp [hs']), if_neg (by simp [he']), hsl]

theorem generate_success (coordLt : K → K → Bool) (fuel : Nat)
    (route0 : List (StreetSegment K)) (total0 : R)
    (hs : Known hasher sm start) (he : Known hasher sm end_) (st : SearchState K R)
    (hsl : searchLoop dist hasher coordLt sm end_ fuel (initialState hasher start)
      = some (true, st))
    (route : List (StreetSegment K)) (total : R)
    (hrec : reconstruct dist hasher start st.history fuel end_ [] 0 = some (route, total)) :
    generatePointToPointRoute dist hasher coordLt sm fuel start end_ route0 total0
      = some ⟨DeliveryResult.DELIVERY_SUCCESS, route, total⟩ := by
  unfold generatePointToPointRoute
  simp only
  have hs' : (sm.getSegmentsThatStartWith hasher start []).1 = true := hs
  have he' : (sm.getSegmentsThatStartWith hasher end_
      (sm.getSegmentsThatStartWith hasher start []).2).1 = true := by
    rw [getSegments_fst]; exact he
  rw [if_neg (by simp [hs']), if_neg (by simp [he']), hsl]
  simp only [hrec]

/-- What the two loops do from the initial state, for every sufficient fuel. -/
theorem search_reconstruct (coordLt : K → K → Bool) (hwf : StartsAtKey hasher sm)
    (hnn : NonNegEdges dist hasher sm) :
    ∃ (N : Nat) (b : Bool) (st' : SearchState K R),
      (∀ fuel, N ≤ fuel →
        searchLoop dist hasher coordLt sm end_ fuel (initialState hasher start)
          = some (b, st')) ∧
      ((b = false ∧ ¬ ∃ p, IsPath hasher sm start p end_) ∨
        (b = true ∧ ∃ route : List (StreetSegment K),
          (∀ fuel, N ≤ fuel →
            reconstruct dist hasher start st'.history fuel end_ [] 0
              = some (route, pathLength dist route)) ∧
          IsPath hasher sm start route end_ ∧ (start = end_ → route = []) ∧
          ∃ (st0 : SearchState K R) (top : R × K) (rest : List (R × K)) (ce : R),
            SearchInv dist hasher sm start end_ (st0.view hasher) ∧
            Closed dist hasher sm start end_ (st0.view hasher) ∧
            popMin coordLt (st0.view hasher).queue = some (top, rest) ∧ top.2 = end_ ∧
            (st0.view hasher).cost end_ = some ce ∧ pathLength dist route ≤ ce)) := by
  have hlay : Layout hasher (initialState hasher start : SearchState K R).cost_map ∧
      Layout hasher (initialState hasher start : SearchState K R).history :=
    initialState_layout hasher start
  obtain ⟨b, st', hres, st0, hlh0, inv0, hcl0, hcost, hhist, hcase⟩ :=
    searchLoop_spec dist hasher sm start end_ coordLt hwf hnn
      (searchMeasure dist sm start ((initialState hasher start : SearchState K R).view hasher) + 1)
      (initialState hasher start) hlay.1 hlay.2
      (initialState_inv dist hasher sm start end_)
      (initialState_closed dist hasher sm start end_) (Nat.lt_succ_self _)
  rcases hcase with ⟨hb, hq⟩ | ⟨hb, top, rest, hpop, htop⟩
  · refine ⟨searchMeasure dist sm start
        ((initialState hasher start : SearchState K R).view hasher) + 1,
      b, st', ?_, Or.inl ⟨hb, ?_⟩⟩
    · intro fuel hfuel
      obtain ⟨k, hk⟩ := Nat.exists_eq_add_of_le hfuel
      rw [hk]
      exact searchLoop_mono dist hasher sm end_ coordLt _ _ _ hres k
    · rintro ⟨p, hp⟩
      obtain ⟨c, hc⟩ := closed_reach dist hasher sm start end_ _ hcl0 hq p start 0 end_
        inv0.start_cost hp
      obtain ⟨q, hq'⟩ := inv0.end_queued c hc
      have hq2 : (st0.view hasher).queue = [] := hq
      rw [hq2] at hq'
      cases hq'
  · have hmem := popMin_mem coordLt _ top rest hpop
    obtain ⟨ce, hce⟩ := inv0.queue_known top ((hmem top).2 (Or.inl rfl))
    rw [htop] at hce
    obtain ⟨p, hp⟩ := inv0.chain end_ ce hce
    have hp' : ChainRev (find hasher st'.history) start end_ p := by
      rw [hhist]; exact hp
    refine ⟨max (searchMeasure dist sm start
        ((initialState hasher start : SearchState K R).view hasher) + 1) (p.length + 1),
      b, st', ?_, Or.inr ⟨hb, p.reverse, ?_, ?_, ?_, st0, top, rest, ce, inv0, hcl0, hpop,
        htop, hce, ?_⟩⟩
    · intro fuel hfuel
      obtain ⟨k, hk⟩ := Nat.exists_eq_add_of_le (le_trans (le_max_left _ _) hfuel)
      rw [hk]
      exact searchLoop_mono dist hasher sm end_ coordLt _ _ _ hres k
    · intro fuel hfuel
      have hlt : p.length < fuel := lt_of_lt_of_le (Nat.lt_succ_self _)
        (le_trans (le_max_right _ _) hfuel)
      rw [reconstruct_chain dist hasher start st'.history p end_ hp' fuel hlt [] 0]
      simp [pathLength_reverse]
    · exact chainRev_isPath dist hasher sm start end_ _ inv0 p end_ hp
    · intro hse
      cases p with
      | nil => rfl
      | cons e p => exact absurd hse.symm hp.1
    · rw [pathLength_reverse]
      exact chainRev_length_le dist hasher sm start end_ _ inv0 p end_ ce hce hp

end Outcome
end DeliveryRouter

namespace DeliveryRouter
open ExpandableHashMap

set_option linter.unusedSectionVars false

section Checks
variable {K R : Type} [DecidableEq K] [LinearOrderedCommRing R]
variable (dist : K → K → R) (hasher : K → Nat) (sm : StreetMapImpl K) (start end_ : K)

theorem isPath_of_check (p : List (StreetSegment K)) :
    ∀ a b, isPathCheck hasher sm a p b = true → IsPath hasher sm a p b := by
  induction p with
  | nil => intro a b h; simpa [isPathCheck] using h
  | cons e p ih =>
    intro a b h
    simp only [isPathCheck, Bool.and_eq_true] at h
    refine ⟨?_, ih _ _ h.2⟩
    cases hf : find hasher sm.map a with
    | none => rw [hf] at h; simp at h
    | some v =>
      rw [hf] at h
      exact ⟨v, hf, by simpa using h.1⟩

theorem nonNegEdges_of_nonneg (h : ∀ a b, 0 ≤ dist a b) : NonNegEdges dist hasher sm :=
  fun _ e _ => h e.start e.end_

theorem IsPath.adjacent_start {a b : K} {p : List (StreetSegment K)}
    (hwf : StartsAtKey hasher sm) (h : IsPath hasher sm a p b) :
    ∀ e ∈ p, Adjacent hasher sm e.start e := by
  induction p generalizing a with
  | nil => intro e he; cases he
  | cons x p ih =>
    intro e he
    rcases List.mem_cons.1 he with h1 | h1
    · rw [h1, hwf a x h.1]; exact h.1
    · exact ih h.2 e h1

theorem IsPath.getLast_end {a b : K} {p : List (StreetSegment K)}
    (h : IsPath hasher sm a p b) (hne : p ≠ []) :
    ∃ e, p.getLast? = some e ∧ e.end_ = b := by
  have hend := h.pathEnd_eq
  unfold pathEnd at hend
  cases hl : p.getLast? with
  | none => exact absurd (List.getLast?_eq_none_iff.1 hl) hne
  | some e =>
    rw [hl] at hend
    exact ⟨e, rfl, hend⟩

theorem generate_known_result (coordLt : K → K → Bool) (fuel : Nat)
    (route0 : List (StreetSegment K)) (total0 : R)
    (hs : Known hasher sm start) (he : Known hasher sm end_) (out : RouteOutput K R)
    (hout : generatePointToPointRoute dist hasher coordLt sm fuel start end_ route0 total0
      = some out) :
    out.result ≠ DeliveryResult.BAD_COORD := by
  cases hsl : searchLoop dist hasher coordLt sm end_ fuel (initialState hasher start) with
  | none =>
    unfold generatePointToPointRoute at hout
    have hs' : (sm.getSegmentsThatStartWith hasher start []).1 = true := hs
    have he' : (sm.getSegmentsThatStartWith hasher end_
        (sm.getSegmentsThatStartWith hasher start []).2).1 = true := by
      rw [getSegments_fst]; exact he
    simp [hs', he', hsl] at hout
  | some r =>
    obtain ⟨b, st⟩ := r
    cases b with
    | false =>
      rw [generate_no_route dist hasher sm start end_ coordLt fuel route0 total0 hs he st hsl]
        at hout
      rw [← Option.some.inj hout]
      simp
    | true =>
      cases hrec : reconstruct dist hasher start st.history fuel end_ [] 0 with
      | none =>
        unfold generatePointToPointRoute at hout
        have hs' : (sm.getSegmentsThatStartWith hasher start []).1 = true := hs
        have he' : (sm.getSegmentsThatStartWith hasher end_
            (sm.getSegmentsThatStartWith hasher start []).2).1 = true := by
          rw [getSegments_fst]; exact he
        simp [hs', he', hsl, hrec] at hout
      | some rt =>
        obtain ⟨route, total⟩ := rt
        rw [generate_success dist hasher sm start end_ coordLt fuel route0 total0 hs he st hsl
          route total hrec] at hout
        rw [← Option.some.inj hout]
        simp

/-- The outputs for every sufficient fuel, when both endpoints are known. -/
theorem route_outcome (coordLt : K → K → Bool) (hwf : StartsAtKey hasher sm)
    (hnn : NonNegEdges dist hasher sm) (hs : Known hasher sm start)
    (he : Known hasher sm end_) (route0 : List (StreetSegment K)) (total0 : R) :
    ∃ (N : Nat) (b : Bool) (st' : SearchState K R) (out : RouteOutput K R),
      (∀ fuel, N ≤ fuel →
        searchLoop dist hasher coordLt sm end_ fuel (initialState hasher start)
          = some (b, st') ∧
        generatePointToPointRoute dist hasher coordLt sm fuel start end_ route0 total0
          = some out) ∧
      ((b = false ∧ (¬ ∃ p, IsPath hasher sm start p end_) ∧
          out = ⟨DeliveryResult.NO_ROUTE, [], total0⟩) ∨
        (b = true ∧ out.result = DeliveryResult.DELIVERY_SUCCESS ∧
          (∀ fuel, N ≤ fuel →
            reconstruct dist hasher start st'.history fuel end_ [] 0
              = some (out.route, out.totalDistanceTravelled)) ∧
          out.totalDistanceTravelled = pathLength dist out.route ∧
          IsPath hasher sm start out.route end_ ∧ (start = end_ → out.route = []) ∧
          ∃ (st0 : SearchState K R) (top : R × K) (rest : List (R × K)) (ce : R),
            SearchInv dist hasher sm start end_ (st0.view hasher) ∧
            Closed dist hasher sm start end_ (st0.view hasher) ∧
            popMin coordLt (st0.view hasher).queue = some (top, rest) ∧ top.2 = end_ ∧
            (st0.view hasher).cost end_ = some ce ∧ pathLength dist out.route ≤ ce)) := by
  obtain ⟨N, b, st', hsl, hcase⟩ :=
    search_reconstruct dist hasher sm start end_ coordLt hwf hnn
  rcases hcase with ⟨hb, hno⟩ | ⟨hb, route, hrec, hpath, hempty, hrest⟩
  · refine ⟨N, b, st', ⟨DeliveryResult.NO_ROUTE, [], total0⟩, ?_, Or.inl ⟨hb, hno, rfl⟩⟩
    intro fuel hfuel
    refine ⟨hsl fuel hfuel, ?_⟩
    have h1 := hsl fuel hfuel
    rw [hb] at h1
    exact generate_no_route dist hasher sm start end_ coordLt fuel route0 total0 hs he st' h1
  · refine ⟨N, b, st', ⟨DeliveryResult.DELIVERY_SUCCESS, route, pathLength dist route⟩, ?_,
      Or.inr ⟨hb, rfl, hrec, rfl, hpath, hempty, hrest⟩⟩
    intro fuel hfuel
    refine ⟨hsl fuel hfuel, ?_⟩
    have h1 := hsl fuel hfuel
    rw [hb] at h1
    exact generate_success dist hasher sm start end_ coordLt fuel route0 total0 hs he st' h1
      route _ (hrec fuel hfuel)

end Checks
end DeliveryRouter

namespace DeliveryRouter
open ExpandableHashMap

set_option linter.unusedSectionVars false

section PlannerLemmas
variable {K R : Type} [DecidableEq K] [LinearOrderedField R]
variable (dist : K → K → R) (hasher : K → Nat) (coordLt : K → K → Bool) (sm : StreetMapImpl K)

/-- A call of the router that does not return `DELIVERY_SUCCESS` leaves the route empty and
the distance as it was on entry. -/
theorem generate_failure_frame (fuel : Nat) (s e : K) (r0 : List (StreetSegment K)) (t0 : R)
    (out : RouteOutput K R)
    (h : generatePointToPointRoute dist hasher coordLt sm fuel s e r0 t0 = some out)
    (hres : out.result ≠ DeliveryResult.DELIVERY_SUCCESS) :
    out.route = [] ∧ out.totalDistanceTravelled = t0 := by
  by_cases hk : Known hasher sm s ∧ Known hasher sm e
  · obtain ⟨hs, he⟩ := hk
    have hs' : (sm.getSegmentsThatStartWith hasher s []).1 = true := hs
    have he' : (sm.getSegmentsThatStartWith hasher e
        (sm.getSegmentsThatStartWith hasher s []).2).1 = true := by
      rw [getSegments_fst]; exact he
    cases hsl : searchLoop dist hasher coordLt sm e fuel (initialState hasher s) with
    | none =>
      unfold generatePointToPointRoute at h
      simp [hs', he', hsl] at h
    | some r =>
      obtain ⟨b, st⟩ := r
      cases b with
      | false =>
        rw [generate_no_route dist hasher sm s e coordLt fuel r0 t0 hs he st hsl] at h
        rw [← Option.some.inj h]
        exact ⟨rfl, rfl⟩
      | true =>
        cases hrec : reconstruct dist hasher s st.history fuel e [] 0 with
        | none =>
          unfold generatePointToPointRoute at h
          simp [hs', he', hsl, hrec] at h
        | some rt =>
          obtain ⟨route, total⟩ := rt
          rw [generate_success dist hasher sm s e coordLt fuel r0 t0 hs he st hsl
            route total hrec] at h
          rw [← Option.some.inj h] at hres
          exact absurd rfl hres
  · have hun : ¬ Known hasher sm s ∨ ¬ Known hasher sm e := by
      by_cases hs : Known hasher sm s
      · exact Or.inr (fun he => hk ⟨hs, he⟩)
      · exact Or.inl hs
    rw [generate_unknown dist hasher sm s e coordLt fuel r0 t0 hun] at h
    rw [← Option.some.inj h]
    exact ⟨rfl, rfl⟩

theorem addStreetSegsToRoutes_eq (fuel : Nat) (s e : K) (item : String)
    (routes : List (List (StreetSegment K × String))) (out : RouteOutput K R)
    (h : generatePointToPointRoute dist hasher coordLt sm fuel s e [] 0 = some out) :
    addStreetSegsToRoutes dist hasher coordLt sm fuel s e item routes
      = some (out.result, routes ++ [out.route.map (fun i => (i, item))]) := by
  unfold addStreetSegsToRoutes
  simp only
  rw [h]

theorem addStreetSegsToRoutes_none (fuel : Nat) (s e : K) (item : String)
    (routes : List (List (StreetSegment K × String)))
    (h : generatePointToPointRoute dist hasher coordLt sm fuel s e [] (0 : R) = none) :
    addStreetSegsToRoutes dist hasher coordLt sm fuel s e item routes = none := by
  unfold addStreetSegsToRoutes
  simp only
  rw [h]

theorem addStreetSegsToRoutes_parts (fuel : Nat) (s e : K) (item : String)
    (routes : List (List (StreetSegment K × String))) (res : DeliveryResult)
    (routes1 : List (List (StreetSegment K × String)))
    (h : addStreetSegsToRoutes dist hasher coordLt sm fuel s e item routes
      = some (res, routes1)) :
    ∃ out, generatePointToPointRoute dist hasher coordLt sm fuel s e [] 0 = some out ∧
      res = out.result ∧ routes1 = routes ++ [out.route.map (fun i => (i, item))] := by
  cases hg : generatePointToPointRoute dist hasher coordLt sm fuel s e [] (0 : R) with
  | none =>
    rw [addStreetSegsToRoutes_none dist hasher coordLt sm fuel s e item routes hg] at h
    cases h
  | some out =>
    rw [addStreetSegsToRoutes_eq dist hasher coordLt sm fuel s e item routes out hg] at h
    have h1 := Option.some.inj h
    exact ⟨out, rfl, (congrArg Prod.fst h1).symm, (congrArg Prod.snd h1).symm⟩

theorem addStreetSegsToRoutes_mono (fuel : Nat) (s e : K) (item : String)
    (routes : List (List (StreetSegment K × String)))
    (r : DeliveryResult × List (List (StreetSegment K × String)))
    (h : addStreetSegsToRoutes dist hasher coordLt sm fuel s e item routes = some r) (k : Nat) :
    addStreetSegsToRoutes dist hasher coordLt sm (fuel + k) s e item routes = some r := by
  obtain ⟨res, routes1⟩ := r
  obtain ⟨out, hg, h1, h2⟩ :=
    addStreetSegsToRoutes_parts dist hasher coordLt sm fuel s e item routes res routes1 h
  rw [addStreetSegsToRoutes_eq dist hasher coordLt sm (fuel + k) s e item routes out
    (generatePointToPointRoute_mono dist hasher sm s e coordLt fuel [] 0 out hg k), h1, h2]

theorem planLegs_mono (fuel : Nat) (mod : List (DeliveryRequest K)) (k : Nat) :
    ∀ (n i : Nat) (routes : List (List (StreetSegment K × String))) (x : LegsExit K),
      planLegs dist hasher coordLt sm fuel mod n i routes = some x →
      planLegs dist hasher coordLt sm (fuel + k) mod n i routes = some x := by
  intro n
  induction n with
  | zero => intro i routes x h; exact h
  | succ n ih =>
    intro i routes x h
    unfold planLegs at h ⊢
    cases ha : mod[i]? with
    | none => rw [ha] at h; simp at h
    | some a =>
      cases hb : mod[i + 1]? with
      | none => rw [ha, hb] at h; simp at h
      | some b =>
        rw [ha, hb] at h
        simp only at h ⊢
        cases hadd : addStreetSegsToRoutes dist hasher coordLt sm fuel a.location b.location
            b.item routes with
        | none => rw [hadd] at h; cases h
        | some r =>
          rw [hadd] at h
          rw [addStreetSegsToRoutes_mono dist hasher coordLt sm fuel a.location b.location
            b.item routes r hadd k]
          obtain ⟨res, routes1⟩ := r
          simp only at h ⊢
          by_cases hres : res ≠ DeliveryResult.DELIVERY_SUCCESS
          · rw [if_pos hres] at h ⊢
            exact h
          · rw [if_neg hres] at h ⊢
            exact ih (i + 1) routes1 x h

theorem planFromOrder_mono (angleOfLine : StreetSegment K → R)
    (angleBetween2Lines : StreetSegment K → StreetSegment K → R) (fuel : Nat) (depot : K)
    (mod : List (DeliveryRequest K)) (commands : List (DeliveryCommand R)) (total : R)
    (out : PlanOutput R)
    (h : planFromOrder dist hasher coordLt sm angleOfLine angleBetween2Lines fuel depot mod
      commands total = some out) (k : Nat) :
    planFromOrder dist hasher coordLt sm angleOfLine angleBetween2Lines (fuel + k) depot mod
      commands total = some out := by
  unfold planFromOrder at h ⊢
  simp only at h ⊢
  cases h0 : mod[0]? with
  | none => rw [h0] at h; cases h
  | some first =>
    rw [h0] at h
    simp only at h ⊢
    cases h1 : addStreetSegsToRoutes dist hasher coordLt sm fuel depot first.location
        first.item [] with
    | none => rw [h1] at h; cases h
    | some r1 =>
      rw [h1] at h
      rw [addStreetSegsToRoutes_mono dist hasher coordLt sm fuel depot first.location
        first.item [] r1 h1 k]
      obtain ⟨res1, routes1⟩ := r1
      simp only at h ⊢
      cases h2 : planLegs dist hasher coordLt sm fuel mod (mod.length - 1) 0 routes1 with
      | none => rw [h2] at h; cases h
      | some x =>
        rw [h2] at h
        rw [planLegs_mono dist hasher coordLt sm fuel mod k (mod.length - 1) 0 routes1 x h2]
        cases x with
        | returned res => exact h
        | completed routes2 =>
          simp only at h ⊢
          cases h3 : mod[mod.length - 1]? with
          | none => rw [h3] at h; cases h
          | some last =>
            rw [h3] at h
            simp only at h ⊢
            cases h4 : addStreetSegsToRoutes dist hasher coordLt sm fuel last.location depot
                "" routes2 with
            | none => rw [h4] at h; cases h
            | some r4 =>
              rw [h4] at h
              rw [addStreetSegsToRoutes_mono dist hasher coordLt sm fuel last.location depot
                "" routes2 r4 h4 k]
              exact h

end PlannerLemmas

end DeliveryRouter

namespace DeliveryRouter
open ExpandableHashMap

set_option linter.unusedSectionVars false

section TwoWayLemmas
variable {K : Type} [DecidableEq K]

/-- On a two-way map a path can be walked back. -/
theorem isPath_reverse {hasher : K → Nat} {sm : StreetMapImpl K} (hwf : StartsAtKey hasher sm)
    (htw : TwoWay hasher sm) :
    ∀ (p : List (StreetSegment K)) (a b : K), IsPath hasher sm a p b →
      ∃ q, IsPath hasher sm b q a := by
  intro p
  induction p with
  | nil => intro a b h; exact ⟨[], (show a = b from h).symm⟩
  | cons e p ih =>
    intro a b h
    obtain ⟨q, hq⟩ := ih e.end_ b h.2
    have hrev := htw a e h.1
    have hstart : e.start = a := hwf a e h.1
    refine ⟨q ++ [⟨e.end_, e.start, e.name⟩], ?_⟩
    rw [isPath_append, hq.pathEnd_eq]
    exact ⟨hq, hrev, hstart⟩

theorem Linked.symm {hasher : K → Nat} {sm : StreetMapImpl K} (hwf : StartsAtKey hasher sm)
    (htw : TwoWay hasher sm) {a b : K} (h : Linked hasher sm a b) : Linked hasher sm b a := by
  obtain ⟨ha, hb, p, hp⟩ := h
  exact ⟨hb, ha, isPath_reverse hwf htw p a b hp⟩

end TwoWayLemmas

end DeliveryRouter

namespace DeliveryRouter

section SwapLemmas
variable {K : Type}

theorem randInt_eq_mod (raw n : Nat) (hn : 1 ≤ n) :
    randInt raw 0 ((n : Int) - 1) = ((raw % n : Nat) : Int) := by
  unfold randInt
  have h : ¬ ((n : Int) - 1 < 0) := by omega
  simp only [h, if_false]
  have : ((n : Int) - 1 - 0 + 1) = (n : Int) := by ring
  rw [this, zero_add]
  rfl

theorem randInt_range (raw n : Nat) (hn : 1 ≤ n) :
    0 ≤ randInt raw 0 ((n : Int) - 1) ∧ randInt raw 0 ((n : Int) - 1) < (n : Int) := by
  rw [randInt_eq_mod raw n hn]
  have : raw % n < n := Nat.mod_lt _ hn
  constructor
  · exact Int.ofNat_nonneg _
  · exact_mod_cast this

theorem swapAt_eq_some_iff (vec vec1 : List (DeliveryRequest K)) (a b : Int) :
    randomlySwapDeliveriesAt vec a b = some vec1 ↔
      0 ≤ a ∧ 0 ≤ b ∧ ∃ x y, vec[a.toNat]? = some x ∧ vec[b.toNat]? = some y ∧
        vec1 = (vec.set a.toNat y).set b.toNat x := by
  unfold randomlySwapDeliveriesAt
  constructor
  · intro h
    split at h
    · rename_i hab
      split at h
      · rename_i x y hx hy
        exact ⟨hab.1, hab.2, x, y, hx, hy, (Option.some.inj h).symm⟩
      · cases h
    · cases h
  · rintro ⟨ha, hb, x, y, hx, hy, rfl⟩
    rw [if_pos ⟨ha, hb⟩, hx, hy]

theorem swapAt_some (vec : List (DeliveryRequest K)) (a b : Int) (ha : 0 ≤ a)
    (ha2 : a < (vec.length : Int)) (hb : 0 ≤ b) (hb2 : b < (vec.length : Int)) :
    ∃ vec1, randomlySwapDeliveriesAt vec a b = some vec1 := by
  have h1 : a.toNat < vec.length := (Int.toNat_lt ha).2 ha2
  have h2 : b.toNat < vec.length := (Int.toNat_lt hb).2 hb2
  refine ⟨_, (swapAt_eq_some_iff vec _ a b).2
    ⟨ha, hb, vec[a.toNat], vec[b.toNat], ?_, ?_, rfl⟩⟩
  · exact List.getElem?_eq_getElem h1
  · exact List.getElem?_eq_getElem h2

theorem swapAt_length {vec vec1 : List (DeliveryRequest K)} {a b : Int}
    (h : randomlySwapDeliveriesAt vec a b = some vec1) : vec1.length = vec.length := by
  obtain ⟨_, _, x, y, _, _, rfl⟩ := (swapAt_eq_some_iff vec vec1 a b).1 h
  rw [List.length_set, List.length_set]

theorem swapAt_inRange {vec vec1 : List (DeliveryRequest K)} {a b : Int}
    (h : randomlySwapDeliveriesAt vec a b = some vec1) :
    0 ≤ a ∧ a < (vec.length : Int) ∧ 0 ≤ b ∧ b < (vec.length : Int) := by
  obtain ⟨ha, hb, x, y, hx, hy, _⟩ := (swapAt_eq_some_iff vec vec1 a b).1 h
  have h1 : a.toNat < vec.length := (List.getElem?_eq_some_iff.1 hx).1
  have h2 : b.toNat < vec.length := (List.getElem?_eq_some_iff.1 hy).1
  exact ⟨ha, (Int.toNat_lt ha).1 h1, hb, (Int.toNat_lt hb).1 h2⟩

theorem set_swap_back (vec : List (DeliveryRequest K)) (i j : Nat) (x y : DeliveryRequest K)
    (hx : vec[i]? = some x) (hy : vec[j]? = some y) :
    ∃ x1 y1, ((vec.set i y).set j x)[j]? = some x1 ∧ ((vec.set i y).set j x)[i]? = some y1 ∧
      ((((vec.set i y).set j x).set j y1).set i x1) = vec := by
  have hi : i < vec.length := (List.getElem?_eq_some_iff.1 hx).1
  have hj : j < vec.length := (List.getElem?_eq_some_iff.1 hy).1
  by_cases hij : i = j
  · subst hij
    have hxy : x = y := Option.some.inj (hx.symm.trans hy)
    subst hxy
    refine ⟨x, x, ?_, ?_, ?_⟩
    · simp [List.getElem?_set, hi]
    · simp [List.getElem?_set, hi]
    · apply List.ext_getElem?
      intro n
      simp only [List.getElem?_set, List.length_set]
      by_cases hn : i = n
      · subst hn; simp [hi, hx]
      · simp [hn]
  · refine ⟨x, y, ?_, ?_, ?_⟩
    · simp [List.getElem?_set, hj]
    · have hji : ¬ j = i := fun h => hij h.symm
      simp [List.getElem?_set, hi, hji]
    · apply List.ext_getElem?
      intro n
      simp only [List.getElem?_set, List.length_set]
      by_cases hn : i = n
      · subst hn; simp [hi, hx]
      · by_cases hn2 : j = n
        · subst hn2; simp [hn, hj, hy]
        · simp [hn, hn2]

theorem swapAt_back {vec vec1 : List (DeliveryRequest K)} {a b : Int}
    (h : randomlySwapDeliveriesAt vec a b = some vec1) :
    randomlySwapDeliveriesAt vec1 b a = some vec := by
  obtain ⟨ha, hb, x, y, hx, hy, rfl⟩ := (swapAt_eq_some_iff vec vec1 a b).1 h
  obtain ⟨x1, y1, h1, h2, h3⟩ := set_swap_back vec a.toNat b.toNat x y hx hy
  exact (swapAt_eq_some_iff _ _ b a).2 ⟨hb, ha, x1, y1, h1, h2, h3.symm⟩

theorem swapAt_perm [DecidableEq K] {vec vec1 : List (DeliveryRequest K)} {a b : Int}
    (h : randomlySwapDeliveriesAt vec a b = some vec1) : vec1.Perm vec := by
  obtain ⟨ha, hb, x, y, hx, hy, rfl⟩ := (swapAt_eq_some_iff vec vec1 a b).1 h
  generalize a.toNat = i at hx
  generalize b.toNat = j at hy
  have hi : i < vec.length := (List.getElem?_eq_some_iff.1 hx).1
  have hj : j < vec.length := (List.getElem?_eq_some_iff.1 hy).1
  have hxi : vec[i] = x := (List.getElem?_eq_some_iff.1 hx).2
  have hyj : vec[j] = y := (List.getElem?_eq_some_iff.1 hy).2
  by_cases hij : i = j
  · subst hij
    have hxy : x = y := Option.some.inj (hx.symm.trans hy)
    subst hxy
    have : (vec.set i x).set i x = vec := by
      apply List.ext_getElem?
      intro n
      simp only [List.getElem?_set, List.length_set]
      by_cases hn : i = n
      · subst hn; simp [hi, hx]
      · simp [hn]
    rw [this]
  · rw [List.perm_iff_count]
    intro c
    have hj1 : j < (vec.set i y).length := by rw [List.length_set]; exact hj
    have hget : (vec.set i y)[j] = y := by
      rw [List.getElem_set_ne hij]; exact hyj
    rw [List.count_set x c (vec.set i y) j hj1, List.count_set y c vec i hi, hget, hxi]
    have hxmem : x ∈ vec := List.getElem?_mem hx
    have hcx : (x == c) = true → 1 ≤ List.count c vec := by
      intro hxc
      have : x = c := by simpa using hxc
      rw [← this]
      exact List.count_pos_iff.2 hxmem
    by_cases h1 : (x == c) = true <;> by_cases h2 : (y == c) = true
    · have := hcx h1; rw [if_pos h1, if_pos h2]; omega
    · have := hcx h1; rw [if_pos h1, if_neg h2]; omega
    · rw [if_neg h1, if_pos h2]; omega
    · rw [if_neg h1, if_neg h2]; omega

end SwapLemmas

section DrawLemmas

theorem drawPositions_mono (ints : Nat → Nat) (size : Nat) :
    ∀ (fuel cursor : Nat) (r : (Int × Int) × Nat),
      drawPositions ints size fuel cursor = some r →
      ∀ k, drawPositions ints size (fuel + k) cursor = some r := by
  intro fuel
  induction fuel with
  | zero => intro cursor r h; cases h
  | succ fuel ih =>
    intro cursor r h k
    rw [Nat.add_right_comm]
    unfold drawPositions at h ⊢
    simp only at h ⊢
    split
    · rename_i hab
      rw [if_pos hab] at h
      exact ih _ r h k
    · rename_i hab
      rw [if_neg hab] at h
      exact h

theorem drawPositions_spec (ints : Nat → Nat) (size : Nat) :
    ∀ (fuel cursor : Nat) (a b : Int) (cursor1 : Nat),
      drawPositions ints size fuel cursor = some ((a, b), cursor1) →
      a ≠ b ∧ ∃ j, j < fuel ∧ cursor1 = cursor + 2 * j + 2 ∧
        a = randInt (ints (cursor + 2 * j)) 0 ((size : Int) - 1) ∧
        b = randInt (ints (cursor + 2 * j + 1)) 0 ((size : Int) - 1) ∧
        ∀ i, i < j → randInt (ints (cursor + 2 * i)) 0 ((size : Int) - 1)
          = randInt (ints (cursor + 2 * i + 1)) 0 ((size : Int) - 1) := by
  intro fuel
  induction fuel with
  | zero => intro cursor a b cursor1 h; cases h
  | succ fuel ih =>
    intro cursor a b cursor1 h
    unfold drawPositions at h
    simp only at h
    split at h
    · rename_i hab
      obtain ⟨hne, j, hj, hc, ha, hb, hprev⟩ := ih _ a b cursor1 h
      refine ⟨hne, j + 1, by omega, by omega, ?_, ?_, ?_⟩
      · rw [ha]; congr 2; ring
      · rw [hb]; congr 2; ring
      · intro i hi
        cases i with
        | zero => exact hab
        | succ i =>
          have := hprev i (by omega)
          have e1 : cursor + 2 * (i + 1) = cursor + 2 + 2 * i := by ring
          rw [e1]; exact this
    · rename_i hab
      have h1 := Option.some.inj h
      have ha : randInt (ints cursor) 0 ((size : Int) - 1) = a := congrArg (fun r => r.1.1) h1
      have hb : randInt (ints (cursor + 1)) 0 ((size : Int) - 1) = b :=
        congrArg (fun r => r.1.2) h1
      have hc : cursor + 2 = cursor1 := congrArg (fun r => r.2) h1
      refine ⟨by rw [← ha, ← hb]; exact hab, 0, by omega, by omega, ha.symm, hb.symm, ?_⟩
      intro i hi; omega

theorem drawPositions_terminates (ints : Nat → Nat) (size : Nat) :
    ∀ (j cursor : Nat),
      randInt (ints (cursor + 2 * j)) 0 ((size : Int) - 1)
        ≠ randInt (ints (cursor + 2 * j + 1)) 0 ((size : Int) - 1) →
      ∃ r, ∀ fuel, j + 1 ≤ fuel → drawPositions ints size fuel cursor = some r := by
  intro j
  induction j with
  | zero =>
    intro cursor h
    have h : randInt (ints cursor) 0 ((size : Int) - 1)
        ≠ randInt (ints (cursor + 1)) 0 ((size : Int) - 1) := h
    refine ⟨((randInt (ints cursor) 0 ((size : Int) - 1),
      randInt (ints (cursor + 1)) 0 ((size : Int) - 1)), cursor + 2), ?_⟩
    intro fuel hfuel
    obtain ⟨f, rfl⟩ : ∃ f, fuel = f + 1 := ⟨fuel - 1, by omega⟩
    unfold drawPositions
    simp only
    rw [if_neg h]
  | succ j ih =>
    intro cursor h
    by_cases hab : randInt (ints cursor) 0 ((size : Int) - 1)
        = randInt (ints (cursor + 1)) 0 ((size : Int) - 1)
    · have e1 : cursor + 2 * (j + 1) = cursor + 2 + 2 * j := by ring
      rw [e1] at h
      obtain ⟨r, hr⟩ := ih (cursor + 2) h
      refine ⟨r, ?_⟩
      intro fuel hfuel
      obtain ⟨f, rfl⟩ : ∃ f, fuel = f + 1 := ⟨fuel - 1, by omega⟩
      unfold drawPositions
      simp only
      rw [if_pos hab]
      exact hr f (by omega)
    · refine ⟨((randInt (ints cursor) 0 ((size : Int) - 1),
        randInt (ints (cursor + 1)) 0 ((size : Int) - 1)), cursor + 2), ?_⟩
      intro fuel hfuel
      obtain ⟨f, rfl⟩ : ∃ f, fuel = f + 1 := ⟨fuel - 1, by omega⟩
      unfold drawPositions
      simp only
      rw [if_neg hab]

theorem drawPositions_single (ints : Nat → Nat) :
    ∀ (fuel cursor : Nat), drawPositions ints 1 fuel cursor = none := by
  intro fuel
  induction fuel with
  | zero => intro cursor; rfl
  | succ fuel ih =>
    intro cursor
    unfold drawPositions
    simp only
    have h1 := randInt_eq_mod (ints cursor) 1 (le_refl 1)
    have h2 := randInt_eq_mod (ints (cursor + 1)) 1 (le_refl 1)
    rw [Nat.mod_one] at h1 h2
    rw [if_pos (h1.trans h2.symm)]
    exact ih _

end DrawLemmas

end DeliveryRouter

namespace DeliveryRouter

set_option linter.unusedSectionVars false

section AnnealLemmas
variable {K R : Type} [DecidableEq K] [LinearOrderedField R]
variable (dist : K → K → R) (expFn : R → R) (ints : Nat → Nat) (reals : Nat → R) (depot : K)

theorem randomlySwap_spec {fuel : Nat} {vec vec1 : List (DeliveryRequest K)} {cursor : Nat}
    {ab : Int × Int} {cursor1 : Nat}
    (h : randomlySwapDeliveries ints fuel vec cursor = some (vec1, ab, cursor1)) :
    drawPositions ints vec.length fuel cursor = some (ab, cursor1) ∧
      randomlySwapDeliveriesAt vec ab.1 ab.2 = some vec1 := by
  unfold randomlySwapDeliveries at h
  cases hd : drawPositions ints vec.length fuel cursor with
  | none => rw [hd] at h; cases h
  | some r =>
    obtain ⟨ab0, c0⟩ := r
    rw [hd] at h
    simp only at h
    cases hs : randomlySwapDeliveriesAt vec ab0.1 ab0.2 with
    | none => rw [hs] at h; cases h
    | some v =>
      rw [hs] at h
      simp only at h
      have h1 := Option.some.inj h
      have e1 : v = vec1 := congrArg (fun r => r.1) h1
      have e2 : ab0 = ab := congrArg (fun r => r.2.1) h1
      have e3 : c0 = cursor1 := congrArg (fun r => r.2.2) h1
      subst e1 e2 e3
      exact ⟨rfl, hs⟩

theorem randomlySwap_of_parts {fuel : Nat} {vec vec1 : List (DeliveryRequest K)}
    {cursor : Nat} {ab : Int × Int} {cursor1 : Nat}
    (hd : drawPositions ints vec.length fuel cursor = some (ab, cursor1))
    (hs : randomlySwapDeliveriesAt vec ab.1 ab.2 = some vec1) :
    randomlySwapDeliveries ints fuel vec cursor = some (vec1, ab, cursor1) := by
  unfold randomlySwapDeliveries
  rw [hd]
  simp only
  rw [hs]

theorem randomlySwap_terminates (vec : List (DeliveryRequest K)) (hsize : 1 ≤ vec.length)
    (hdraw : DrawsSeparate ints vec.length) (cursor : Nat) :
    ∃ (F : Nat) (r : List (DeliveryRequest K) × (Int × Int) × Nat),
      ∀ fuel, F ≤ fuel → randomlySwapDeliveries ints fuel vec cursor = some r := by
  obtain ⟨j, hj⟩ := hdraw cursor
  obtain ⟨r, hr⟩ := drawPositions_terminates ints vec.length j cursor hj
  obtain ⟨⟨a, b⟩, c1⟩ := r
  obtain ⟨_, i, _, _, ha, hb, _⟩ := drawPositions_spec ints vec.length (j + 1) cursor a b c1
    (hr (j + 1) (le_refl _))
  have hra := randInt_range (ints (cursor + 2 * i)) vec.length hsize
  have hrb := randInt_range (ints (cursor + 2 * i + 1)) vec.length hsize
  rw [← ha] at hra
  rw [← hb] at hrb
  obtain ⟨vec1, hv⟩ := swapAt_some vec a b hra.1 hra.2 hrb.1 hrb.2
  exact ⟨j + 1, (vec1, (a, b), c1), fun fuel hfuel =>
    randomlySwap_of_parts ints (hr fuel hfuel) hv⟩

theorem approxLegs_some (deliveries : List (DeliveryRequest K)) :
    ∀ (n i : Nat) (total : R), i + n < deliveries.length →
      ∃ r, approxLegs dist deliveries n i total = some r := by
  intro n
  induction n with
  | zero => intro i total _; exact ⟨total, rfl⟩
  | succ n ih =>
    intro i total h
    have h1 : i < deliveries.length := by omega
    have h2 : i + 1 < deliveries.length := by omega
    unfold approxLegs
    rw [List.getElem?_eq_getElem h1, List.getElem?_eq_getElem h2]
    exact ih (i + 1) _ (by omega)

theorem getApproxCrowDist_some (deliveries : List (DeliveryRequest K))
    (hsize : 1 ≤ deliveries.length) : ∃ r, getApproxCrowDist dist depot deliveries = some r := by
  unfold getApproxCrowDist
  have h0 : 0 < deliveries.length := hsize
  have hl : deliveries.length - 1 < deliveries.length := by omega
  rw [List.getElem?_eq_getElem h0]
  simp only
  obtain ⟨r, hr⟩ := approxLegs_some dist deliveries (deliveries.length - 1) 0
    ((0 : R) + dist depot deliveries[0].location) (by omega)
  rw [hr]
  simp only
  rw [List.getElem?_eq_getElem hl]
  exact ⟨_, rfl⟩

/-- The state after one iteration, from the drawn positions, the swapped vector and its
approximate distance. -/
theorem annealIteration_eq (fuel : Nat) (st : AnnealState K R) (a b : Int) (cursor1 : Nat)
    (C : List (DeliveryRequest K)) (c : R)
    (hd : drawPositions ints st.currentSolution.length fuel st.intCursor
      = some ((a, b), cursor1))
    (hs : randomlySwapDeliveriesAt st.currentSolution a b = some C)
    (hc : getApproxCrowDist dist depot C = some c) :
    annealIteration dist expFn ints reals fuel depot st = some
      (if c < st.best_dist then
        { t := st.t * cooling_rate, best_dist := c, currentSolution := C,
          intCursor := cursor1, realCursor := st.realCursor }
      else if expFn ((st.best_dist - c) / st.t) < reals st.realCursor then
        { t := st.t * cooling_rate, best_dist := st.best_dist,
          currentSolution := st.currentSolution, intCursor := cursor1,
          realCursor := st.realCursor + 1 }
      else
        { t := st.t * cooling_rate, best_dist := st.best_dist, currentSolution := C,
          intCursor := cursor1, realCursor := st.realCursor + 1 }) := by
  unfold annealIteration
  rw [randomlySwap_of_parts ints hd hs]
  simp only
  rw [hc]
  simp only
  by_cases h1 : c < st.best_dist
  · rw [if_pos h1, if_pos h1]
  · rw [if_neg h1, if_neg h1]
    by_cases h2 : expFn ((st.best_dist - c) / st.t) < reals st.realCursor
    · rw [if_pos h2, if_pos h2, swapAt_back hs]
    · rw [if_neg h2, if_neg h2]

theorem annealIteration_parts (fuel : Nat) (st st1 : AnnealState K R)
    (h : annealIteration dist expFn ints reals fuel depot st = some st1) :
    ∃ (a b : Int) (cursor1 : Nat) (C : List (DeliveryRequest K)) (c : R),
      drawPositions ints st.currentSolution.length fuel st.intCursor
        = some ((a, b), cursor1) ∧
      randomlySwapDeliveriesAt st.currentSolution a b = some C ∧
      getApproxCrowDist dist depot C = some c := by
  unfold annealIteration at h
  cases hr : randomlySwapDeliveries ints fuel st.currentSolution st.intCursor with
  | none => rw [hr] at h; cases h
  | some r =>
    obtain ⟨C, ⟨a, b⟩, cursor1⟩ := r
    obtain ⟨hd, hs⟩ := randomlySwap_spec ints hr
    rw [hr] at h
    simp only at h
    cases hc : getApproxCrowDist dist depot C with
    | none => rw [hc] at h; cases h
    | some c => exact ⟨a, b, cursor1, C, c, hd, hs, hc⟩

theorem annealIteration_inv (fuel : Nat) (st st1 : AnnealState K R)
    (h : annealIteration dist expFn ints reals fuel depot st = some st1) :
    st1.currentSolution.Perm st.currentSolution ∧ st1.t = st.t * cooling_rate := by
  obtain ⟨a, b, cursor1, C, c, hd, hs, hc⟩ :=
    annealIteration_parts dist expFn ints reals depot fuel st st1 h
  rw [annealIteration_eq dist expFn ints reals depot fuel st a b cursor1 C c hd hs hc] at h
  have h1 := Option.some.inj h
  rw [← h1]
  split
  · exact ⟨swapAt_perm hs, rfl⟩
  · split
    · exact ⟨List.Perm.refl _, rfl⟩
    · exact ⟨swapAt_perm hs, rfl⟩

theorem annealIteration_terminates (st : AnnealState K R)
    (hsize : 1 ≤ st.currentSolution.length)
    (hdraw : DrawsSeparate ints st.currentSolution.length) :
    ∃ (F : Nat) (st1 : AnnealState K R),
      ∀ fuel, F ≤ fuel → annealIteration dist expFn ints reals fuel depot st = some st1 := by
  obtain ⟨j, hj⟩ := hdraw st.intCursor
  obtain ⟨r, hr⟩ := drawPositions_terminates ints st.currentSolution.length j st.intCursor hj
  obtain ⟨⟨a, b⟩, c1⟩ := r
  obtain ⟨_, i, _, _, ha, hb, _⟩ :=
    drawPositions_spec ints st.currentSolution.length (j + 1) st.intCursor a b c1
      (hr (j + 1) (le_refl _))
  have hra := randInt_range (ints (st.intCursor + 2 * i)) st.currentSolution.length hsize
  have hrb := randInt_range (ints (st.intCursor + 2 * i + 1)) st.currentSolution.length hsize
  rw [← ha] at hra
  rw [← hb] at hrb
  obtain ⟨C, hs⟩ := swapAt_some st.currentSolution a b hra.1 hra.2 hrb.1 hrb.2
  have hlen : 1 ≤ C.length := by rw [swapAt_length hs]; exact hsize
  obtain ⟨c, hc⟩ := getApproxCrowDist_some dist depot C hlen
  exact ⟨j + 1, _, fun fuel hfuel =>
    annealIteration_eq dist expFn ints reals depot fuel st a b c1 C c (hr fuel hfuel) hs hc⟩

theorem annealLoop_perm (fuel : Nat) :
    ∀ (n i : Nat) (st : AnnealState K R) (r : Nat × AnnealState K R),
      annealLoop dist expFn ints reals fuel depot n i st = some r →
      r.2.currentSolution.Perm st.currentSolution := by
  intro n
  induction n with
  | zero =>
    intro i st r h
    have := Option.some.inj h
    rw [← this]
  | succ n ih =>
    intro i st r h
    unfold annealLoop at h
    split at h
    · cases hit : annealIteration dist expFn ints reals fuel depot st with
      | none => rw [hit] at h; cases h
      | some st1 =>
        rw [hit] at h
        simp only at h
        exact (ih (i + 1) st1 r h).trans
          (annealIteration_inv dist expFn ints reals depot fuel st st1 hit).1
    · have := Option.some.inj h
      rw [← this]

theorem annealLoop_terminates (N : Nat) (hN : 1 ≤ N) (hdraw : DrawsSeparate ints N) :
    ∀ (n i : Nat) (st : AnnealState K R), st.currentSolution.length = N →
      ∃ (F : Nat) (r : Nat × AnnealState K R),
        ∀ fuel, F ≤ fuel → annealLoop dist expFn ints reals fuel depot n i st = some r := by
  intro n
  induction n with
  | zero => intro i st _; exact ⟨0, (i, st), fun _ _ => rfl⟩
  | succ n ih =>
    intro i st hlen
    by_cases ht : temperatureFloor < st.t
    · obtain ⟨F1, st1, h1⟩ := annealIteration_terminates dist expFn ints reals depot st
        (by rw [hlen]; exact hN) (by rw [hlen]; exact hdraw)
      have hlen1 : st1.currentSolution.length = N := by
        rw [(annealIteration_inv dist expFn ints reals depot F1 st st1
          (h1 F1 (le_refl _))).1.length_eq]
        exact hlen
      obtain ⟨F2, r, h2⟩ := ih (i + 1) st1 hlen1
      refine ⟨max F1 F2, r, ?_⟩
      intro fuel hfuel
      unfold annealLoop
      rw [if_pos ht, h1 fuel (le_trans (le_max_left _ _) hfuel)]
      exact h2 fuel (le_trans (le_max_right _ _) hfuel)
    · refine ⟨0, (i, st), ?_⟩
      intro fuel _
      unfold annealLoop
      rw [if_neg ht]

/-- The schedule of the annealing loop: the number `m` of iterations performed, the
temperature at the start of each of them and at the exit, and the prefix runs. -/
theorem annealLoop_schedule (fuel : Nat) :
    ∀ (n i : Nat) (st : AnnealState K R) (r : Nat × AnnealState K R),
      annealLoop dist expFn ints reals fuel depot n i st = some r →
      ∃ m, r.1 = i + m ∧ m ≤ n ∧ r.2.t = st.t * cooling_rate ^ m ∧
        (∀ k, k < m → temperatureFloor < st.t * cooling_rate ^ k) ∧
        (m < n → ¬ temperatureFloor < st.t * cooling_rate ^ m) ∧
        ∀ k, k ≤ m → ∃ stk, annealLoop dist expFn ints reals fuel depot k i st
          = some (i + k, stk) ∧ stk.t = st.t * cooling_rate ^ k := by
  intro n
  induction n with
  | zero =>
    intro i st r h
    have h1 := Option.some.inj h
    rw [← h1]
    refine ⟨0, rfl, le_refl _, by simp, ?_, ?_, ?_⟩
    · intro k hk; omega
    · intro hk; omega
    · intro k hk
      have : k = 0 := by omega
      subst this
      exact ⟨st, rfl, by simp⟩
  | succ n ih =>
    intro i st r h
    unfold annealLoop at h
    by_cases ht : temperatureFloor < st.t
    · rw [if_pos ht] at h
      cases hit : annealIteration dist expFn ints reals fuel depot st with
      | none => rw [hit] at h; cases h
      | some st1 =>
        rw [hit] at h
        simp only at h
        have ht1 := (annealIteration_inv dist expFn ints reals depot fuel st st1 hit).2
        obtain ⟨m, hm1, hm2, hm3, hm4, hm5, hm6⟩ := ih (i + 1) st1 r h
        refine ⟨m + 1, by omega, by omega, ?_, ?_, ?_, ?_⟩
        · rw [hm3, ht1, pow_succ]; ring
        · intro k hk
          cases k with
          | zero => simpa using ht
          | succ k =>
            have := hm4 k (by omega)
            rw [ht1] at this
            rw [pow_succ]
            have e : st.t * (cooling_rate ^ k * cooling_rate)
                = st.t * cooling_rate * cooling_rate ^ k := by ring
            rw [e]; exact this
        · intro hlt
          have := hm5 (by omega)
          rw [ht1] at this
          rw [pow_succ]
          have e : st.t * (cooling_rate ^ m * cooling_rate)
              = st.t * cooling_rate * cooling_rate ^ m := by ring
          rw [e]; exact this
        · intro k hk
          cases k with
          | zero => exact ⟨st, rfl, by simp⟩
          | succ k =>
            obtain ⟨stk, hk1, hk2⟩ := hm6 k (by omega)
            refine ⟨stk, ?_, ?_⟩
            · unfold annealLoop
              rw [if_pos ht, hit]
              simp only
              rw [hk1]
              congr 2
              omega
            · rw [hk2, ht1, pow_succ]; ring
    · rw [if_neg ht] at h
      have h1 := Option.some.inj h
      rw [← h1]
      refine ⟨0, rfl, Nat.zero_le _, by simp, ?_, ?_, ?_⟩
      · intro k hk; omega
      · intro _; simpa using ht
      · intro k hk
        have : k = 0 := by omega
        subst this
        exact ⟨st, rfl, by simp⟩

theorem cooling_rate_bounds : (0 : R) < cooling_rate ∧ (cooling_rate : R) ≤ 1 := by
  unfold cooling_rate
  constructor
  · positivity
  · rw [div_le_one (by norm_num)]
    norm_num

theorem temperatureFloor_pos : (0 : R) < temperatureFloor := by
  unfold temperatureFloor
  positivity

/-- With the temperature falling, the iterations performed are exactly those below the cap
whose temperature exceeds the floor. -/
theorem schedule_iff (t : R) (n m : Nat) (hmn : m ≤ n)
    (hrun : ∀ k, k < m → temperatureFloor < t * cooling_rate ^ k)
    (hstop : m < n → ¬ temperatureFloor < t * cooling_rate ^ m) (k : Nat) :
    k < m ↔ (k < n ∧ temperatureFloor < t * cooling_rate ^ k) := by
  constructor
  · intro hk
    exact ⟨lt_of_lt_of_le hk hmn, hrun k hk⟩
  · rintro ⟨hkn, hk⟩
    by_contra hcon
    have hmk : m ≤ k := not_lt.1 hcon
    have hpowk : (0 : R) < cooling_rate ^ k := pow_pos cooling_rate_bounds.1 k
    have htpos : 0 < t := by
      by_contra hneg
      have : t * cooling_rate ^ k ≤ 0 :=
        mul_nonpos_of_nonpos_of_nonneg (not_lt.1 hneg) (le_of_lt hpowk)
      have := lt_of_lt_of_le (lt_trans temperatureFloor_pos hk) this
      exact lt_irrefl _ this
    have hpow : (cooling_rate : R) ^ k ≤ cooling_rate ^ m :=
      pow_le_pow_of_le_one (le_of_lt cooling_rate_bounds.1) cooling_rate_bounds.2 hmk
    have hle : t * cooling_rate ^ k ≤ t * cooling_rate ^ m :=
      mul_le_mul_of_nonneg_left hpow (le_of_lt htpos)
    exact hstop (lt_of_le_of_lt hmk hkn) (lt_of_lt_of_le hk hle)

end AnnealLemmas

end DeliveryRouter

namespace DeliveryRouter
open ExpandableHashMap

set_option linter.unusedSectionVars false

section TourLemmas
variable {K R : Type} [DecidableEq K] [LinearOrderedField R]
variable (dist : K → K → R) (hasher : K → Nat) (coordLt : K → K → Bool) (sm : StreetMapImpl K)

theorem generate_terminates (hwf : StartsAtKey hasher sm) (hnn : NonNegEdges dist hasher sm)
    (s e : K) (r0 : List (StreetSegment K)) (t0 : R) :
    ∃ (N : Nat) (out : RouteOutput K R), ∀ fuel, N ≤ fuel →
      generatePointToPointRoute dist hasher coordLt sm fuel s e r0 t0 = some out := by
  by_cases hs : Known hasher sm s
  · by_cases he : Known hasher sm e
    · obtain ⟨N, _, _, out, hrun, _⟩ :=
        route_outcome dist hasher sm s e coordLt hwf hnn hs he r0 t0
      exact ⟨N, out, fun fuel hfuel => (hrun fuel hfuel).2⟩
    · exact ⟨0, _, fun fuel _ =>
        generate_unknown dist hasher sm s e coordLt fuel r0 t0 (Or.inr he)⟩
  · exact ⟨0, _, fun fuel _ =>
      generate_unknown dist hasher sm s e coordLt fuel r0 t0 (Or.inl hs)⟩

theorem generate_success_known (fuel : Nat) (s e : K) (r0 : List (StreetSegment K)) (t0 : R)
    (out : RouteOutput K R)
    (h : generatePointToPointRoute dist hasher coordLt sm fuel s e r0 t0 = some out)
    (hres : out.result = DeliveryResult.DELIVERY_SUCCESS) :
    Known hasher sm s ∧ Known hasher sm e := by
  by_contra hcon
  have hun : ¬ Known hasher sm s ∨ ¬ Known hasher sm e := by
    by_cases hs : Known hasher sm s
    · exact Or.inr (fun he => hcon ⟨hs, he⟩)
    · exact Or.inl hs
  rw [generate_unknown dist hasher sm s e coordLt fuel r0 t0 hun] at h
  rw [← Option.some.inj h] at hres
  cases hres

theorem generate_success_indep (fuel : Nat) (s e : K) (r0 : List (StreetSegment K)) (t0 : R)
    (out : RouteOutput K R)
    (h : generatePointToPointRoute dist hasher coordLt sm fuel s e r0 t0 = some out)
    (hres : out.result = DeliveryResult.DELIVERY_SUCCESS)
    (r1 : List (StreetSegment K)) (t1 : R) :
    generatePointToPointRoute dist hasher coordLt sm fuel s e r1 t1 = some out := by
  obtain ⟨hs, he⟩ := generate_success_known dist hasher coordLt sm fuel s e r0 t0 out h hres
  have hs' : (sm.getSegmentsThatStartWith hasher s []).1 = true := hs
  have he' : (sm.getSegmentsThatStartWith hasher e
      (sm.getSegmentsThatStartWith hasher s []).2).1 = true := by
    rw [getSegments_fst]; exact he
  cases hsl : searchLoop dist hasher coordLt sm e fuel (initialState hasher s) with
  | none =>
    unfold generatePointToPointRoute at h
    simp [hs', he', hsl] at h
  | some r =>
    obtain ⟨b, st⟩ := r
    cases b with
    | false =>
      rw [generate_no_route dist hasher sm s e coordLt fuel r0 t0 hs he st hsl] at h
      rw [← Option.some.inj h] at hres
      cases hres
    | true =>
      cases hrec : reconstruct dist hasher s st.history fuel e [] 0 with
      | none =>
        unfold generatePointToPointRoute at h
        simp [hs', he', hsl, hrec] at h
      | some rt =>
        obtain ⟨route, total⟩ := rt
        rw [generate_success dist hasher sm s e coordLt fuel r0 t0 hs he st hsl
          route total hrec] at h
        rw [generate_success dist hasher sm s e coordLt fuel r1 t1 hs he st hsl
          route total hrec]
        exact h

theorem generate_success_of_linked (hwf : StartsAtKey hasher sm)
    (hnn : NonNegEdges dist hasher sm) (fuel : Nat) (s e : K) (r0 : List (StreetSegment K))
    (t0 : R) (out : RouteOutput K R)
    (h : generatePointToPointRoute dist hasher coordLt sm fuel s e r0 t0 = some out)
    (hl : Linked hasher sm s e) : out.result = DeliveryResult.DELIVERY_SUCCESS := by
  obtain ⟨hs, he, hp⟩ := hl
  obtain ⟨N, b, st', out', hrun, hcase⟩ :=
    route_outcome dist hasher sm s e coordLt hwf hnn hs he r0 t0
  have h1 := generatePointToPointRoute_mono dist hasher sm s e coordLt fuel r0 t0 out h N
  have h2 := (hrun (fuel + N) (Nat.le_add_left _ _)).2
  have heq : out = out' := Option.some.inj (h1.symm.trans h2)
  rw [heq]
  rcases hcase with ⟨_, hno, _⟩ | ⟨_, hres, _⟩
  · exact absurd hp hno
  · exact hres

theorem linked_of_success (hwf : StartsAtKey hasher sm) (hnn : NonNegEdges dist hasher sm)
    (fuel : Nat) (s e : K) (r0 : List (StreetSegment K)) (t0 : R) (out : RouteOutput K R)
    (h : generatePointToPointRoute dist hasher coordLt sm fuel s e r0 t0 = some out)
    (hres : out.result = DeliveryResult.DELIVERY_SUCCESS) : Linked hasher sm s e := by
  obtain ⟨hs, he⟩ := generate_success_known dist hasher coordLt sm fuel s e r0 t0 out h hres
  refine ⟨hs, he, ?_⟩
  obtain ⟨N, b, st', out', hrun, hcase⟩ :=
    route_outcome dist hasher sm s e coordLt hwf hnn hs he r0 t0
  have h1 := generatePointToPointRoute_mono dist hasher sm s e coordLt fuel r0 t0 out h N
  have h2 := (hrun (fuel + N) (Nat.le_add_left _ _)).2
  have heq : out = out' := Option.some.inj (h1.symm.trans h2)
  rcases hcase with ⟨_, _, hout⟩ | ⟨_, _, _, _, hpath, _⟩
  · rw [heq, hout] at hres
    cases hres
  · exact ⟨_, hpath⟩

theorem Linked.trans {a b c : K} (h1 : Linked hasher sm a b) (h2 : Linked hasher sm b c) :
    Linked hasher sm a c := by
  obtain ⟨ha, _, p, hp⟩ := h1
  obtain ⟨_, hc, q, hq⟩ := h2
  refine ⟨ha, hc, p ++ q, ?_⟩
  rw [isPath_append]
  have hend := hp.pathEnd_eq
  rw [hend]
  exact ⟨hp, hq⟩

theorem legsFrom_mem : ∀ (stops : List K) (a d : K) (leg : K × K),
    leg ∈ legsFrom a stops d → leg.1 ∈ a :: stops ∧ leg.2 ∈ d :: stops := by
  intro stops
  induction stops with
  | nil =>
    intro a d leg h
    simp only [legsFrom, List.mem_singleton] at h
    rw [h]; simp
  | cons b rest ih =>
    intro a d leg h
    simp only [legsFrom, List.mem_cons] at h
    rcases h with h | h
    · rw [h]; simp
    · have := ih b d leg h
      simp only [List.mem_cons] at this ⊢
      rcases this with ⟨h1, h2⟩
      constructor
      · right; exact h1
      · rcases h2 with h2 | h2
        · left; exact h2
        · right; right; exact h2

theorem legsFrom_closure (r : K → K → Prop) (htrans : ∀ a b c, r a b → r b c → r a c) :
    ∀ (stops : List K) (a d : K), (∀ leg ∈ legsFrom a stops d, r leg.1 leg.2) →
      r a d ∧ ∀ x ∈ stops, r a x ∧ r x d := by
  intro stops
  induction stops with
  | nil =>
    intro a d h
    refine ⟨h (a, d) (by simp [legsFrom]), ?_⟩
    intro x hx; cases hx
  | cons b rest ih =>
    intro a d h
    have hab : r a b := h (a, b) (by simp [legsFrom])
    obtain ⟨hbd, hrest⟩ := ih b d (fun leg hleg => h leg (by simp [legsFrom, hleg]))
    refine ⟨htrans _ _ _ hab hbd, ?_⟩
    intro x hx
    rcases List.mem_cons.1 hx with hx | hx
    · rw [hx]; exact ⟨hab, hbd⟩
    · exact ⟨htrans _ _ _ hab (hrest x hx).1, (hrest x hx).2⟩

/-- When every leg of one order of the stops is linked, so is every leg of every other
order. -/
theorem tourLegs_linked_perm (depot : K) (deliveries other : List (DeliveryRequest K))
    (hperm : other.Perm deliveries)
    (h : ∀ leg ∈ tourLegs depot deliveries, Linked hasher sm leg.1 leg.2) :
    ∀ leg ∈ tourLegs depot other, Linked hasher sm leg.1 leg.2 := by
  obtain ⟨hdd, hstops⟩ := legsFrom_closure (Linked hasher sm)
    (fun a b c h1 h2 => Linked.trans hasher sm h1 h2) _ depot depot h
  have hall : ∀ x ∈ depot :: other.map (fun d => d.location),
      Linked hasher sm depot x ∧ Linked hasher sm x depot := by
    intro x hx
    rcases List.mem_cons.1 hx with hx | hx
    · rw [hx]; exact ⟨hdd, hdd⟩
    · exact hstops x ((hperm.map _).mem_iff.1 hx)
  intro leg hleg
  obtain ⟨h1, h2⟩ := legsFrom_mem _ depot depot leg hleg
  exact Linked.trans hasher sm (hall _ h1).2 (hall _ h2).1

theorem routerDistance_eq (fuel : Nat) (s e : K) (out : RouteOutput K R)
    (h : generatePointToPointRoute dist hasher coordLt sm fuel s e [] 0 = some out) :
    routerDistance dist hasher coordLt sm fuel (s, e) = out.totalDistanceTravelled := by
  unfold routerDistance
  simp only
  rw [h]

end TourLemmas

end DeliveryRouter

namespace DeliveryRouter
open ExpandableHashMap

set_option linter.unusedSectionVars false

section PlanResult
variable {K R : Type} [DecidableEq K] [LinearOrderedField R]
variable (dist : K → K → R) (hasher : K → Nat) (coordLt : K → K → Bool) (sm : StreetMapImpl K)

theorem generateDeliveryPlan_parts (sqrtFn : Nat → R) (expFn : R → R) (ints : Nat → Nat)
    (reals : Nat → R) (angleOfLine : StreetSegment K → R)
    (angleBetween2Lines : StreetSegment K → StreetSegment K → R) (fuel : Nat) (depot : K)
    (deliveries : List (DeliveryRequest K)) (commands : List (DeliveryCommand R))
    (out : PlanOutput R)
    (h : generateDeliveryPlan dist hasher coordLt sm sqrtFn expFn ints reals angleOfLine
      angleBetween2Lines fuel depot deliveries commands = some out) :
    ∃ optimized, optimizeDeliveryOrder dist hasher coordLt sm sqrtFn expFn ints reals fuel
        depot deliveries = some optimized ∧
      planFromOrder dist hasher coordLt sm angleOfLine angleBetween2Lines fuel depot
        optimized.deliveries commands optimized.newCrowDistance = some out := by
  unfold generateDeliveryPlan at h
  simp only at h
  cases ho : optimizeDeliveryOrder dist hasher coordLt sm sqrtFn expFn ints reals fuel depot
      deliveries with
  | none => rw [ho] at h; cases h
  | some optimized =>
    rw [ho] at h
    exact ⟨optimized, rfl, h⟩

theorem generateDeliveryPlan_of_parts (sqrtFn : Nat → R) (expFn : R → R) (ints : Nat → Nat)
    (reals : Nat → R) (angleOfLine : StreetSegment K → R)
    (angleBetween2Lines : StreetSegment K → StreetSegment K → R) (fuel : Nat) (depot : K)
    (deliveries : List (DeliveryRequest K)) (commands : List (DeliveryCommand R))
    (optimized : OptimizerOutput K R)
    (ho : optimizeDeliveryOrder dist hasher coordLt sm sqrtFn expFn ints reals fuel depot
      deliveries = some optimized) :
    generateDeliveryPlan dist hasher coordLt sm sqrtFn expFn ints reals angleOfLine
      angleBetween2Lines fuel depot deliveries commands =
    planFromOrder dist hasher coordLt sm angleOfLine angleBetween2Lines fuel depot
      optimized.deliveries commands optimized.newCrowDistance := by
  unfold generateDeliveryPlan
  simp only
  rw [ho]

theorem perm_pair {α : Type} (l : List α) (x y : α) (h : l.Perm [x, y]) :
    l = [x, y] ∨ l = [y, x] := by
  have hlen := h.length_eq
  match l, hlen with
  | [a, b], _ =>
    have ha : a ∈ [x, y] := h.subset (by simp)
    simp only [List.mem_cons, List.mem_singleton, List.not_mem_nil, or_false] at ha
    rcases ha with ha | ha
    · subst ha
      have := (List.perm_cons a).1 h
      have hb : b = y := List.singleton_perm_singleton.1 this
      left; rw [hb]
    · subst ha
      have h2 : [a, b].Perm [a, x] := h.trans (List.Perm.swap a x [])
      have := (List.perm_cons a).1 h2
      have hb : b = x := List.singleton_perm_singleton.1 this
      right; rw [hb]

end PlanResult

end DeliveryRouter

namespace DeliveryRouter
open ExpandableHashMap

set_option linter.unusedSectionVars false

section ActualLemmas
variable {K R : Type} [DecidableEq K] [LinearOrderedField R]
variable (dist : K → K → R) (hasher : K → Nat) (coordLt : K → K → Bool) (sm : StreetMapImpl K)

theorem actualLegs_step (fuel : Nat) (pre : List (DeliveryRequest K)) (a b : DeliveryRequest K)
    (rest : List (DeliveryRequest K)) (n : Nat) (temp : List (StreetSegment K)) (td total : R) :
    (generatePointToPointRoute dist hasher coordLt sm fuel a.location b.location temp td = none →
      actualLegs dist hasher coordLt sm fuel (pre ++ a :: b :: rest) (n + 1) pre.length
        (temp, td, total) = none) ∧
    ∀ out, generatePointToPointRoute dist hasher coordLt sm fuel a.location b.location temp td
        = some out →
      actualLegs dist hasher coordLt sm fuel (pre ++ a :: b :: rest) (n + 1) pre.length
          (temp, td, total) =
        actualLegs dist hasher coordLt sm fuel (pre ++ a :: b :: rest) n (pre.length + 1)
          (out.route, out.totalDistanceTravelled, total + out.totalDistanceTravelled) := by
  have h1 : (pre ++ a :: b :: rest)[pre.length]? = some a := by
    rw [List.getElem?_append_right (le_refl _)]
    simp
  have h2 : (pre ++ a :: b :: rest)[pre.length + 1]? = some b := by
    rw [List.getElem?_append_right (Nat.le_succ _)]
    simp
  constructor
  · intro hg
    conv_lhs => unfold actualLegs
    rw [h1, h2]
    simp only
    rw [hg]
  · intro out hg
    conv_lhs => unfold actualLegs
    rw [h1, h2]
    simp only
    rw [hg]

theorem last_of_append (pre : List (DeliveryRequest K)) (a : DeliveryRequest K)
    (rest : List (DeliveryRequest K)) :
    (pre ++ a :: rest)[(pre ++ a :: rest).length - 1]? = (a :: rest)[rest.length]? := by
  have : (pre ++ a :: rest).length - 1 = pre.length + rest.length := by
    simp
  rw [this, List.getElem?_append_right (Nat.le_add_right _ _)]
  simp

/-- The inner loop of `getActualCrowDist` followed by the closing call: when every call that
returns is a success, the calls succeed on their own as well and the total grows by the sum
of the router's distances over the remaining legs. -/
theorem actualLegs_value (fuel : Nat) (depot : K) :
    ∀ (rest pre : List (DeliveryRequest K)) (a : DeliveryRequest K)
      (temp : List (StreetSegment K)) (td total : R) (temp1 : List (StreetSegment K))
      (td1 total1 : R) (last : DeliveryRequest K) (out : RouteOutput K R),
      (∀ leg ∈ legsFrom a.location (rest.map (fun d => d.location)) depot,
        ∀ (r0 : List (StreetSegment K)) (t0 : R) (o : RouteOutput K R),
          generatePointToPointRoute dist hasher coordLt sm fuel leg.1 leg.2 r0 t0 = some o →
          o.result = DeliveryResult.DELIVERY_SUCCESS) →
      actualLegs dist hasher coordLt sm fuel (pre ++ a :: rest) rest.length pre.length
        (temp, td, total) = some (temp1, td1, total1) →
      (pre ++ a :: rest)[(pre ++ a :: rest).length - 1]? = some last →
      generatePointToPointRoute dist hasher coordLt sm fuel last.location depot temp1 td1
        = some out →
      (∀ leg ∈ legsFrom a.location (rest.map (fun d => d.location)) depot,
        RouterSucceeds dist hasher coordLt sm fuel leg) ∧
      total1 + out.totalDistanceTravelled = total +
        ((legsFrom a.location (rest.map (fun d => d.location)) depot).map
          (routerDistance dist hasher coordLt sm fuel)).sum := by
  intro rest
  induction rest with
  | nil =>
    intro pre a temp td total temp1 td1 total1 last out hok hloop hlast hgen
    rw [last_of_append] at hlast
    have hla : a = last := by simpa using hlast
    subst hla
    have hvars : (temp, td, total) = (temp1, td1, total1) := Option.some.inj hloop
    have e1 : temp = temp1 := congrArg (fun v => v.1) hvars
    have e2 : td = td1 := congrArg (fun v => v.2.1) hvars
    have e3 : total = total1 := congrArg (fun v => v.2.2) hvars
    subst e1 e2 e3
    have hres := hok (a.location, depot) (by simp [legsFrom]) temp td out hgen
    have hown := generate_success_indep dist hasher coordLt sm fuel a.location depot temp td
      out hgen hres [] 0
    constructor
    · intro leg hleg
      have : leg = (a.location, depot) := by simpa [legsFrom] using hleg
      rw [this]
      exact ⟨out, hown, hres⟩
    · simp only [List.map_nil, legsFrom, List.map_cons, List.sum_cons, List.sum_nil, add_zero]
      rw [routerDistance_eq dist hasher coordLt sm fuel a.location depot out hown]
  | cons b rest ih =>
    intro pre a temp td total temp1 td1 total1 last out hok hloop hlast hgen
    rw [List.length_cons] at hloop
    cases hg : generatePointToPointRoute dist hasher coordLt sm fuel a.location b.location
        temp td with
    | none =>
      rw [(actualLegs_step dist hasher coordLt sm fuel pre a b rest rest.length temp td
        total).1 hg] at hloop
      cases hloop
    | some o =>
      rw [(actualLegs_step dist hasher coordLt sm fuel pre a b rest rest.length temp td
        total).2 o hg] at hloop
      have e : pre ++ a :: b :: rest = (pre ++ [a]) ++ b :: rest := by simp
      have el : pre.length + 1 = (pre ++ [a]).length := by simp
      rw [e, el] at hloop
      rw [e] at hlast
      have hres := hok (a.location, b.location) (by simp [legsFrom]) temp td o hg
      have hown := generate_success_indep dist hasher coordLt sm fuel a.location b.location
        temp td o hg hres [] 0
      obtain ⟨hsucc, hsum⟩ := ih (pre ++ [a]) b o.route o.totalDistanceTravelled
        (total + o.totalDistanceTravelled) temp1 td1 total1 last out
        (fun leg hleg => hok leg (by simp [legsFrom, hleg])) hloop hlast hgen
      constructor
      · intro leg hleg
        simp only [List.map_cons, legsFrom, List.mem_cons] at hleg
        rcases hleg with hleg | hleg
        · rw [hleg]; exact ⟨o, hown, hres⟩
        · exact hsucc leg hleg
      · simp only [List.map_cons, legsFrom, List.sum_cons]
        rw [routerDistance_eq dist hasher coordLt sm fuel a.location b.location o hown, hsum]
        ring

/-- The inner loop of `getActualCrowDist` and the closing call return when the router
succeeds on every remaining leg. -/
theorem actualLegs_returns (fuel : Nat) (depot : K) :
    ∀ (rest pre : List (DeliveryRequest K)) (a : DeliveryRequest K)
      (temp : List (StreetSegment K)) (td total : R),
      (∀ leg ∈ legsFrom a.location (rest.map (fun d => d.location)) depot,
        RouterSucceeds dist hasher coordLt sm fuel leg) →
      ∃ (temp1 : List (StreetSegment K)) (td1 total1 : R) (last : DeliveryRequest K)
        (out : RouteOutput K R),
        actualLegs dist hasher coordLt sm fuel (pre ++ a :: rest) rest.length pre.length
          (temp, td, total) = some (temp1, td1, total1) ∧
        (pre ++ a :: rest)[(pre ++ a :: rest).length - 1]? = some last ∧
        generatePointToPointRoute dist hasher coordLt sm fuel last.location depot temp1 td1
          = some out := by
  intro rest
  induction rest with
  | nil =>
    intro pre a temp td total hsucc
    obtain ⟨o, ho, hres⟩ := hsucc (a.location, depot) (by simp [legsFrom])
    refine ⟨temp, td, total, a, o, rfl, ?_, ?_⟩
    · rw [last_of_append]; simp
    · exact generate_success_indep dist hasher coordLt sm fuel a.location depot [] 0 o ho hres
        temp td
  | cons b rest ih =>
    intro pre a temp td total hsucc
    obtain ⟨o, ho, hres⟩ := hsucc (a.location, b.location) (by simp [legsFrom])
    have hg := generate_success_indep dist hasher coordLt sm fuel a.location b.location [] 0 o
      ho hres temp td
    obtain ⟨temp1, td1, total1, last, out, h1, h2, h3⟩ :=
      ih (pre ++ [a]) b o.route o.totalDistanceTravelled (total + o.totalDistanceTravelled)
        (fun leg hleg => hsucc leg (by simp [legsFrom, hleg]))
    have e : pre ++ a :: b :: rest = (pre ++ [a]) ++ b :: rest := by simp
    have el : pre.length + 1 = (pre ++ [a]).length := by simp
    refine ⟨temp1, td1, total1, last, out, ?_, ?_, h3⟩
    · rw [List.length_cons, (actualLegs_step dist hasher coordLt sm fuel pre a b rest
        rest.length temp td total).2 o hg, e, el]
      exact h1
    · rw [e]; exact h2

theorem actualLegs_terminates (hwf : StartsAtKey hasher sm) (hnn : NonNegEdges dist hasher sm)
    (deliveries : List (DeliveryRequest K)) :
    ∀ (n i : Nat) (vars : List (StreetSegment K) × R × R), i + n < deliveries.length →
      ∃ (N : Nat) (r : List (StreetSegment K) × R × R), ∀ fuel, N ≤ fuel →
        actualLegs dist hasher coordLt sm fuel deliveries n i vars = some r := by
  intro n
  induction n with
  | zero => intro i vars _; exact ⟨0, vars, fun _ _ => rfl⟩
  | succ n ih =>
    intro i vars h
    obtain ⟨temp, td, total⟩ := vars
    have h1 : i < deliveries.length := by omega
    have h2 : i + 1 < deliveries.length := by omega
    obtain ⟨N1, o, ho⟩ := generate_terminates dist hasher coordLt sm hwf hnn
      deliveries[i].location deliveries[i + 1].location temp td
    obtain ⟨N2, r, hr⟩ := ih (i + 1)
      (o.route, o.totalDistanceTravelled, total + o.totalDistanceTravelled) (by omega)
    refine ⟨max N1 N2, r, ?_⟩
    intro fuel hfuel
    unfold actualLegs
    rw [List.getElem?_eq_getElem h1, List.getElem?_eq_getElem h2]
    simp only
    rw [ho fuel (le_trans (le_max_left _ _) hfuel)]
    exact hr fuel (le_trans (le_max_right _ _) hfuel)

theorem getActualCrowDist_terminates (hwf : StartsAtKey hasher sm)
    (hnn : NonNegEdges dist hasher sm) (depot : K) (deliveries : List (DeliveryRequest K))
    (hsize : 1 ≤ deliveries.length) :
    ∃ (N : Nat) (x : R), ∀ fuel, N ≤ fuel →
      getActualCrowDist dist hasher coordLt sm fuel depot deliveries = some x := by
  have h0 : 0 < deliveries.length := hsize
  have hl : deliveries.length - 1 < deliveries.length := by omega
  obtain ⟨N1, o1, ho1⟩ := generate_terminates dist hasher coordLt sm hwf hnn depot
    deliveries[0].location [] 0
  obtain ⟨N2, r, hr⟩ := actualLegs_terminates dist hasher coordLt sm hwf hnn deliveries
    (deliveries.length - 1) 0
    (o1.route, o1.totalDistanceTravelled, 0 + o1.totalDistanceTravelled) (by omega)
  obtain ⟨temp, td, total⟩ := r
  obtain ⟨N3, o3, ho3⟩ := generate_terminates dist hasher coordLt sm hwf hnn
    deliveries[deliveries.length - 1].location depot temp td
  refine ⟨max N1 (max N2 N3), total + o3.totalDistanceTravelled, ?_⟩
  intro fuel hfuel
  have f1 : N1 ≤ fuel := le_trans (le_max_left _ _) hfuel
  have f2 : N2 ≤ fuel := le_trans (le_trans (le_max_left _ _) (le_max_right _ _)) hfuel
  have f3 : N3 ≤ fuel := le_trans (le_trans (le_max_right _ _) (le_max_right _ _)) hfuel
  unfold getActualCrowDist
  simp only
  rw [List.getElem?_eq_getElem h0]
  simp only
  rw [ho1 fuel f1]
  simp only
  rw [hr fuel f2]
  simp only
  rw [List.getElem?_eq_getElem hl]
  simp only
  rw [ho3 fuel f3]

theorem getActualCrowDist_nil (fuel : Nat) (depot : K) :
    getActualCrowDist dist hasher coordLt sm fuel depot [] = none := rfl

/-- The value of `getActualCrowDist` when every call that returns is a success. -/
theorem getActualCrowDist_value (fuel : Nat) (depot : K)
    (deliveries : List (DeliveryRequest K)) (x : R)
    (hok : ∀ leg ∈ tourLegs depot deliveries,
      ∀ (r0 : List (StreetSegment K)) (t0 : R) (o : RouteOutput K R),
        generatePointToPointRoute dist hasher coordLt sm fuel leg.1 leg.2 r0 t0 = some o →
        o.result = DeliveryResult.DELIVERY_SUCCESS)
    (h : getActualCrowDist dist hasher coordLt sm fuel depot deliveries = some x) :
    (∀ leg ∈ tourLegs depot deliveries, RouterSucceeds dist hasher coordLt sm fuel leg) ∧
    x = tourDistance dist hasher coordLt sm fuel depot deliveries := by
  cases deliveries with
  | nil => cases h
  | cons first rest =>
    unfold getActualCrowDist at h
    simp only [List.getElem?_cons_zero, List.length_cons, Nat.add_sub_cancel] at h
    cases hg : generatePointToPointRoute dist hasher coordLt sm fuel depot first.location
        [] 0 with
    | none => rw [hg] at h; cases h
    | some o1 =>
      rw [hg] at h
      simp only at h
      cases hloop : actualLegs dist hasher coordLt sm fuel (first :: rest) rest.length 0
          (o1.route, o1.totalDistanceTravelled, 0 + o1.totalDistanceTravelled) with
      | none => rw [hloop] at h; cases h
      | some r =>
        obtain ⟨temp1, td1, total1⟩ := r
        rw [hloop] at h
        simp only at h
        cases hlast : (first :: rest)[rest.length]? with
        | none => rw [hlast] at h; cases h
        | some last =>
          rw [hlast] at h
          simp only at h
          cases hg3 : generatePointToPointRoute dist hasher coordLt sm fuel last.location
              depot temp1 td1 with
          | none => rw [hg3] at h; cases h
          | some o3 =>
            rw [hg3] at h
            have hx : total1 + o3.totalDistanceTravelled = x := Option.some.inj h
            have hres1 := hok (depot, first.location) (by simp [tourLegs, legsFrom]) [] 0 o1 hg
            obtain ⟨hsucc, hsum⟩ := actualLegs_value dist hasher coordLt sm fuel depot rest []
              first o1.route o1.totalDistanceTravelled (0 + o1.totalDistanceTravelled)
              temp1 td1 total1 last o3
              (fun leg hleg => hok leg (by simp [tourLegs, legsFrom, hleg]))
              hloop (by rw [last_of_append]; exact hlast) hg3
            constructor
            · intro leg hleg
              simp only [tourLegs, List.map_cons, legsFrom, List.mem_cons] at hleg
              rcases hleg with hleg | hleg
              · rw [hleg]; exact ⟨o1, hg, hres1⟩
              · exact hsucc leg hleg
            · rw [← hx, hsum]
              unfold tourDistance tourLegs
              simp only [List.map_cons, legsFrom, List.sum_cons]
              rw [routerDistance_eq dist hasher coordLt sm fuel depot first.location o1 hg]
              ring

/-- The call `getActualCrowDist` returns when the router succeeds on every leg. -/
theorem getActualCrowDist_returns (fuel : Nat) (depot : K)
    (deliveries : List (DeliveryRequest K)) (hne : deliveries ≠ [])
    (hsucc : ∀ leg ∈ tourLegs depot deliveries, RouterSucceeds dist hasher coordLt sm fuel leg) :
    ∃ x, getActualCrowDist dist hasher coordLt sm fuel depot deliveries = some x := by
  cases deliveries with
  | nil => exact absurd rfl hne
  | cons first rest =>
    obtain ⟨o1, ho1, _⟩ := hsucc (depot, first.location) (by simp [tourLegs, legsFrom])
    obtain ⟨temp1, td1, total1, last, out, h1, h2, h3⟩ :=
      actualLegs_returns dist hasher coordLt sm fuel depot rest [] first o1.route
        o1.totalDistanceTravelled (0 + o1.totalDistanceTravelled)
        (fun leg hleg => hsucc leg (by simp [tourLegs, legsFrom, hleg]))
    rw [last_of_append] at h2
    unfold getActualCrowDist
    simp only [List.getElem?_cons_zero, List.length_cons, Nat.add_sub_cancel]
    rw [ho1]
    simp only
    have h1' : actualLegs dist hasher coordLt sm fuel (first :: rest) rest.length 0
        (o1.route, o1.totalDistanceTravelled, 0 + o1.totalDistanceTravelled)
        = some (temp1, td1, total1) := h1
    rw [h1']
    simp only
    rw [h2]
    simp only
    rw [h3]
    exact ⟨_, rfl⟩

theorem succeeds_returns (fuel : Nat) (leg : K × K)
    (h : RouterSucceeds dist hasher coordLt sm fuel leg) (r0 : List (StreetSegment K)) (t0 : R)
    (o : RouteOutput K R)
    (ho : generatePointToPointRoute dist hasher coordLt sm fuel leg.1 leg.2 r0 t0 = some o) :
    o.result = DeliveryResult.DELIVERY_SUCCESS := by
  obtain ⟨out, hout, hres⟩ := h
  have := generate_success_indep dist hasher coordLt sm fuel leg.1 leg.2 [] 0 out hout hres
    r0 t0
  rw [this] at ho
  rw [← Option.some.inj ho]
  exact hres

end ActualLemmas

end DeliveryRouter

namespace DeliveryRouter
open ExpandableHashMap

set_option linter.unusedSectionVars false

section OptimizeLemmas
variable {K R : Type} [DecidableEq K] [LinearOrderedField R]
variable (dist : K → K → R) (hasher : K → Nat) (coordLt : K → K → Bool) (sm : StreetMapImpl K)
variable (sqrtFn : Nat → R) (expFn : R → R) (ints : Nat → Nat) (reals : Nat → R)

theorem optimize_of_parts (fuel : Nat) (depot : K) (deliveries : List (DeliveryRequest K))
    (old best new : R) (iters : Nat) (st : AnnealState K R)
    (h1 : getActualCrowDist dist hasher coordLt sm fuel depot deliveries = some old)
    (h2 : getApproxCrowDist dist depot deliveries = some best)
    (h3 : annealLoop dist expFn ints reals fuel depot 10000 0
      (annealStart sqrtFn best deliveries) = some (iters, st))
    (h4 : getActualCrowDist dist hasher coordLt sm fuel depot st.currentSolution = some new) :
    optimizeDeliveryOrder dist hasher coordLt sm sqrtFn expFn ints reals fuel depot deliveries
      = some (if new < old then ⟨st.currentSolution, old, new⟩ else ⟨deliveries, old, old⟩) := by
  unfold optimizeDeliveryOrder
  rw [h1]
  simp only
  rw [h2]
  simp only
  rw [h3]
  simp only
  rw [h4]
  simp only
  split <;> rfl

theorem optimize_parts (fuel : Nat) (depot : K) (deliveries : List (DeliveryRequest K))
    (res : OptimizerOutput K R)
    (h : optimizeDeliveryOrder dist hasher coordLt sm sqrtFn expFn ints reals fuel depot
      deliveries = some res) :
    ∃ (old best new : R) (iters : Nat) (st : AnnealState K R),
      getActualCrowDist dist hasher coordLt sm fuel depot deliveries = some old ∧
      getApproxCrowDist dist depot deliveries = some best ∧
      annealLoop dist expFn ints reals fuel depot 10000 0
        (annealStart sqrtFn best deliveries) = some (iters, st) ∧
      getActualCrowDist dist hasher coordLt sm fuel depot st.currentSolution = some new ∧
      res = (if new < old then ⟨st.currentSolution, old, new⟩ else ⟨deliveries, old, old⟩) := by
  cases h1 : getActualCrowDist dist hasher coordLt sm fuel depot deliveries with
  | none => unfold optimizeDeliveryOrder at h; rw [h1] at h; cases h
  | some old =>
    cases h2 : getApproxCrowDist dist depot deliveries with
    | none => unfold optimizeDeliveryOrder at h; rw [h1] at h; simp only at h; rw [h2] at h; cases h
    | some best =>
      cases h3 : annealLoop dist expFn ints reals fuel depot 10000 0
          (annealStart sqrtFn best deliveries) with
      | none =>
        unfold optimizeDeliveryOrder at h
        rw [h1] at h; simp only at h; rw [h2] at h; simp only at h; rw [h3] at h; cases h
      | some r =>
        obtain ⟨iters, st⟩ := r
        cases h4 : getActualCrowDist dist hasher coordLt sm fuel depot st.currentSolution with
        | none =>
          unfold optimizeDeliveryOrder at h
          rw [h1] at h; simp only at h; rw [h2] at h; simp only at h; rw [h3] at h
          simp only at h; rw [h4] at h; cases h
        | some new =>
          rw [optimize_of_parts dist hasher coordLt sm sqrtFn expFn ints reals fuel depot
            deliveries old best new iters st h1 h2 h3 h4] at h
          exact ⟨old, best, new, iters, st, rfl, rfl, h3, h4, (Option.some.inj h).symm⟩

theorem annealStart_solution (best : R) (deliveries : List (DeliveryRequest K)) :
    (annealStart sqrtFn best deliveries).currentSolution = deliveries := rfl

/-- The call returns, with one and the same result, for every sufficient fuel. -/
theorem optimize_terminates (hwf : StartsAtKey hasher sm) (hnn : NonNegEdges dist hasher sm)
    (depot : K) (deliveries : List (DeliveryRequest K)) (hN : 1 ≤ deliveries.length)
    (hdraw : DrawsSeparate ints deliveries.length) :
    ∃ (F : Nat) (res : OptimizerOutput K R) (best : R) (iters : Nat) (st : AnnealState K R),
      getApproxCrowDist dist depot deliveries = some best ∧
      ∀ fuel, F ≤ fuel →
        optimizeDeliveryOrder dist hasher coordLt sm sqrtFn expFn ints reals fuel depot
          deliveries = some res ∧
        annealLoop dist expFn ints reals fuel depot 10000 0
          (annealStart sqrtFn best deliveries) = some (iters, st) := by
  obtain ⟨F1, old, h1⟩ := getActualCrowDist_terminates dist hasher coordLt sm hwf hnn depot
    deliveries hN
  obtain ⟨best, h2⟩ := getApproxCrowDist_some dist depot deliveries hN
  obtain ⟨F3, r, h3⟩ := annealLoop_terminates dist expFn ints reals depot deliveries.length hN
    hdraw 10000 0 (annealStart sqrtFn best deliveries) rfl
  obtain ⟨iters, st⟩ := r
  have hlen : 1 ≤ st.currentSolution.length := by
    have := annealLoop_perm dist expFn ints reals depot F3 10000 0
      (annealStart sqrtFn best deliveries) (iters, st) (h3 F3 (le_refl _))
    rw [this.length_eq]
    exact hN
  obtain ⟨F4, new, h4⟩ := getActualCrowDist_terminates dist hasher coordLt sm hwf hnn depot
    st.currentSolution hlen
  refine ⟨max F1 (max F3 F4),
    (if new < old then ⟨st.currentSolution, old, new⟩ else ⟨deliveries, old, old⟩),
    best, iters, st, h2, ?_⟩
  intro fuel hfuel
  have f1 : F1 ≤ fuel := le_trans (le_max_left _ _) hfuel
  have f3 : F3 ≤ fuel := le_trans (le_trans (le_max_left _ _) (le_max_right _ _)) hfuel
  have f4 : F4 ≤ fuel := le_trans (le_trans (le_max_right _ _) (le_max_right _ _)) hfuel
  exact ⟨optimize_of_parts dist hasher coordLt sm sqrtFn expFn ints reals fuel depot deliveries
    old best new iters st (h1 fuel f1) h2 (h3 fuel f3) (h4 fuel f4), h3 fuel f3⟩

theorem drawsSeparate_counting (n : Nat) (hn : 2 ≤ n) : DrawsSeparate countingInts n := by
  intro cursor
  refine ⟨0, ?_⟩
  rw [randInt_eq_mod _ n (by omega), randInt_eq_mod _ n (by omega)]
  unfold countingInts
  intro h
  have h1 : (cursor + 2 * 0) % n = (cursor + 2 * 0 + 1) % n := by exact_mod_cast h
  simp only [Nat.mul_zero, Nat.add_zero] at h1
  by_cases hc : cursor % n + 1 < n
  · have : (cursor + 1) % n = cursor % n + 1 := by
      rw [Nat.add_mod, Nat.mod_eq_of_lt (by omega : 1 < n), Nat.mod_eq_of_lt hc]
    omega
  · have hlt : cursor % n < n := Nat.mod_lt _ (by omega)
    have : (cursor + 1) % n = 0 := by
      rw [Nat.add_mod, Nat.mod_eq_of_lt (by omega : 1 < n)]
      have : cursor % n + 1 = n := by omega
      rw [this, Nat.mod_self]
    omega

end OptimizeLemmas

end DeliveryRouter

namespace DeliveryRouter
open ExpandableHashMap

section RouterSearch
variable {K R : Type} [DecidableEq K] [LinearOrderedCommRing R]

/-- C1 (A* optimality). Let every segment the street map returns for a coordinate start at
that coordinate (true of every loaded map, `load_startsAtKey`), and let the distance be
non-negative, zero on identical coordinates and
satisfy the triangle inequality (symmetry is not needed).  For known `start` and `end_` with a
directed edge path between them, `generatePointToPointRoute` returns, for every sufficient
number of loop iterations, one and the same output: `DELIVERY_SUCCESS`, a route that is a path
from `start` to `end_`, and a `totalDistanceTravelled` that is the length of that route and at
most the length of every path from `start` to `end_`, hence the minimum. -/
theorem C1_astar_optimality (dist : K → K → R) (hasher : K → Nat) (coordLt : K → K → Bool)
    (sm : StreetMapImpl K) (start end_ : K) (hwf : StartsAtKey hasher sm)
    (hpos : ∀ a b, 0 ≤ dist a b) (hzero : ∀ a, dist a a = 0)
    (htri : ∀ a b c, dist a c ≤ dist a b + dist b c)
    (hs : Known hasher sm start) (he : Known hasher sm end_)
    (hreach : ∃ p, IsPath hasher sm start p end_)
    (route0 : List (StreetSegment K)) (total0 : R) :
    ∃ (N : Nat) (out : RouteOutput K R),
      (∀ fuel, N ≤ fuel →
        generatePointToPointRoute dist hasher coordLt sm fuel start end_ route0 total0
          = some out) ∧
      out.result = DeliveryResult.DELIVERY_SUCCESS ∧
      IsPath hasher sm start out.route end_ ∧
      out.totalDistanceTravelled = pathLength dist out.route ∧
      ∀ p, IsPath hasher sm start p end_ → out.totalDistanceTravelled ≤ pathLength dist p := by
  have hnn : NonNegEdges dist hasher sm := nonNegEdges_of_nonneg dist hasher sm hpos
  obtain ⟨N, b, st', out, hrun, hcase⟩ :=
    route_outcome dist hasher sm start end_ coordLt hwf hnn hs he route0 total0
  rcases hcase with ⟨_, hno, _⟩ | ⟨_, hres, _, htot, hpath, _, st0, top, rest, ce, inv0, hcl0,
    hpop, htop, hce, hle⟩
  · exact absurd hreach hno
  · refine ⟨N, out, fun fuel hfuel => (hrun fuel hfuel).2, hres, hpath, htot, ?_⟩
    intro p hp
    have hbound := astar_bound dist hasher sm start end_ coordLt hwf hpos hzero htri _ inv0
      hcl0 top rest hpop htop ce hce p start 0 0 inv0.start_cost (le_refl _) hp
    rw [htot]
    linarith

/-- C1 on the 2×2 grid with unit edges: from corner `A` to the opposite corner `C` the total
distance is 2. -/
theorem C1_astar_optimality_witness :
    (StartsAtKey gridHasher grid ∧ (∀ a b, 0 ≤ gridDist a b) ∧ (∀ a, gridDist a a = 0) ∧
      (∀ a b c, gridDist a c ≤ gridDist a b + gridDist b c) ∧
      Known gridHasher grid 0 ∧ Known gridHasher grid 2 ∧
      ∃ p, IsPath gridHasher grid 0 p 2) ∧
    (∃ (N : Nat) (out : RouteOutput (Fin 4) ℤ),
      (∀ fuel, N ≤ fuel →
        generatePointToPointRoute gridDist gridHasher gridLt grid fuel 0 2 [] 7 = some out) ∧
      out.result = DeliveryResult.DELIVERY_SUCCESS ∧
      IsPath gridHasher grid 0 out.route 2 ∧
      out.totalDistanceTravelled = pathLength gridDist out.route ∧
      ∀ p, IsPath gridHasher grid 0 p 2 → out.totalDistanceTravelled ≤ pathLength gridDist p) ∧
    generatePointToPointRoute gridDist gridHasher gridLt grid 20 0 2 [] 7
      = some ⟨DeliveryResult.DELIVERY_SUCCESS, [gridSeg 0 1, gridSeg 1 2], 2⟩ :=
  have hwf : StartsAtKey gridHasher grid := load_startsAtKey gridHasher _
  have hpos : ∀ a b, 0 ≤ gridDist a b := by decide
  have hzero : ∀ a, gridDist a a = 0 := by decide
  have htri : ∀ a b c, gridDist a c ≤ gridDist a b + gridDist b c := by decide
  have hs : Known gridHasher grid 0 := by unfold Known; decide!
  have he : Known gridHasher grid 2 := by unfold Known; decide!
  have hreach : ∃ p, IsPath gridHasher grid 0 p 2 :=
    ⟨[gridSeg 0 1, gridSeg 1 2], isPath_of_check gridHasher grid _ 0 2 (by decide!)⟩
  ⟨⟨hwf, hpos, hzero, htri, hs, he, hreach⟩,
    C1_astar_optimality gridDist gridHasher gridLt grid 0 2 hwf hpos hzero htri hs he hreach
      [] 7,
    by decide!⟩

/-- C2 (BAD_COORD). For every start and end (equal or not, connected or not) and every number
of loop iterations: when the lookup reports the start or the end as unknown the call returns
`BAD_COORD` (route cleared, distance untouched); whenever the call returns, the code is
`BAD_COORD` exactly when the lookup reports the start or the end as unknown; the lookup reports
a coordinate as unknown exactly when `find` on the street map's table is `nullptr`; and a
loaded street map knows exactly the coordinates that are an endpoint of a segment line, so a
coordinate with no registered outgoing or incoming segment is unknown. -/
theorem C2_bad_coord_iff_unknown (dist : K → K → R) (hasher : K → Nat)
    (coordLt : K → K → Bool) (sm : StreetMapImpl K) (fuel : Nat) (start end_ : K)
    (route0 : List (StreetSegment K)) (total0 : R) :
    ((¬ Known hasher sm start ∨ ¬ Known hasher sm end_) →
      generatePointToPointRoute dist hasher coordLt sm fuel start end_ route0 total0
        = some ⟨DeliveryResult.BAD_COORD, [], total0⟩) ∧
    (∀ out, generatePointToPointRoute dist hasher coordLt sm fuel start end_ route0 total0
        = some out →
      (out.result = DeliveryResult.BAD_COORD ↔
        (¬ Known hasher sm start ∨ ¬ Known hasher sm end_))) ∧
    (∀ c, Known hasher sm c ↔ find hasher sm.map c ≠ none) ∧
    (∀ (streets : List (String × List (K × K))) (c : K),
      Known hasher (StreetMapImpl.load hasher streets) c ↔
        ∃ street ∈ streets, ∃ line ∈ street.2, c = line.1 ∨ c = line.2) := by
  refine ⟨generate_unknown dist hasher sm start end_ coordLt fuel route0 total0, ?_,
    known_iff hasher sm, load_known_iff hasher⟩
  intro out hout
  constructor
  · intro hres
    by_contra hknown
    have hs : Known hasher sm start := by
      by_contra h; exact hknown (Or.inl h)
    have he : Known hasher sm end_ := by
      by_contra h; exact hknown (Or.inr h)
    exact generate_known_result dist hasher sm start end_ coordLt fuel route0 total0 hs he
      out hout hres
  · intro hunknown
    rw [generate_unknown dist hasher sm start end_ coordLt fuel route0 total0 hunknown] at hout
    rw [← Option.some.inj hout]

/-- C2 on a map that knows only two corners: the unknown corner `C` gives `BAD_COORD` as end,
as start and as both, without any loop iteration. -/
theorem C2_bad_coord_iff_unknown_witness :
    ¬ Known gridHasher twoCorners 2 ∧
    generatePointToPointRoute gridDist gridHasher gridLt twoCorners 0 0 2 [gridSeg 0 1] 7
      = some ⟨DeliveryResult.BAD_COORD, [], 7⟩ ∧
    generatePointToPointRoute gridDist gridHasher gridLt twoCorners 0 2 2 [gridSeg 0 1] 7
      = some ⟨DeliveryResult.BAD_COORD, [], 7⟩ :=
  have hunknown : ¬ Known gridHasher twoCorners 2 := by unfold Known; decide!
  ⟨hunknown,
    (C2_bad_coord_iff_unknown gridDist gridHasher gridLt twoCorners 0 0 2 [gridSeg 0 1] 7).1
      (Or.inr hunknown),
    (C2_bad_coord_iff_unknown gridDist gridHasher gridLt twoCorners 0 2 2 [gridSeg 0 1] 7).1
      (Or.inl hunknown)⟩

/-- C3 (termination and NO_ROUTE). Let the adjacency be well formed, that is every segment is
stored under its own start coordinate (true of every loaded map, `load_startsAtKey`), let the
segments have non-negative lengths, and let `start` and `end_` be known.  Then there is a number
of iterations from which on the search loop returns one and the same flag and state and the
call one and the same output; the loop succeeds exactly when a directed edge path from `start`
to `end_` exists, the output is `NO_ROUTE` exactly when none exists, and it is
`DELIVERY_SUCCESS` otherwise. -/
theorem C3_search_terminates (dist : K → K → R) (hasher : K → Nat) (coordLt : K → K → Bool)
    (sm : StreetMapImpl K) (start end_ : K) (hwf : StartsAtKey hasher sm)
    (hnn : NonNegEdges dist hasher sm) (hs : Known hasher sm start)
    (he : Known hasher sm end_) (route0 : List (StreetSegment K)) (total0 : R) :
    ∃ (N : Nat) (success : Bool) (st : SearchState K R) (out : RouteOutput K R),
      (∀ fuel, N ≤ fuel →
        searchLoop dist hasher coordLt sm end_ fuel (initialState hasher start)
          = some (success, st) ∧
        generatePointToPointRoute dist hasher coordLt sm fuel start end_ route0 total0
          = some out) ∧
      (success = true ↔ ∃ p, IsPath hasher sm start p end_) ∧
      (out.result = DeliveryResult.NO_ROUTE ↔ ¬ ∃ p, IsPath hasher sm start p end_) ∧
      ((∃ p, IsPath hasher sm start p end_) →
        out.result = DeliveryResult.DELIVERY_SUCCESS) := by
  obtain ⟨N, b, st', out, hrun, hcase⟩ :=
    route_outcome dist hasher sm start end_ coordLt hwf hnn hs he route0 total0
  refine ⟨N, b, st', out, hrun, ?_⟩
  rcases hcase with ⟨hb, hno, hout⟩ | ⟨hb, hres, _, _, hpath, _⟩
  · refine ⟨?_, ?_, ?_⟩
    · rw [hb]
      constructor
      · intro h; cases h
      · intro h; exact absurd h hno
    · rw [hout]
      exact ⟨fun _ => hno, fun _ => rfl⟩
    · intro h; exact absurd h hno
  · refine ⟨?_, ?_, ?_⟩
    · rw [hb]
      exact ⟨fun _ => ⟨_, hpath⟩, fun _ => rfl⟩
    · rw [hres]
      constructor
      · intro h; cases h
      · intro h; exact absurd ⟨_, hpath⟩ h
    · intro _; exact hres

/-- C3 on two separate components: from `A` to `C` the frontier is exhausted and the call
returns `NO_ROUTE`. -/
theorem C3_search_terminates_witness :
    (StartsAtKey gridHasher islands ∧ NonNegEdges gridDist gridHasher islands ∧
      Known gridHasher islands 0 ∧ Known gridHasher islands 2) ∧
    (∃ (N : Nat) (success : Bool) (st : SearchState (Fin 4) ℤ) (out : RouteOutput (Fin 4) ℤ),
      (∀ fuel, N ≤ fuel →
        searchLoop gridDist gridHasher gridLt islands 2 fuel (initialState gridHasher 0)
          = some (success, st) ∧
        generatePointToPointRoute gridDist gridHasher gridLt islands fuel 0 2 [] 7
          = some out) ∧
      (success = true ↔ ∃ p, IsPath gridHasher islands 0 p 2) ∧
      (out.result = DeliveryResult.NO_ROUTE ↔ ¬ ∃ p, IsPath gridHasher islands 0 p 2) ∧
      ((∃ p, IsPath gridHasher islands 0 p 2) →
        out.result = DeliveryResult.DELIVERY_SUCCESS)) ∧
    generatePointToPointRoute gridDist gridHasher gridLt islands 20 0 2 [] 7
      = some ⟨DeliveryResult.NO_ROUTE, [], 7⟩ :=
  have hwf : StartsAtKey gridHasher islands := load_startsAtKey gridHasher _
  have hnn : NonNegEdges gridDist gridHasher islands :=
    nonNegEdges_of_nonneg gridDist gridHasher islands (by decide)
  have hs : Known gridHasher islands 0 := by unfold Known; decide!
  have he : Known gridHasher islands 2 := by unfold Known; decide!
  ⟨⟨hwf, hnn, hs, he⟩,
    C3_search_terminates gridDist gridHasher gridLt islands 0 2 hwf hnn hs he [] 7,
    by decide!⟩

end RouterSearch
end DeliveryRouter

namespace DeliveryRouter
open ExpandableHashMap

section RouterRoutes
variable {K R : Type} [DecidableEq K] [LinearOrderedCommRing R]

theorem stopCoordinate_of_isPath (hasher : K → Nat) (sm : StreetMapImpl K) (start end_ : K)
    (hwf : StartsAtKey hasher sm) (route : List (StreetSegment K))
    (h : IsPath hasher sm start route end_) : stopCoordinate end_ route = start := by
  cases route with
  | nil => exact (show start = end_ from h).symm
  | cons e p => exact hwf start e h.1

/-- C4 (the route is complete). Let every segment be stored under its own start coordinate
(true of every loaded map, `load_startsAtKey`) and have a non-negative length.  Whenever `generatePointToPointRoute` returns
`DELIVERY_SUCCESS`, the route is a directed edge path from `start` to `end_`; it is empty with
`totalDistanceTravelled` 0 exactly when `start = end_`; every segment of it is one of the
segments the street map returns for the segment's start; when `start ≠ end_` its first segment
starts at `start` and its last one ends at `end_`; and the reconstruction loop exits with
`lastGeoCoord == start`.  Moreover, after every successful search loop the reconstruction loop
terminates (it returns the same route for every sufficient number of iterations) and exits at
`start`, not at a coordinate without a predecessor entry. -/
theorem C4_route_complete (dist : K → K → R) (hasher : K → Nat) (coordLt : K → K → Bool)
    (sm : StreetMapImpl K) (start end_ : K) (hwf : StartsAtKey hasher sm)
    (hnn : NonNegEdges dist hasher sm) (route0 : List (StreetSegment K)) (total0 : R) :
    (∀ fuel out,
      generatePointToPointRoute dist hasher coordLt sm fuel start end_ route0 total0
        = some out →
      out.result = DeliveryResult.DELIVERY_SUCCESS →
      IsPath hasher sm start out.route end_ ∧
      ((out.route = [] ∧ out.totalDistanceTravelled = 0) ↔ start = end_) ∧
      (∀ e ∈ out.route, Adjacent hasher sm e.start e) ∧
      (start ≠ end_ →
        (∃ e, out.route.head? = some e ∧ e.start = start) ∧
        (∃ e, out.route.getLast? = some e ∧ e.end_ = end_)) ∧
      stopCoordinate end_ out.route = start) ∧
    (∀ fuel st,
      searchLoop dist hasher coordLt sm end_ fuel (initialState hasher start)
        = some (true, st) →
      ∃ (N : Nat) (route : List (StreetSegment K)) (total : R),
        (∀ k, N ≤ k →
          reconstruct dist hasher start st.history k end_ [] 0 = some (route, total)) ∧
        stopCoordinate end_ route = start) := by
  constructor
  · intro fuel out hout hres
    have hs : Known hasher sm start := by
      by_contra h
      rw [generate_unknown dist hasher sm start end_ coordLt fuel route0 total0 (Or.inl h)]
        at hout
      rw [← Option.some.inj hout] at hres
      cases hres
    have he : Known hasher sm end_ := by
      by_contra h
      rw [generate_unknown dist hasher sm start end_ coordLt fuel route0 total0 (Or.inr h)]
        at hout
      rw [← Option.some.inj hout] at hres
      cases hres
    obtain ⟨N, b, st', out', hrun, hcase⟩ :=
      route_outcome dist hasher sm start end_ coordLt hwf hnn hs he route0 total0
    have h1 := generatePointToPointRoute_mono dist hasher sm start end_ coordLt fuel route0
      total0 out hout N
    have h2 := (hrun (fuel + N) (Nat.le_add_left _ _)).2
    rw [h1] at h2
    have hout' : out = out' := Option.some.inj h2
    rcases hcase with ⟨_, _, hno⟩ | ⟨_, _, _, htot, hpath, hempty, _⟩
    · rw [hout', hno] at hres
      cases hres
    · rw [← hout'] at htot hpath hempty
      refine ⟨hpath, ?_, hpath.adjacent_start hasher sm hwf, ?_,
        stopCoordinate_of_isPath hasher sm start end_ hwf _ hpath⟩
      · constructor
        · intro h
          have hp := hpath
          rw [h.1] at hp
          exact hp
        · intro h
          have hr := hempty h
          refine ⟨hr, ?_⟩
          rw [htot, hr, pathLength_nil]
      · intro hne
        have hnonempty : out.route ≠ [] := by
          intro h
          have hp := hpath
          rw [h] at hp
          exact hne hp
        refine ⟨?_, hpath.getLast_end hasher sm hnonempty⟩
        cases hr : out.route with
        | nil => exact absurd hr hnonempty
        | cons e p =>
          have hp := hpath
          rw [hr] at hp
          exact ⟨e, rfl, hwf start e hp.1⟩
  · intro fuel st hsl
    obtain ⟨N, b, st', hrun, hcase⟩ :=
      search_reconstruct dist hasher sm start end_ coordLt hwf hnn
    have h1 := searchLoop_mono dist hasher sm end_ coordLt fuel _ _ hsl N
    have h2 := hrun (fuel + N) (Nat.le_add_left _ _)
    rw [h1] at h2
    have hpair : (true, st) = (b, st') := Option.some.inj h2
    have hb : b = true := (Prod.mk.inj hpair).1.symm
    have hst : st = st' := (Prod.mk.inj hpair).2
    rcases hcase with ⟨hfalse, _⟩ | ⟨_, route, hrec, hpath, _, _⟩
    · rw [hb] at hfalse; cases hfalse
    · refine ⟨N, route, pathLength dist route, ?_,
        stopCoordinate_of_isPath hasher sm start end_ hwf _ hpath⟩
      intro k hk
      rw [hst]
      exact hrec k hk

/-- C4 on the 2×2 grid, from `A` to `C`: the route `A → B → C` is complete. -/
theorem C4_route_complete_witness :
    (StartsAtKey gridHasher grid ∧ NonNegEdges gridDist gridHasher grid) ∧
    ((∀ fuel out,
      generatePointToPointRoute gridDist gridHasher gridLt grid fuel 0 2 [] 7 = some out →
      out.result = DeliveryResult.DELIVERY_SUCCESS →
      IsPath gridHasher grid 0 out.route 2 ∧
      ((out.route = [] ∧ out.totalDistanceTravelled = 0) ↔ (0 : Fin 4) = 2) ∧
      (∀ e ∈ out.route, Adjacent gridHasher grid e.start e) ∧
      ((0 : Fin 4) ≠ 2 →
        (∃ e, out.route.head? = some e ∧ e.start = 0) ∧
        (∃ e, out.route.getLast? = some e ∧ e.end_ = 2)) ∧
      stopCoordinate 2 out.route = 0) ∧
    (∀ fuel st,
      searchLoop gridDist gridHasher gridLt grid 2 fuel (initialState gridHasher 0)
        = some (true, st) →
      ∃ (N : Nat) (route : List (StreetSegment (Fin 4))) (total : ℤ),
        (∀ k, N ≤ k →
          reconstruct gridDist gridHasher 0 st.history k 2 [] 0 = some (route, total)) ∧
        stopCoordinate 2 route = 0)) ∧
    generatePointToPointRoute gridDist gridHasher gridLt grid 20 0 2 [] 7
      = some ⟨DeliveryResult.DELIVERY_SUCCESS, [gridSeg 0 1, gridSeg 1 2], 2⟩ :=
  have hwf : StartsAtKey gridHasher grid := load_startsAtKey gridHasher _
  have hnn : NonNegEdges gridDist gridHasher grid :=
    nonNegEdges_of_nonneg gridDist gridHasher grid (by decide)
  ⟨⟨hwf, hnn⟩, C4_route_complete gridDist gridHasher gridLt grid 0 2 hwf hnn [] 7, by decide!⟩

/-- C5 (path contiguity). For every street map, distance function, hash and coordinate order:
whenever `generatePointToPointRoute` returns `DELIVERY_SUCCESS`, `route[i].end ==
route[i+1].start` holds for every consecutive pair of the returned route and
`totalDistanceTravelled` is the sum of `distance(seg.start, seg.end)` over its segments. -/
theorem C5_path_contiguity (dist : K → K → R) (hasher : K → Nat) (coordLt : K → K → Bool)
    (sm : StreetMapImpl K) (fuel : Nat) (start end_ : K) (route0 : List (StreetSegment K))
    (total0 : R) (out : RouteOutput K R)
    (hout : generatePointToPointRoute dist hasher coordLt sm fuel start end_ route0 total0
      = some out)
    (hres : out.result = DeliveryResult.DELIVERY_SUCCESS) :
    Contiguous out.route ∧ out.totalDistanceTravelled = pathLength dist out.route := by
  have hs : Known hasher sm start := by
    by_contra h
    rw [generate_unknown dist hasher sm start end_ coordLt fuel route0 total0 (Or.inl h)]
      at hout
    rw [← Option.some.inj hout] at hres
    cases hres
  have he : Known hasher sm end_ := by
    by_contra h
    rw [generate_unknown dist hasher sm start end_ coordLt fuel route0 total0 (Or.inr h)]
      at hout
    rw [← Option.some.inj hout] at hres
    cases hres
  cases hsl : searchLoop dist hasher coordLt sm end_ fuel (initialState hasher start) with
  | none =>
    unfold generatePointToPointRoute at hout
    have hs' : (sm.getSegmentsThatStartWith hasher start []).1 = true := hs
    have he' : (sm.getSegmentsThatStartWith hasher end_
        (sm.getSegmentsThatStartWith hasher start []).2).1 = true := by
      rw [getSegments_fst]; exact he
    simp [hs', he', hsl] at hout
  | some r =>
    obtain ⟨b, st⟩ := r
    cases b with
    | false =>
      rw [generate_no_route dist hasher sm start end_ coordLt fuel route0 total0 hs he st hsl]
        at hout
      rw [← Option.some.inj hout] at hres
      cases hres
    | true =>
      cases hrec : reconstruct dist hasher start st.history fuel end_ [] 0 with
      | none =>
        unfold generatePointToPointRoute at hout
        have hs' : (sm.getSegmentsThatStartWith hasher start []).1 = true := hs
        have he' : (sm.getSegmentsThatStartWith hasher end_
            (sm.getSegmentsThatStartWith hasher start []).2).1 = true := by
          rw [getSegments_fst]; exact he
        simp [hs', he', hsl, hrec] at hout
      | some rt =>
        obtain ⟨route, total⟩ := rt
        rw [generate_success dist hasher sm start end_ coordLt fuel route0 total0 hs he st hsl
          route total hrec] at hout
        rw [← Option.some.inj hout]
        have hends := searchLoop_histEnds dist hasher sm end_ coordLt fuel
          (initialState hasher start) true st (layout_constructDefault hasher)
          (by
            intro v s hvs
            have : find hasher (constructDefault : ExpandableHashMap K (StreetSegment K)) v
                = some s := hvs
            rw [find_constructDefault] at this
            cases this)
          hsl
        obtain ⟨hc, htot⟩ := reconstruct_contiguous dist hasher start st.history hends fuel
          end_ [] 0 route total List.chain'_nil (by intro e he; cases he) hrec
        refine ⟨hc, ?_⟩
        have h0 : total - pathLength dist route = 0 := by
          rw [htot, pathLength_nil, sub_zero]
        exact sub_eq_zero.1 h0

/-- C5 on the 2×2 grid: the route `A → B → C` meets at `B` and its two unit segments sum
to 2. -/
theorem C5_path_contiguity_witness :
    (generatePointToPointRoute gridDist gridHasher gridLt grid 20 0 2 [] 7
        = some ⟨DeliveryResult.DELIVERY_SUCCESS, [gridSeg 0 1, gridSeg 1 2], 2⟩) ∧
    (Contiguous [gridSeg 0 1, gridSeg 1 2] ∧
      (2 : ℤ) = pathLength gridDist [gridSeg 0 1, gridSeg 1 2]) :=
  ⟨by decide!,
    C5_path_contiguity gridDist gridHasher gridLt grid 20 0 2 [] 7
      ⟨DeliveryResult.DELIVERY_SUCCESS, [gridSeg 0 1, gridSeg 1 2], 2⟩ (by decide!) rfl⟩

end RouterRoutes
end DeliveryRouter

namespace DeliveryRouter
open ExpandableHashMap

set_option linter.unusedSectionVars false

section PlanEval
variable {K R : Type} [DecidableEq K] [LinearOrderedField R]
variable (dist : K → K → R) (hasher : K → Nat) (coordLt : K → K → Bool) (sm : StreetMapImpl K)

theorem optimize_perm (sqrtFn : Nat → R) (expFn : R → R) (ints : Nat → Nat)
    (reals : Nat → R) (fuel : Nat) (depot : K) (deliveries : List (DeliveryRequest K))
    (res : OptimizerOutput K R)
    (h : optimizeDeliveryOrder dist hasher coordLt sm sqrtFn expFn ints reals fuel depot
      deliveries = some res) : res.deliveries.Perm deliveries := by
  obtain ⟨old, best, new, iters, st, _, _, h3, _, hres⟩ :=
    optimize_parts dist hasher coordLt sm sqrtFn expFn ints reals fuel depot deliveries res h
  have hperm := annealLoop_perm dist expFn ints reals depot fuel 10000 0
    (annealStart sqrtFn best deliveries) (iters, st) h3
  rw [hres]
  split
  · exact hperm
  · exact List.Perm.refl _

/-- The distance that the optimizer left is passed through to the output and plays no other
role. -/
theorem planFromOrder_total (angleOfLine : StreetSegment K → R)
    (angleBetween2Lines : StreetSegment K → StreetSegment K → R) (fuel : Nat) (depot : K)
    (mod : List (DeliveryRequest K)) (commands : List (DeliveryCommand R)) (total : R) :
    planFromOrder dist hasher coordLt sm angleOfLine angleBetween2Lines fuel depot mod
        commands total =
      (planFromOrder dist hasher coordLt sm angleOfLine angleBetween2Lines fuel depot mod
        commands 0).map (fun o => ⟨o.result, o.commands, total⟩) := by
  unfold planFromOrder
  simp only
  cases mod[0]? with
  | none => rfl
  | some first =>
    simp only
    cases addStreetSegsToRoutes dist hasher coordLt sm fuel depot first.location
        first.item [] with
    | none => rfl
    | some r1 =>
      obtain ⟨res1, routes1⟩ := r1
      simp only
      cases planLegs dist hasher coordLt sm fuel mod (mod.length - 1) 0 routes1 with
      | none => rfl
      | some x =>
        cases x with
        | returned res => rfl
        | completed routes2 =>
          simp only
          cases mod[mod.length - 1]? with
          | none => rfl
          | some last =>
            simp only
            cases addStreetSegsToRoutes dist hasher coordLt sm fuel last.location depot ""
                routes2 with
            | none => rfl
            | some r4 =>
              obtain ⟨res2, routes3⟩ := r4
              simp only
              split <;> rfl

/-- A run that returns agrees in code and commands with the run for any other sufficient
number of loop iterations and any other distance on entry. -/
theorem planFromOrder_agree (angleOfLine : StreetSegment K → R)
    (angleBetween2Lines : StreetSegment K → StreetSegment K → R) (F fuel : Nat) (depot : K)
    (mod : List (DeliveryRequest K)) (commands : List (DeliveryCommand R)) (total : R)
    (fix out : PlanOutput R)
    (hfix : planFromOrder dist hasher coordLt sm angleOfLine angleBetween2Lines F depot mod
      commands 0 = some fix)
    (h : planFromOrder dist hasher coordLt sm angleOfLine angleBetween2Lines fuel depot mod
      commands total = some out) :
    out.result = fix.result ∧ out.commands = fix.commands := by
  rw [planFromOrder_total] at h
  cases h0 : planFromOrder dist hasher coordLt sm angleOfLine angleBetween2Lines fuel depot mod
      commands 0 with
  | none => rw [h0] at h; cases h
  | some o =>
    rw [h0] at h
    have ho : (⟨o.result, o.commands, total⟩ : PlanOutput R) = out := Option.some.inj h
    have h1 := planFromOrder_mono dist hasher coordLt sm angleOfLine angleBetween2Lines fuel
      depot mod commands 0 o h0 F
    have h2 := planFromOrder_mono dist hasher coordLt sm angleOfLine angleBetween2Lines F
      depot mod commands 0 fix hfix fuel
    rw [Nat.add_comm] at h2
    have hof : o = fix := Option.some.inj (h1.symm.trans h2)
    rw [← ho, hof]
    exact ⟨rfl, rfl⟩

theorem planFromOrder_returns (angleOfLine : StreetSegment K → R)
    (angleBetween2Lines : StreetSegment K → StreetSegment K → R) (F k : Nat) (depot : K)
    (mod : List (DeliveryRequest K)) (commands : List (DeliveryCommand R)) (total : R)
    (fix : PlanOutput R)
    (hfix : planFromOrder dist hasher coordLt sm angleOfLine angleBetween2Lines F depot mod
      commands 0 = some fix) :
    planFromOrder dist hasher coordLt sm angleOfLine angleBetween2Lines (F + k) depot mod
      commands total = some ⟨fix.result, fix.commands, total⟩ := by
  rw [planFromOrder_total, planFromOrder_mono dist hasher coordLt sm angleOfLine
    angleBetween2Lines F depot mod commands 0 fix hfix k]
  rfl

theorem router_fails_always (F : Nat) (s e : K) (o : RouteOutput K R)
    (hfix : generatePointToPointRoute dist hasher coordLt sm F s e [] 0 = some o)
    (hres : o.result ≠ DeliveryResult.DELIVERY_SUCCESS) (fuel : Nat) :
    ¬ RouterSucceeds dist hasher coordLt sm fuel (s, e) := by
  rintro ⟨o', ho', hres'⟩
  have h1 := generatePointToPointRoute_mono dist hasher sm s e coordLt fuel [] 0 o' ho' F
  have h2 := generatePointToPointRoute_mono dist hasher sm s e coordLt F [] 0 o hfix fuel
  rw [Nat.add_comm] at h2
  have : o' = o := Option.some.inj (h1.symm.trans h2)
  rw [this] at hres'
  exact hres hres'

end PlanEval

theorem oneWay_startsAtKey : StartsAtKey gridHasher oneWay := by
  have key : ∀ c : Fin 4, ∀ e ∈ (find gridHasher oneWay.map c).getD [], e.start = c := by
    decide!
  rintro c e ⟨v, hv, he⟩
  exact key c e (by rw [hv]; exact he)

theorem gridMiles_nonneg : ∀ a b : Fin 4, 0 ≤ gridMiles a b := by decide!

end DeliveryRouter

namespace DeliveryRouter
namespace ExpandableHashMap
variable {K V : Type}

/-- C6 (find after associate). For every hash function, every map that is freshly constructed
(with any maximum load factor) or reset, and every sequence of `associate` calls in which
`associate(k, v)` is the last call on key `k`, `find(k)` afterwards returns `v`; whether one of
the calls resized the table plays no role. -/
theorem C6_find_after_associate [DecidableEq K] (hasher : K → Nat)
    (m0 : ExpandableHashMap K V) (h0 : Fresh hasher m0)
    (before later : List (K × V)) (k : K) (v : V)
    (hlast : ∀ kv ∈ later, kv.1 ≠ k) :
    find hasher (associateAll hasher m0 (before ++ (k, v) :: later)) k = some v :=
  find_associateAll_last h0.reachable.layout before later k v hlast

/-- C6 at a concrete input: all keys share bucket 0 under the constant hash, key 1 is
associated twice and the fifth insertion resizes. -/
theorem C6_find_after_associate_witness :
    (∀ kv ∈ [((2 : Nat), (20 : Nat)), (3, 30), (4, 40), (5, 50)], kv.1 ≠ 1) ∧
    find constHasher
      (associateAll constHasher (construct (1 / 2))
        ([(1, 10)] ++ (1, 11) :: [(2, 20), (3, 30), (4, 40), (5, 50)])) 1 = some 11 :=
  ⟨by decide, C6_find_after_associate constHasher (construct (1 / 2))
    (Fresh.construct (1 / 2)) [(1, 10)] [(2, 20), (3, 30), (4, 40), (5, 50)] 1 11 (by decide)⟩

/-- C7 (resize preserves contents). In every reachable map state, an `associate(k, v)` of an
absent key whose insertion pushes the load above the maximum load factor doubles the bucket
count, every other key `k'` is found afterwards exactly as before (the same value when it
was present, absent when it was absent), and the entries of the new table are the entries of
the old one plus the new entry, each exactly once. -/
theorem C7_resize_preserves_contents [DecidableEq K] (hasher : K → Nat)
    (m : ExpandableHashMap K V) (hm : Reachable hasher m) (k : K) (v : V)
    (hnew : find hasher m k = none)
    (hload : ((m.num_items : ℚ) + 1) / (m.num_buckets : ℚ) > m.max_load_factor) :
    (associate hasher m k v).num_buckets = 2 * m.num_buckets ∧
    (∀ k', k' ≠ k → find hasher (associate hasher m k v) k' = find hasher m k') ∧
    (associate hasher m k v).hash_table.flatten.Perm (Item.mk k v :: m.hash_table.flatten) := by
  refine ⟨?_, ?_, flatten_associate_absent hm.layout k v hnew⟩
  · rw [num_buckets_associate, hnew]
    simp only
    rw [if_pos hload]
  · intro k' hk'
    rw [find_associate hm.layout, if_neg hk']

/-- C7 at the fifth distinct insertion into a default map: 5/8 exceeds 0.5, the table grows
from 8 to 16 buckets and the four earlier keys keep their values. -/
theorem C7_resize_preserves_contents_witness :
    (find natHasher fourKeys 5 = none ∧
      ((fourKeys.num_items : ℚ) + 1) / (fourKeys.num_buckets : ℚ) > fourKeys.max_load_factor) ∧
    ((associate natHasher fourKeys 5 50).num_buckets = 2 * fourKeys.num_buckets ∧
      (∀ k', k' ≠ 5 → find natHasher (associate natHasher fourKeys 5 50) k'
        = find natHasher fourKeys k') ∧
      (associate natHasher fourKeys 5 50).hash_table.flatten.Perm
        (Item.mk 5 50 :: fourKeys.hash_table.flatten)) :=
  ⟨⟨by decide!, by decide!⟩,
    C7_resize_preserves_contents natHasher fourKeys
      (reachable_associateAll (Reachable.construct (1 / 2)) _) 5 50 (by decide!) (by decide!)⟩

/-- C8 (size). After any sequence of `associate` calls on a fresh map `size()` is the number
of distinct keys in the sequence; and in any state, `associate` leaves `size()` unchanged when
the key is present (`find` succeeds) and adds exactly one when it is absent. -/
theorem C8_size_counts_distinct_keys [DecidableEq K] (hasher : K → Nat)
    (m0 : ExpandableHashMap K V) (h0 : Fresh hasher m0) (calls : List (K × V)) :
    size (associateAll hasher m0 calls) = (calls.map Prod.fst).toFinset.card ∧
    ∀ (m : ExpandableHashMap K V) (k : K) (v : V),
      size (associate hasher m k v) =
        match find hasher m k with
        | some _ => size m
        | none => size m + 1 :=
  ⟨size_associateAll h0 calls, fun m k v => size_associate hasher m k v⟩

/-- C8 at a concrete input: six calls on three distinct keys give size 3. -/
theorem C8_size_counts_distinct_keys_witness :
    size (associateAll natHasher (construct (1 / 2))
      [((1 : Nat), (10 : Nat)), (2, 20), (1, 11), (9, 90), (2, 21), (9, 91)]) = 3 := by
  have h := (C8_size_counts_distinct_keys natHasher (construct (1 / 2))
    (Fresh.construct (1 / 2))
    [((1 : Nat), (10 : Nat)), (2, 20), (1, 11), (9, 90), (2, 21), (9, 91)]).1
  rw [h]
  decide

/-- C9 (no false positives). For every hash function (a constant one included) and every
sequence of `associate` calls on a fresh map, `find(k)` is `nullptr` for every key `k` that is
not among the associated keys, and the bucket it reads exists: the modulus is positive and the
index lies inside the bucket array. -/
theorem C9_no_false_positives [DecidableEq K] (hasher : K → Nat)
    (m0 : ExpandableHashMap K V) (h0 : Fresh hasher m0) (calls : List (K × V)) (k : K)
    (hk : ∀ kv ∈ calls, kv.1 ≠ k) :
    find hasher (associateAll hasher m0 calls) k = none ∧
    FindInBounds hasher (associateAll hasher m0 calls) k := by
  constructor
  · rw [find_associateAll_of_not_mem h0.reachable.layout calls k hk]
    exact find_fresh h0 k
  · exact (layout_associateAll h0.reachable.layout calls).findInBounds k

/-- C9 with all keys in one bucket: key 7 was never associated and is not found although the
chain of bucket 0 holds five other keys. -/
theorem C9_no_false_positives_witness :
    (∀ kv ∈ [((1 : Nat), (10 : Nat)), (2, 20), (3, 30), (4, 40), (5, 50)], kv.1 ≠ 7) ∧
    (find constHasher
        (associateAll constHasher (construct (1 / 2))
          [(1, 10), (2, 20), (3, 30), (4, 40), (5, 50)]) 7 = none ∧
      FindInBounds constHasher
        (associateAll constHasher (construct (1 / 2))
          [(1, 10), (2, 20), (3, 30), (4, 40), (5, 50)]) 7) :=
  ⟨by decide, C9_no_false_positives constHasher (construct (1 / 2)) (Fresh.construct (1 / 2))
    [(1, 10), (2, 20), (3, 30), (4, 40), (5, 50)] 7 (by decide)⟩

/-- C10 (growth rule). For every map state with item count `n` and bucket count `b`,
`associate` of a key that `find` does not locate makes the bucket count `2 * b` when
`(n + 1) / b` exceeds the maximum load factor and leaves it at `b` otherwise; `associate` of a
key that is present leaves the bucket count at `b`. -/
theorem C10_growth_rule [DecidableEq K] (hasher : K → Nat) (m : ExpandableHashMap K V)
    (k : K) (v : V) :
    (associate hasher m k v).num_buckets =
      match find hasher m k with
      | some _ => m.num_buckets
      | none =>
        if ((m.num_items : ℚ) + 1) / (m.num_buckets : ℚ) > m.max_load_factor then
          2 * m.num_buckets
        else m.num_buckets :=
  num_buckets_associate hasher m k v

end ExpandableHashMap
end DeliveryRouter

namespace DeliveryRouter
open ExpandableHashMap

set_option linter.unusedSectionVars false

section PlanPairs
variable {K R : Type} [DecidableEq K] [LinearOrderedField R]
variable (dist : K → K → R) (hasher : K → Nat) (coordLt : K → K → Bool) (sm : StreetMapImpl K)
variable (sqrtFn : Nat → R) (expFn : R → R) (ints : Nat → Nat) (reals : Nat → R)
variable (angleOfLine : StreetSegment K → R)
variable (angleBetween2Lines : StreetSegment K → StreetSegment K → R)

/-- For two stops the planner works on one of the two orders. -/
theorem generateDeliveryPlan_pair (fuel : Nat) (depot : K) (x y : DeliveryRequest K)
    (commands : List (DeliveryCommand R)) (out : PlanOutput R)
    (h : generateDeliveryPlan dist hasher coordLt sm sqrtFn expFn ints reals angleOfLine
      angleBetween2Lines fuel depot [x, y] commands = some out) :
    ∃ optimized, optimizeDeliveryOrder dist hasher coordLt sm sqrtFn expFn ints reals fuel
        depot [x, y] = some optimized ∧
      (optimized.deliveries = [x, y] ∨ optimized.deliveries = [y, x]) ∧
      planFromOrder dist hasher coordLt sm angleOfLine angleBetween2Lines fuel depot
        optimized.deliveries commands optimized.newCrowDistance = some out := by
  obtain ⟨optimized, hopt, hplan⟩ :=
    generateDeliveryPlan_parts dist hasher coordLt sm sqrtFn expFn ints reals angleOfLine
      angleBetween2Lines fuel depot [x, y] commands out h
  exact ⟨optimized, hopt, perm_pair _ x y (optimize_perm dist hasher coordLt sm sqrtFn expFn
    ints reals fuel depot [x, y] optimized hopt), hplan⟩

/-- For two stops the planner returns as soon as the statements after the optimizer return
for both orders. -/
theorem generateDeliveryPlan_pair_returns (hwf : StartsAtKey hasher sm)
    (hnn : NonNegEdges dist hasher sm) (hdraw : DrawsSeparate ints 2) (F0 : Nat) (depot : K)
    (x y : DeliveryRequest K) (commands : List (DeliveryCommand R)) (fix1 fix2 : PlanOutput R)
    (h1 : planFromOrder dist hasher coordLt sm angleOfLine angleBetween2Lines F0 depot [x, y]
      commands 0 = some fix1)
    (h2 : planFromOrder dist hasher coordLt sm angleOfLine angleBetween2Lines F0 depot [y, x]
      commands 0 = some fix2) :
    ∃ (fuel : Nat) (optimized : OptimizerOutput K R) (out : PlanOutput R),
      optimizeDeliveryOrder dist hasher coordLt sm sqrtFn expFn ints reals fuel depot [x, y]
        = some optimized ∧
      generateDeliveryPlan dist hasher coordLt sm sqrtFn expFn ints reals angleOfLine
        angleBetween2Lines fuel depot [x, y] commands = some out := by
  obtain ⟨F, optimized, _, _, _, _, hrun⟩ :=
    optimize_terminates dist hasher coordLt sm sqrtFn expFn ints reals hwf hnn depot [x, y]
      (by simp) hdraw
  have hopt := (hrun (F0 + F) (Nat.le_add_left _ _)).1
  have hplan := generateDeliveryPlan_of_parts dist hasher coordLt sm sqrtFn expFn ints reals
    angleOfLine angleBetween2Lines (F0 + F) depot [x, y] commands optimized hopt
  rcases perm_pair _ x y (optimize_perm dist hasher coordLt sm sqrtFn expFn ints reals
    (F0 + F) depot [x, y] optimized hopt) with hm | hm
  · refine ⟨F0 + F, optimized, ⟨fix1.result, fix1.commands, optimized.newCrowDistance⟩, hopt,
      ?_⟩
    rw [hplan, hm]
    exact planFromOrder_returns dist hasher coordLt sm angleOfLine angleBetween2Lines F0 F
      depot [x, y] commands optimized.newCrowDistance fix1 h1
  · refine ⟨F0 + F, optimized, ⟨fix2.result, fix2.commands, optimized.newCrowDistance⟩, hopt,
      ?_⟩
    rw [hplan, hm]
    exact planFromOrder_returns dist hasher coordLt sm angleOfLine angleBetween2Lines F0 F
      depot [y, x] commands optimized.newCrowDistance fix2 h2

end PlanPairs

end DeliveryRouter

namespace DeliveryRouter
namespace ExpandableHashMap
variable {K V : Type}

/-- C11 (resize thresholds). With the default maximum load factor 0.5, after `n` insertions
of distinct keys into a fresh map the bucket count is the least `8 * 2 ^ j` with
`n ≤ 4 * 2 ^ j`: 8 for `n ≤ 4`, 16 for `5 ≤ n ≤ 8` and 32 for `9 ≤ n ≤ 16`; and `size()` is
`n`. -/
theorem C11_resize_thresholds [DecidableEq K] (hasher : K → Nat)
    (m0 : ExpandableHashMap K V) (h0 : Fresh hasher m0) (hL : m0.max_load_factor = 1 / 2)
    (calls : List (K × V)) (hdistinct : (calls.map Prod.fst).Nodup) :
    (∃ j, (associateAll hasher m0 calls).num_buckets = 8 * 2 ^ j ∧ calls.length ≤ 4 * 2 ^ j ∧
      ∀ i, calls.length ≤ 4 * 2 ^ i → j ≤ i) ∧
    (calls.length ≤ 4 → (associateAll hasher m0 calls).num_buckets = 8) ∧
    (5 ≤ calls.length → calls.length ≤ 8 → (associateAll hasher m0 calls).num_buckets = 16) ∧
    (9 ≤ calls.length → calls.length ≤ 16 → (associateAll hasher m0 calls).num_buckets = 32) ∧
    size (associateAll hasher m0 calls) = calls.length := by
  obtain ⟨j, hj, hle, hleast⟩ := num_buckets_distinct_inserts h0 hL calls hdistinct
  refine ⟨⟨j, hj, hle, hleast⟩, ?_, ?_, ?_, ?_⟩
  · intro h4
    have hj0 : j ≤ 0 := hleast 0 (by simpa using h4)
    have : j = 0 := Nat.le_zero.1 hj0
    rw [hj, this]; rfl
  · intro h5 h8
    have hj1 : j ≤ 1 := hleast 1 (by simpa using h8)
    have hne : j ≠ 0 := by
      intro h; rw [h] at hle; simp at hle; omega
    have : j = 1 := by omega
    rw [hj, this]; rfl
  · intro h9 h16
    have hj2 : j ≤ 2 := hleast 2 (by simpa using h16)
    have hne0 : j ≠ 0 := by
      intro h; rw [h] at hle; simp at hle; omega
    have hne1 : j ≠ 1 := by
      intro h; rw [h] at hle; simp at hle; omega
    have : j = 2 := by omega
    rw [hj, this]; rfl
  · rw [size_associateAll h0, List.toFinset_card_of_nodup hdistinct, List.length_map]

/-- C11 at nine distinct keys on a default map: 32 buckets and size 9. -/
theorem C11_resize_thresholds_witness :
    ((constructDefault : ExpandableHashMap Nat Nat).max_load_factor = 1 / 2 ∧
      ([((1 : Nat), (10 : Nat)), (2, 20), (3, 30), (4, 40), (5, 50), (6, 60), (7, 70),
        (8, 80), (9, 90)].map Prod.fst).Nodup) ∧
    (associateAll natHasher constructDefault
      [((1 : Nat), (10 : Nat)), (2, 20), (3, 30), (4, 40), (5, 50), (6, 60), (7, 70),
        (8, 80), (9, 90)]).num_buckets = 32 ∧
    size (associateAll natHasher constructDefault
      [((1 : Nat), (10 : Nat)), (2, 20), (3, 30), (4, 40), (5, 50), (6, 60), (7, 70),
        (8, 80), (9, 90)]) = 9 :=
  ⟨⟨by decide!, by decide⟩,
    (C11_resize_thresholds natHasher constructDefault (Fresh.construct (1 / 2)) (by decide!)
      [((1 : Nat), (10 : Nat)), (2, 20), (3, 30), (4, 40), (5, 50), (6, 60), (7, 70),
        (8, 80), (9, 90)] (by decide)).2.2.2.1 (by decide) (by decide),
    (C11_resize_thresholds natHasher constructDefault (Fresh.construct (1 / 2)) (by decide!)
      [((1 : Nat), (10 : Nat)), (2, 20), (3, 30), (4, 40), (5, 50), (6, 60), (7, 70),
        (8, 80), (9, 90)] (by decide)).2.2.2.2⟩

/-- C12 (reset). For every reachable map state, after `reset()` the size is 0, `find(k)` is
absent for every key, the bucket count is 8, and after any further sequence of `associate`
calls the map agrees with a freshly constructed map of the same maximum load factor put
through the same calls: same load factor, bucket count, item count and the same chain in
every bucket, hence the same `find` results and the same `size()`. -/
theorem C12_reset_restores_fresh [DecidableEq K] (hasher : K → Nat)
    (m : ExpandableHashMap K V) (hm : Reachable hasher m) :
    size (reset m) = 0 ∧ (∀ k, find hasher (reset m) k = none) ∧ (reset m).num_buckets = 8 ∧
    (construct m.max_load_factor : ExpandableHashMap K V).max_load_factor
      = m.max_load_factor ∧
    ∀ calls : List (K × V),
      SameContents (associateAll hasher (reset m) calls)
        (associateAll hasher (construct m.max_load_factor) calls) ∧
      (∀ k, find hasher (associateAll hasher (reset m) calls) k
        = find hasher (associateAll hasher (construct m.max_load_factor) calls) k) ∧
      size (associateAll hasher (reset m) calls)
        = size (associateAll hasher (construct m.max_load_factor) calls) := by
  have hsame := sameContents_reset hm
  refine ⟨rfl, fun k => find_fresh (Fresh.reset hm) k, rfl, hsame.load.symm, ?_⟩
  intro calls
  have h := sameContents_associateAll calls (layout_reset hm.layout)
    (layout_construct hasher m.max_load_factor) hsame
  exact ⟨h, fun k => SameContents.find_eq hasher h k, h.items⟩

/-- C12 on a map that has grown to 16 buckets: after `reset()` and two further calls key 2
is found with the value a fresh map gives. -/
theorem C12_reset_restores_fresh_witness :
    (reset (associate natHasher fourKeys 5 50)).num_buckets = 8 ∧
    find natHasher (associateAll natHasher (reset (associate natHasher fourKeys 5 50))
      [(2, 21), (10, 100)]) 2
      = find natHasher (associateAll natHasher
          (construct (associate natHasher fourKeys 5 50).max_load_factor)
          [(2, 21), (10, 100)]) 2 :=
  ⟨(C12_reset_restores_fresh natHasher (associate natHasher fourKeys 5 50)
      (Reachable.associate 5 50
        (reachable_associateAll (Reachable.construct (1 / 2)) _))).2.2.1,
    ((C12_reset_restores_fresh natHasher (associate natHasher fourKeys 5 50)
      (Reachable.associate 5 50
        (reachable_associateAll (Reachable.construct (1 / 2)) _))).2.2.2.2
      [(2, 21), (10, 100)]).2.1 2⟩

/-- C18 (structural invariant). In every state reachable from construction by `associate` and
`reset`, every stored entry lies in bucket `hasher(key) % num_buckets`, no two stored entries
have equal keys, and `num_items` is the number of stored entries. The invariant holds after
construction, `associate` (resizing or not) preserves it in every state with a well-formed
bucket array, and `reset` establishes it from any state. -/
theorem C18_structural_invariant [DecidableEq K] (hasher : K → Nat) :
    (∀ m : ExpandableHashMap K V, Reachable hasher m → Structural hasher m) ∧
    (∀ L : ℚ, Structural hasher (construct L : ExpandableHashMap K V)) ∧
    (∀ (m : ExpandableHashMap K V) (k : K) (v : V), Layout hasher m → Structural hasher m →
      Structural hasher (associate hasher m k v)) ∧
    (∀ m : ExpandableHashMap K V, Structural hasher (reset m)) :=
  ⟨fun _ hm => hm.structural, structural_construct hasher,
    fun _ k v hl hs => structural_associate hl hs k v, structural_reset hasher⟩

/-- C18 at the state after five distinct insertions (one resize). -/
theorem C18_structural_invariant_witness :
    Structural natHasher (associate natHasher fourKeys 5 50) :=
  (C18_structural_invariant natHasher).1 (associate natHasher fourKeys 5 50)
    (Reachable.associate 5 50 (reachable_associateAll (Reachable.construct (1 / 2)) _))

/-- C20 (load-factor bound). In every reachable state of a map whose maximum load factor `L`
is at least 0.125, the item count `n` and the bucket count `b` satisfy `n ≤ L * b`; in
particular this holds after every `associate`, whose single doubling brings the load back to
at most `L`. The default 0.5, which also replaces a non-positive constructor argument, is
such a factor. -/
theorem C20_load_factor_bound [DecidableEq K] (hasher : K → Nat)
    (m : ExpandableHashMap K V) (hm : Reachable hasher m)
    (hL : 1 / 8 ≤ m.max_load_factor) :
    (m.num_items : ℚ) ≤ m.max_load_factor * (m.num_buckets : ℚ) ∧
    (∀ (k : K) (v : V), ((associate hasher m k v).num_items : ℚ)
      ≤ m.max_load_factor * ((associate hasher m k v).num_buckets : ℚ)) ∧
    (∀ L : ℚ, L ≤ 0 → (construct L : ExpandableHashMap K V).max_load_factor = 1 / 2) := by
  refine ⟨load_bound_reachable hm hL, ?_, ?_⟩
  · intro k v
    have h := load_bound_reachable (Reachable.associate k v hm)
      (by rw [max_load_factor_associate]; exact hL)
    rw [max_load_factor_associate] at h
    exact h
  · intro L hL0
    show (if L ≤ 0 then (1 : ℚ) / 2 else L) = 1 / 2
    rw [if_pos hL0]

/-- C20 at four stored keys in eight buckets with load factor 0.5: the fifth insertion
doubles the table and 5 is at most 0.5 * 16. -/
theorem C20_load_factor_bound_witness :
    (1 : ℚ) / 8 ≤ fourKeys.max_load_factor ∧
    (fourKeys.num_items : ℚ) ≤ fourKeys.max_load_factor * (fourKeys.num_buckets : ℚ) ∧
    ((associate natHasher fourKeys 5 50).num_items : ℚ)
      ≤ fourKeys.max_load_factor * ((associate natHasher fourKeys 5 50).num_buckets : ℚ) :=
  ⟨by decide!,
    (C20_load_factor_bound natHasher fourKeys
      (reachable_associateAll (Reachable.construct (1 / 2)) _) (by decide!)).1,
    (C20_load_factor_bound natHasher fourKeys
      (reachable_associateAll (Reachable.construct (1 / 2)) _) (by decide!)).2.1 5 50⟩

end ExpandableHashMap
end DeliveryRouter

namespace DeliveryRouter
open ExpandableHashMap

section OptimizerClaims
variable {K R : Type} [DecidableEq K] [LinearOrderedField R]

/-- C13 (optimizer non-regression). For every depot, stop list, street map, hash, distance,
`sqrt` and `exp` function and every outcome of the integer and real random draws: whenever
`optimizeDeliveryOrder` returns, `newCrowDistance ≤ oldCrowDistance` and the deliveries
vector afterwards is a permutation of the one before. -/
theorem C13_optimizer_non_regression (dist : K → K → R) (hasher : K → Nat)
    (coordLt : K → K → Bool) (sm : StreetMapImpl K) (sqrtFn : Nat → R) (expFn : R → R)
    (ints : Nat → Nat) (reals : Nat → R) (fuel : Nat) (depot : K)
    (deliveries : List (DeliveryRequest K)) (res : OptimizerOutput K R)
    (h : optimizeDeliveryOrder dist hasher coordLt sm sqrtFn expFn ints reals fuel depot
      deliveries = some res) :
    res.newCrowDistance ≤ res.oldCrowDistance ∧ res.deliveries.Perm deliveries := by
  obtain ⟨old, best, new, iters, st, _, _, h3, _, hres⟩ :=
    optimize_parts dist hasher coordLt sm sqrtFn expFn ints reals fuel depot deliveries res h
  have hperm := annealLoop_perm dist expFn ints reals depot fuel 10000 0
    (annealStart sqrtFn best deliveries) (iters, st) h3
  rw [hres]
  by_cases hlt : new < old
  · rw [if_pos hlt]
    exact ⟨le_of_lt hlt, hperm⟩
  · rw [if_neg hlt]
    exact ⟨le_refl _, List.Perm.refl _⟩

/-- C13 on the grid: the call returns for the three stops, with a distance that is not
worse and a permutation of the stops. -/
theorem C13_optimizer_non_regression_witness :
    ∃ (fuel : Nat) (res : OptimizerOutput (Fin 4) ℚ),
      optimizeDeliveryOrder gridMiles gridHasher gridLt grid sqrtApprox expApprox countingInts
        halfReals fuel 0 threeStops = some res ∧
      res.newCrowDistance ≤ res.oldCrowDistance ∧ res.deliveries.Perm threeStops := by
  obtain ⟨F, res, _, _, _, _, hrun⟩ :=
    optimize_terminates gridMiles gridHasher gridLt grid sqrtApprox expApprox countingInts
      halfReals (load_startsAtKey gridHasher _)
      (nonNegEdges_of_nonneg gridMiles gridHasher grid (by decide!)) 0 threeStops (by decide)
      (drawsSeparate_counting 3 (by decide))
  exact ⟨F, res, (hrun F (le_refl _)).1,
    C13_optimizer_non_regression gridMiles gridHasher gridLt grid sqrtApprox expApprox
      countingInts halfReals F 0 threeStops res (hrun F (le_refl _)).1⟩

/-- C14 (commit rule). Whenever `optimizeDeliveryOrder` returns, `oldCrowDistance` is the
router-computed distance of the input order, the annealing loop has ended in a working order
`currentSolution` that has a router-computed distance `D`, and: if `D < oldCrowDistance` the
deliveries are the working order and `newCrowDistance = D`; otherwise the deliveries are the
input list itself and `newCrowDistance = oldCrowDistance`.  The annealing loop reads and
writes the working copy only. -/
theorem C14_commit_rule (dist : K → K → R) (hasher : K → Nat)
    (coordLt : K → K → Bool) (sm : StreetMapImpl K) (sqrtFn : Nat → R) (expFn : R → R)
    (ints : Nat → Nat) (reals : Nat → R) (fuel : Nat) (depot : K)
    (deliveries : List (DeliveryRequest K)) (res : OptimizerOutput K R)
    (h : optimizeDeliveryOrder dist hasher coordLt sm sqrtFn expFn ints reals fuel depot
      deliveries = some res) :
    ∃ (best D : R) (iters : Nat) (st : AnnealState K R),
      getActualCrowDist dist hasher coordLt sm fuel depot deliveries
        = some res.oldCrowDistance ∧
      getApproxCrowDist dist depot deliveries = some best ∧
      annealLoop dist expFn ints reals fuel depot 10000 0
        (annealStart sqrtFn best deliveries) = some (iters, st) ∧
      getActualCrowDist dist hasher coordLt sm fuel depot st.currentSolution = some D ∧
      (D < res.oldCrowDistance →
        res.deliveries = st.currentSolution ∧ res.newCrowDistance = D) ∧
      (¬ D < res.oldCrowDistance →
        res.deliveries = deliveries ∧ res.newCrowDistance = res.oldCrowDistance) := by
  obtain ⟨old, best, new, iters, st, h1, h2, h3, h4, hres⟩ :=
    optimize_parts dist hasher coordLt sm sqrtFn expFn ints reals fuel depot deliveries res h
  have hold : res.oldCrowDistance = old := by
    rw [hres]; split <;> rfl
  refine ⟨best, new, iters, st, by rw [hold]; exact h1, h2, h3, h4, ?_, ?_⟩
  · intro hlt
    rw [hold] at hlt
    rw [hres, if_pos hlt]
    exact ⟨rfl, rfl⟩
  · intro hlt
    rw [hold] at hlt
    rw [hres, if_neg hlt]
    exact ⟨rfl, rfl⟩

/-- C14 on the grid: the call returns for the three stops, and the output obeys the commit
rule. -/
theorem C14_commit_rule_witness :
    ∃ (fuel : Nat) (res : OptimizerOutput (Fin 4) ℚ) (D : ℚ) (st : AnnealState (Fin 4) ℚ),
      optimizeDeliveryOrder gridMiles gridHasher gridLt grid sqrtApprox expApprox countingInts
        halfReals fuel 0 threeStops = some res ∧
      getActualCrowDist gridMiles gridHasher gridLt grid fuel 0 st.currentSolution = some D ∧
      (D < res.oldCrowDistance →
        res.deliveries = st.currentSolution ∧ res.newCrowDistance = D) ∧
      (¬ D < res.oldCrowDistance →
        res.deliveries = threeStops ∧ res.newCrowDistance = res.oldCrowDistance) := by
  obtain ⟨F, res, _, _, _, _, hrun⟩ :=
    optimize_terminates gridMiles gridHasher gridLt grid sqrtApprox expApprox countingInts
      halfReals (load_startsAtKey gridHasher _)
      (nonNegEdges_of_nonneg gridMiles gridHasher grid (by decide!)) 0 threeStops (by decide)
      (drawsSeparate_counting 3 (by decide))
  obtain ⟨_, D, _, st, _, _, _, h4, h5, h6⟩ :=
    C14_commit_rule gridMiles gridHasher gridLt grid sqrtApprox expApprox countingInts
      halfReals F 0 threeStops res (hrun F (le_refl _)).1
  exact ⟨F, res, D, st, (hrun F (le_refl _)).1, h4, h5, h6⟩

/-- C15 (trivial inputs, refuted for the code). With zero stops `optimizeDeliveryOrder`
reads `deliveries[0]` of an empty vector, and with one stop, whose start temperature
`sqrt(1)` exceeds the floor, the loop `while (a == b)` of `randomlySwapDeliveries` draws
`randInt(0, 0) = 0` for both positions for ever: in both cases the call does not return,
whatever the number of loop iterations allowed. -/
theorem C15_trivial_inputs_do_not_return (dist : K → K → R) (hasher : K → Nat)
    (coordLt : K → K → Bool) (sm : StreetMapImpl K) (sqrtFn : Nat → R) (expFn : R → R)
    (ints : Nat → Nat) (reals : Nat → R) (depot : K) (d : DeliveryRequest K)
    (hsqrt : temperatureFloor < sqrtFn 1) :
    (∀ fuel, optimizeDeliveryOrder dist hasher coordLt sm sqrtFn expFn ints reals fuel depot
      [] = none) ∧
    (∀ fuel, optimizeDeliveryOrder dist hasher coordLt sm sqrtFn expFn ints reals fuel depot
      [d] = none) ∧
    (∀ fuel cursor, randomlySwapDeliveries ints fuel [d] cursor = none) ∧
    (∀ raw, randInt raw 0 (((([d] : List (DeliveryRequest K)).length : Nat) : Int) - 1) = 0) := by
  have hswap : ∀ fuel cursor, randomlySwapDeliveries ints fuel [d] cursor = none := by
    intro fuel cursor
    unfold randomlySwapDeliveries
    have : drawPositions ints ([d] : List (DeliveryRequest K)).length fuel cursor = none :=
      drawPositions_single ints fuel cursor
    rw [this]
  refine ⟨fun _ => rfl, ?_, hswap, ?_⟩
  · intro fuel
    cases hres : optimizeDeliveryOrder dist hasher coordLt sm sqrtFn expFn ints reals fuel
        depot [d] with
    | none => rfl
    | some res =>
      obtain ⟨old, best, new, iters, st, _, _, h3, _, _⟩ :=
        optimize_parts dist hasher coordLt sm sqrtFn expFn ints reals fuel depot [d] res hres
      have hiter : annealIteration dist expFn ints reals fuel depot
          (annealStart sqrtFn best [d]) = none := by
        unfold annealIteration
        have := hswap fuel (annealStart sqrtFn best [d]).intCursor
        rw [annealStart_solution, this]
      unfold annealLoop at h3
      have ht : temperatureFloor < (annealStart sqrtFn best [d]).t := hsqrt
      rw [if_pos ht, hiter] at h3
      cases h3
  · intro raw
    have := randInt_eq_mod raw 1 (le_refl 1)
    rw [Nat.mod_one] at this
    exact this

/-- C15 on the grid: neither the empty list nor the single stop at corner `C` lets the call
return, here with 1000 loop iterations allowed. -/
theorem C15_trivial_inputs_do_not_return_witness :
    (temperatureFloor : ℚ) < sqrtApprox 1 ∧
    optimizeDeliveryOrder gridMiles gridHasher gridLt grid sqrtApprox expApprox countingInts
      halfReals 1000 0 [] = none ∧
    optimizeDeliveryOrder gridMiles gridHasher gridLt grid sqrtApprox expApprox countingInts
      halfReals 1000 0 [⟨"chicken", 2⟩] = none :=
  ⟨by decide!,
    (C15_trivial_inputs_do_not_return gridMiles gridHasher gridLt grid sqrtApprox expApprox
      countingInts halfReals 0 ⟨"chicken", 2⟩ (by decide!)).1 1000,
    (C15_trivial_inputs_do_not_return gridMiles gridHasher gridLt grid sqrtApprox expApprox
      countingInts halfReals 0 ⟨"chicken", 2⟩ (by decide!)).2.1 1000⟩

/-- C16 (accept/reject polarity). Take one iteration of the annealing loop from a state with
working order `W`, best distance `B` and temperature `T` above the floor, in which the
positions drawn are `a` and `b`, the swap of `W` at `a` and `b` gives `C` and the approximate
distance of `C` is `c`; let `u` be the next value of `dis(gen)`.  Then `a ≠ b`, the iteration
is performed and returns, the temperature afterwards is `T * 0.995`, and: if `c < B` the
working order is `C` and the best distance `c`; otherwise the best distance stays `B`, the
working order is `W` when `exp((B - c) / T) < u` and `C` when `u ≤ exp((B - c) / T)`. -/
theorem C16_accept_reject_polarity (dist : K → K → R) (expFn : R → R) (ints : Nat → Nat)
    (reals : Nat → R) (fuel : Nat) (depot : K) (st : AnnealState K R) (a b : Int)
    (cursor1 : Nat) (C : List (DeliveryRequest K)) (c : R)
    (hT : 1 / 100000000 < st.t)
    (hd : drawPositions ints st.currentSolution.length fuel st.intCursor
      = some ((a, b), cursor1))
    (hs : randomlySwapDeliveriesAt st.currentSolution a b = some C)
    (hc : getApproxCrowDist dist depot C = some c) :
    a ≠ b ∧
    ∃ st1, annealIteration dist expFn ints reals fuel depot st = some st1 ∧
      (∀ n i, annealLoop dist expFn ints reals fuel depot (n + 1) i st
        = annealLoop dist expFn ints reals fuel depot n (i + 1) st1) ∧
      st1.t = st.t * (995 / 1000) ∧
      (c < st.best_dist → st1.currentSolution = C ∧ st1.best_dist = c) ∧
      (¬ c < st.best_dist →
        st1.best_dist = st.best_dist ∧
        (expFn ((st.best_dist - c) / st.t) < reals st.realCursor →
          st1.currentSolution = st.currentSolution) ∧
        (reals st.realCursor ≤ expFn ((st.best_dist - c) / st.t) →
          st1.currentSolution = C)) := by
  have hne := (drawPositions_spec ints _ fuel _ a b cursor1 hd).1
  have heq := annealIteration_eq dist expFn ints reals depot fuel st a b cursor1 C c hd hs hc
  refine ⟨hne, _, heq, ?_, ?_, ?_, ?_⟩
  · intro n i
    conv_lhs => unfold annealLoop
    have ht : temperatureFloor < st.t := hT
    rw [if_pos ht, heq]
  · split
    · rfl
    · split <;> rfl
  · intro hlt
    rw [if_pos hlt]
    exact ⟨rfl, rfl⟩
  · intro hlt
    rw [if_neg hlt]
    refine ⟨?_, ?_, ?_⟩
    · split <;> rfl
    · intro hu
      rw [if_pos hu]
    · intro hu
      rw [if_neg (not_lt.2 hu)]

/-- C16 on the grid: from the walk around the grid (distance 4, temperature 1) the swap of
positions 0 and 1 gives a candidate of distance 6; `exp(-2)` is below the draw `1/2`, so the
swap is undone and the working order is the walk again. -/
theorem C16_accept_reject_polarity_witness :
    ((1 : ℚ) / 100000000 < roundTripState.t ∧
      drawPositions countingInts roundTripState.currentSolution.length 5
        roundTripState.intCursor = some ((0, 1), 2) ∧
      randomlySwapDeliveriesAt roundTripState.currentSolution 0 1 = some threeStops ∧
      getApproxCrowDist gridMiles (0 : Fin 4) threeStops = some 6) ∧
    ¬ (6 : ℚ) < roundTripState.best_dist ∧
    expApprox ((roundTripState.best_dist - 6) / roundTripState.t)
      < halfReals roundTripState.realCursor ∧
    ∃ st1, annealIteration gridMiles expApprox countingInts halfReals 5 (0 : Fin 4)
        roundTripState = some st1 ∧
      st1.t = 199 / 200 ∧ st1.best_dist = 4 ∧ st1.currentSolution = roundTrip := by
  have hT : (1 : ℚ) / 100000000 < roundTripState.t := by decide!
  have hd : drawPositions countingInts roundTripState.currentSolution.length 5
      roundTripState.intCursor = some ((0, 1), 2) := by decide
  have hs : randomlySwapDeliveriesAt roundTripState.currentSolution 0 1 = some threeStops := by
    decide
  have hc : getApproxCrowDist gridMiles (0 : Fin 4) threeStops = some 6 := by decide!
  have hB : ¬ (6 : ℚ) < roundTripState.best_dist := by decide!
  have hu : expApprox ((roundTripState.best_dist - 6) / roundTripState.t)
      < halfReals roundTripState.realCursor := by decide!
  obtain ⟨_, st1, h1, _, h3, _, h5⟩ :=
    C16_accept_reject_polarity gridMiles expApprox countingInts halfReals 5 (0 : Fin 4)
      roundTripState 0 1 2 threeStops 6 hT hd hs hc
  refine ⟨⟨hT, hd, hs, hc⟩, hB, hu, st1, h1, ?_, (h5 hB).1, (h5 hB).2.1 hu⟩
  rw [h3]
  decide!

end OptimizerClaims

end DeliveryRouter

namespace DeliveryRouter
open ExpandableHashMap

set_option linter.unusedSectionVars false

section DistanceClaims
variable {K R : Type} [DecidableEq K] [LinearOrderedField R]

theorem routerSucceeds_iff (dist : K → K → R) (hasher : K → Nat) (coordLt : K → K → Bool)
    (sm : StreetMapImpl K) (fuel : Nat) (leg : K × K) :
    RouterSucceeds dist hasher coordLt sm fuel leg ↔
      (generatePointToPointRoute dist hasher coordLt sm fuel leg.1 leg.2 [] 0).map
        (fun o => o.result) = some DeliveryResult.DELIVERY_SUCCESS := by
  unfold RouterSucceeds
  cases generatePointToPointRoute dist hasher coordLt sm fuel leg.1 leg.2 [] 0 with
  | none => simp
  | some o => simp

theorem routerSucceeds_mono (dist : K → K → R) (hasher : K → Nat) (coordLt : K → K → Bool)
    (sm : StreetMapImpl K) (fuel : Nat) (leg : K × K)
    (h : RouterSucceeds dist hasher coordLt sm fuel leg) (k : Nat) :
    RouterSucceeds dist hasher coordLt sm (fuel + k) leg := by
  obtain ⟨o, ho, hres⟩ := h
  exact ⟨o, generatePointToPointRoute_mono dist hasher sm leg.1 leg.2 coordLt fuel [] 0 o ho k,
    hres⟩

/-- C17 (distance definition). On a street map that stores every segment under its start
coordinate (every loaded map) and has non-negative segment lengths, let the stop list be
non-empty and let the router succeed on each of the `N + 1` legs depot → s1, s1 → s2, ...,
sN → depot.  Then `getActualCrowDist` returns the sum of the router's
`totalDistanceTravelled` over these legs; and whenever `optimizeDeliveryOrder` returns,
`oldCrowDistance` is that sum, the router succeeds on every leg of the order that
`deliveries` holds on return, and `newCrowDistance` is the sum over the legs of that order. -/
theorem C17_distance_definition (dist : K → K → R) (hasher : K → Nat)
    (coordLt : K → K → Bool) (sm : StreetMapImpl K) (sqrtFn : Nat → R) (expFn : R → R)
    (ints : Nat → Nat) (reals : Nat → R) (fuel : Nat) (depot : K)
    (deliveries : List (DeliveryRequest K))
    (hwf : StartsAtKey hasher sm) (hnn : NonNegEdges dist hasher sm)
    (hne : deliveries ≠ [])
    (hlegs : ∀ leg ∈ tourLegs depot deliveries,
      RouterSucceeds dist hasher coordLt sm fuel leg) :
    getActualCrowDist dist hasher coordLt sm fuel depot deliveries
      = some (tourDistance dist hasher coordLt sm fuel depot deliveries) ∧
    ∀ res, optimizeDeliveryOrder dist hasher coordLt sm sqrtFn expFn ints reals fuel depot
        deliveries = some res →
      res.oldCrowDistance = tourDistance dist hasher coordLt sm fuel depot deliveries ∧
      (∀ leg ∈ tourLegs depot res.deliveries,
        RouterSucceeds dist hasher coordLt sm fuel leg) ∧
      res.newCrowDistance = tourDistance dist hasher coordLt sm fuel depot res.deliveries := by
  have hfirst : getActualCrowDist dist hasher coordLt sm fuel depot deliveries
      = some (tourDistance dist hasher coordLt sm fuel depot deliveries) := by
    obtain ⟨x, hx⟩ := getActualCrowDist_returns dist hasher coordLt sm fuel depot deliveries
      hne hlegs
    have := (getActualCrowDist_value dist hasher coordLt sm fuel depot deliveries x
      (fun leg hleg r0 t0 o ho =>
        succeeds_returns dist hasher coordLt sm fuel leg (hlegs leg hleg) r0 t0 o ho) hx).2
    rw [hx, this]
  refine ⟨hfirst, ?_⟩
  intro res hres
  obtain ⟨old, best, new, iters, st, h1, _, h3, h4, hr⟩ :=
    optimize_parts dist hasher coordLt sm sqrtFn expFn ints reals fuel depot deliveries res
      hres
  have hold : old = tourDistance dist hasher coordLt sm fuel depot deliveries :=
    Option.some.inj (h1.symm.trans hfirst)
  have hperm := annealLoop_perm dist expFn ints reals depot fuel 10000 0
    (annealStart sqrtFn best deliveries) (iters, st) h3
  have hlinked : ∀ leg ∈ tourLegs depot deliveries, Linked hasher sm leg.1 leg.2 := by
    intro leg hleg
    obtain ⟨o, ho, hso⟩ := hlegs leg hleg
    exact linked_of_success dist hasher coordLt sm hwf hnn fuel leg.1 leg.2 [] 0 o ho hso
  have hlinked2 := tourLegs_linked_perm hasher sm depot deliveries st.currentSolution hperm
    hlinked
  obtain ⟨hsucc, hnew⟩ := getActualCrowDist_value dist hasher coordLt sm fuel depot
    st.currentSolution new
    (fun leg hleg r0 t0 o ho =>
      generate_success_of_linked dist hasher coordLt sm hwf hnn fuel leg.1 leg.2 r0 t0 o ho
        (hlinked2 leg hleg)) h4
  rw [hr]
  by_cases hlt : new < old
  · rw [if_pos hlt]
    exact ⟨hold, hsucc, hnew⟩
  · rw [if_neg hlt]
    exact ⟨hold, hlegs, hold⟩

/-- C17 on the grid: the four legs `A → C`, `C → B`, `B → D`, `D → A` of the three stops sum
to 6 with 20 loop iterations allowed, and for a number of iterations with which the call
returns both reported distances are sums over the legs. -/
theorem C17_distance_definition_witness :
    tourDistance gridMiles gridHasher gridLt grid 20 (0 : Fin 4) threeStops = 6 ∧
    ∃ (fuel : Nat) (res : OptimizerOutput (Fin 4) ℚ),
      (StartsAtKey gridHasher grid ∧ NonNegEdges gridMiles gridHasher grid ∧
        threeStops ≠ [] ∧
        ∀ leg ∈ tourLegs (0 : Fin 4) threeStops,
          RouterSucceeds gridMiles gridHasher gridLt grid fuel leg) ∧
      optimizeDeliveryOrder gridMiles gridHasher gridLt grid sqrtApprox expApprox countingInts
        halfReals fuel 0 threeStops = some res ∧
      getActualCrowDist gridMiles gridHasher gridLt grid fuel 0 threeStops
        = some (tourDistance gridMiles gridHasher gridLt grid fuel 0 threeStops) ∧
      res.oldCrowDistance = tourDistance gridMiles gridHasher gridLt grid fuel 0 threeStops ∧
      res.newCrowDistance
        = tourDistance gridMiles gridHasher gridLt grid fuel 0 res.deliveries := by
  have hwf : StartsAtKey gridHasher grid := load_startsAtKey gridHasher _
  have hnn : NonNegEdges gridMiles gridHasher grid :=
    nonNegEdges_of_nonneg gridMiles gridHasher grid (by decide!)
  have hne : threeStops ≠ [] := by decide
  have h20 : ∀ leg ∈ tourLegs (0 : Fin 4) threeStops,
      (generatePointToPointRoute gridMiles gridHasher gridLt grid 20 leg.1 leg.2 [] 0).map
        (fun o => o.result) = some DeliveryResult.DELIVERY_SUCCESS := by decide!
  obtain ⟨F, res, _, _, _, _, hrun⟩ :=
    optimize_terminates gridMiles gridHasher gridLt grid sqrtApprox expApprox countingInts
      halfReals hwf hnn 0 threeStops (by decide) (drawsSeparate_counting 3 (by decide))
  have hlegs : ∀ leg ∈ tourLegs (0 : Fin 4) threeStops,
      RouterSucceeds gridMiles gridHasher gridLt grid (20 + F) leg := fun leg hleg =>
    routerSucceeds_mono gridMiles gridHasher gridLt grid 20 leg
      ((routerSucceeds_iff gridMiles gridHasher gridLt grid 20 leg).2 (h20 leg hleg)) F
  have hopt := (hrun (20 + F) (Nat.le_add_left _ _)).1
  have hthm := C17_distance_definition gridMiles gridHasher gridLt grid sqrtApprox expApprox
    countingInts halfReals (20 + F) 0 threeStops hwf hnn hne hlegs
  exact ⟨by decide!, 20 + F, res, ⟨hwf, hnn, hne, hlegs⟩, hopt, hthm.1, (hthm.2 res hopt).1,
    (hthm.2 res hopt).2.2⟩

/-- C19 (annealing schedule and bound). On a street map that stores every segment under its
start coordinate and has non-negative segment lengths, for every list of `N ≥ 2` stops and
every integer stream in which each position draw eventually yields two distinct positions,
there is a number of loop iterations from which on `optimizeDeliveryOrder` returns one and
the same result and its annealing loop one and the same number `iters` of iterations and
state; `iters ≤ 10000`; iteration `k` is performed exactly when `k < 10000` and
`sqrt(N) * 0.995 ^ k > 1e-8`; and for every `k ≤ iters` the loop capped at `k` iterations
performs `k` iterations and ends at temperature `sqrt(N) * 0.995 ^ k`, which is the
temperature at the start of iteration `k`. -/
theorem C19_annealing_schedule (dist : K → K → R) (hasher : K → Nat)
    (coordLt : K → K → Bool) (sm : StreetMapImpl K) (sqrtFn : Nat → R) (expFn : R → R)
    (ints : Nat → Nat) (reals : Nat → R) (depot : K) (deliveries : List (DeliveryRequest K))
    (hwf : StartsAtKey hasher sm) (hnn : NonNegEdges dist hasher sm)
    (hN : 2 ≤ deliveries.length) (hdraw : DrawsSeparate ints deliveries.length) :
    ∃ (F : Nat) (res : OptimizerOutput K R) (best : R) (iters : Nat) (st : AnnealState K R),
      getApproxCrowDist dist depot deliveries = some best ∧
      iters ≤ 10000 ∧
      (∀ k, k < iters ↔
        (k < 10000 ∧ 1 / 100000000 < sqrtFn deliveries.length * (995 / 1000) ^ k)) ∧
      ∀ fuel, F ≤ fuel →
        optimizeDeliveryOrder dist hasher coordLt sm sqrtFn expFn ints reals fuel depot
          deliveries = some res ∧
        annealLoop dist expFn ints reals fuel depot 10000 0
          (annealStart sqrtFn best deliveries) = some (iters, st) ∧
        ∀ k, k ≤ iters → ∃ stk,
          annealLoop dist expFn ints reals fuel depot k 0 (annealStart sqrtFn best deliveries)
            = some (k, stk) ∧
          stk.t = sqrtFn deliveries.length * (995 / 1000) ^ k := by
  obtain ⟨F, res, best, iters, st, h2, hrun⟩ :=
    optimize_terminates dist hasher coordLt sm sqrtFn expFn ints reals hwf hnn depot deliveries
      (by omega) hdraw
  obtain ⟨m, hm1, hm2, _, hm4, hm5, _⟩ := annealLoop_schedule dist expFn ints reals depot F
    10000 0 (annealStart sqrtFn best deliveries) (iters, st) (hrun F (le_refl _)).2
  have him : iters = m := by simpa using hm1
  refine ⟨F, res, best, iters, st, h2, by rw [him]; exact hm2, ?_, ?_⟩
  · intro k
    rw [him]
    exact schedule_iff (sqrtFn deliveries.length) 10000 m hm2 hm4 hm5 k
  · intro fuel hfuel
    refine ⟨(hrun fuel hfuel).1, (hrun fuel hfuel).2, ?_⟩
    obtain ⟨m', hm1', _, _, _, _, hm6'⟩ := annealLoop_schedule dist expFn ints reals depot fuel
      10000 0 (annealStart sqrtFn best deliveries) (iters, st) (hrun fuel hfuel).2
    have him' : iters = m' := by simpa using hm1'
    intro k hk
    obtain ⟨stk, hk1, hk2⟩ := hm6' k (by rw [← him']; exact hk)
    refine ⟨stk, ?_, hk2⟩
    rw [hk1, Nat.zero_add]

/-- C19 on the grid: for the three stops and start temperature 1.7 the annealing loop
performs exactly 3781 iterations. -/
theorem C19_annealing_schedule_witness :
    (StartsAtKey gridHasher grid ∧ NonNegEdges gridMiles gridHasher grid ∧
      2 ≤ threeStops.length ∧ DrawsSeparate countingInts threeStops.length) ∧
    ∃ (F : Nat) (res : OptimizerOutput (Fin 4) ℚ) (st : AnnealState (Fin 4) ℚ),
      optimizeDeliveryOrder gridMiles gridHasher gridLt grid sqrtApprox expApprox countingInts
        halfReals F 0 threeStops = some res ∧
      annealLoop gridMiles expApprox countingInts halfReals F (0 : Fin 4) 10000 0
        (annealStart sqrtApprox 6 threeStops) = some (3781, st) := by
  have hwf : StartsAtKey gridHasher grid := load_startsAtKey gridHasher _
  have hnn : NonNegEdges gridMiles gridHasher grid :=
    nonNegEdges_of_nonneg gridMiles gridHasher grid (by decide!)
  have hN : 2 ≤ threeStops.length := by decide
  have hdraw : DrawsSeparate countingInts threeStops.length :=
    drawsSeparate_counting 3 (by decide)
  obtain ⟨F, res, best, iters, st, h2, _, hiff, hrun⟩ :=
    C19_annealing_schedule gridMiles gridHasher gridLt grid sqrtApprox expApprox countingInts
      halfReals 0 threeStops hwf hnn hN hdraw
  have hbest : best = 6 := by
    have h6 : getApproxCrowDist gridMiles (0 : Fin 4) threeStops = some 6 := by decide!
    exact Option.some.inj (h2.symm.trans h6)
  have hsq : sqrtApprox threeStops.length = 17 / 10 := by decide!
  rw [hsq] at hiff
  have hlow : 3780 < iters := (hiff 3780).2 ⟨by decide, by norm_num⟩
  have hhigh : ¬ 3781 < iters := fun h => absurd ((hiff 3781).1 h).2 (by norm_num)
  have hiters : iters = 3781 := by omega
  subst hbest hiters
  exact ⟨⟨hwf, hnn, hN, hdraw⟩, F, res, st, (hrun F (le_refl _)).1, (hrun F (le_refl _)).2.1⟩

end DistanceClaims

end DeliveryRouter

namespace DeliveryRouter
open ExpandableHashMap

section PlannerClaims
variable {K R : Type} [DecidableEq K] [LinearOrderedField R]

/-- C21 (router failure outputs). Whenever `generatePointToPointRoute` returns a code other
than `DELIVERY_SUCCESS`, that is `BAD_COORD` or `NO_ROUTE`, the route is the empty list,
whatever it held on entry, and `totalDistanceTravelled` holds the value it had on entry.
When it returns `DELIVERY_SUCCESS` the outputs do not depend on what the two reference
parameters held on entry. -/
theorem C21_router_failure_frame (dist : K → K → R) (hasher : K → Nat)
    (coordLt : K → K → Bool) (sm : StreetMapImpl K) (fuel : Nat) (start end_ : K)
    (route0 : List (StreetSegment K)) (total0 : R) (out : RouteOutput K R)
    (h : generatePointToPointRoute dist hasher coordLt sm fuel start end_ route0 total0
      = some out) :
    (out.result = DeliveryResult.BAD_COORD ∨ out.result = DeliveryResult.NO_ROUTE →
      out.route = [] ∧ out.totalDistanceTravelled = total0) ∧
    (out.result = DeliveryResult.BAD_COORD ∨ out.result = DeliveryResult.NO_ROUTE ↔
      out.result ≠ DeliveryResult.DELIVERY_SUCCESS) ∧
    (out.result = DeliveryResult.DELIVERY_SUCCESS →
      ∀ (route1 : List (StreetSegment K)) (total1 : R),
        generatePointToPointRoute dist hasher coordLt sm fuel start end_ route1 total1
          = some out) := by
  have hiff : (out.result = DeliveryResult.BAD_COORD ∨ out.result = DeliveryResult.NO_ROUTE) ↔
      out.result ≠ DeliveryResult.DELIVERY_SUCCESS := by
    cases out.result <;> simp
  refine ⟨fun hfail => ?_, hiff, fun hres route1 total1 => ?_⟩
  · exact generate_failure_frame dist hasher coordLt sm fuel start end_ route0 total0 out h
      (hiff.1 hfail)
  · exact generate_success_indep dist hasher coordLt sm fuel start end_ route0 total0 out h hres
      route1 total1

/-- C21 on two separate components: from `A` to `C` the call returns `NO_ROUTE`, the route
that held one segment on entry is empty and the distance is still 7. -/
theorem C21_router_failure_frame_witness :
    generatePointToPointRoute gridMiles gridHasher gridLt islands 20 0 2 [gridSeg 0 1] 7
      = some ⟨DeliveryResult.NO_ROUTE, [], 7⟩ ∧
    ((⟨DeliveryResult.NO_ROUTE, [], 7⟩ : RouteOutput (Fin 4) ℚ).route = [] ∧
      (⟨DeliveryResult.NO_ROUTE, [], 7⟩ : RouteOutput (Fin 4) ℚ).totalDistanceTravelled = 7) :=
  ⟨by decide!,
    (C21_router_failure_frame gridMiles gridHasher gridLt islands 20 0 2 [gridSeg 0 1] 7
      ⟨DeliveryResult.NO_ROUTE, [], 7⟩ (by decide!)).1 (Or.inr rfl)⟩

end PlannerClaims

end DeliveryRouter

namespace DeliveryRouter
open ExpandableHashMap

/-- The test of the first and the last leg in `generateDeliveryPlan` is the conjunction
`res1 != DELIVERY_SUCCESS && res2 != DELIVERY_SUCCESS`, unlike the loop over the other legs,
which returns on any failure.  The difference shows only on an adjacency with one-way
segments, which `load` cannot build (`load_twoWay`): on `oneWay` the depot `A` is known but
has no outgoing segment, while the stops `B` and `C` reach each other and `A`.  Whatever
order the optimizer leaves, the router fails on the first leg, from the depot, and succeeds
on the other two; the planner returns `DELIVERY_SUCCESS` all the same, whenever it returns,
and it does return. -/
theorem end_leg_test_on_one_way :
    (∀ (fuel : Nat) (optimized : OptimizerOutput (Fin 4) ℚ) (out : PlanOutput ℚ),
      optimizeDeliveryOrder gridMiles gridHasher gridLt oneWay sqrtApprox expApprox
        countingInts halfReals fuel 0 stopsBC = some optimized →
      generateDeliveryPlan gridMiles gridHasher gridLt oneWay sqrtApprox expApprox
        countingInts halfReals eastAngle squareAngle fuel 0 stopsBC [] = some out →
      out.result = DeliveryResult.DELIVERY_SUCCESS ∧
      ¬ ∀ leg ∈ tourLegs 0 optimized.deliveries,
        RouterSucceeds gridMiles gridHasher gridLt oneWay fuel leg) ∧
    ∃ (fuel : Nat) (optimized : OptimizerOutput (Fin 4) ℚ) (out : PlanOutput ℚ),
      optimizeDeliveryOrder gridMiles gridHasher gridLt oneWay sqrtApprox expApprox
        countingInts halfReals fuel 0 stopsBC = some optimized ∧
      generateDeliveryPlan gridMiles gridHasher gridLt oneWay sqrtApprox expApprox
        countingInts halfReals eastAngle squareAngle fuel 0 stopsBC [] = some out := by
  obtain ⟨fix1, hfix1, hres1⟩ := Option.map_eq_some'.1
    (by decide! : (planFromOrder gridMiles gridHasher gridLt oneWay eastAngle squareAngle 20 0
      [⟨"beer", 1⟩, ⟨"chicken", 2⟩] [] 0).map (fun o => o.result)
        = some DeliveryResult.DELIVERY_SUCCESS)
  obtain ⟨fix2, hfix2, hres2⟩ := Option.map_eq_some'.1
    (by decide! : (planFromOrder gridMiles gridHasher gridLt oneWay eastAngle squareAngle 20 0
      [⟨"chicken", 2⟩, ⟨"beer", 1⟩] [] 0).map (fun o => o.result)
        = some DeliveryResult.DELIVERY_SUCCESS)
  obtain ⟨g1, hg1, hgr1⟩ := Option.map_eq_some'.1
    (by decide! : (generatePointToPointRoute gridMiles gridHasher gridLt oneWay 20 0 1 [] 0).map
      (fun o => o.result) = some DeliveryResult.NO_ROUTE)
  obtain ⟨g2, hg2, hgr2⟩ := Option.map_eq_some'.1
    (by decide! : (generatePointToPointRoute gridMiles gridHasher gridLt oneWay 20 0 2 [] 0).map
      (fun o => o.result) = some DeliveryResult.NO_ROUTE)
  constructor
  · intro fuel optimized out hopt hplan
    obtain ⟨optimized', hopt', horder, hfrom⟩ :=
      generateDeliveryPlan_pair gridMiles gridHasher gridLt oneWay sqrtApprox expApprox
        countingInts halfReals eastAngle squareAngle fuel 0 _ _ [] out hplan
    have heq : optimized' = optimized := Option.some.inj (hopt'.symm.trans hopt)
    rw [heq] at horder hfrom
    rcases horder with hm | hm
    · rw [hm] at hfrom ⊢
      refine ⟨?_, ?_⟩
      · rw [(planFromOrder_agree gridMiles gridHasher gridLt oneWay eastAngle squareAngle 20
          fuel 0 _ [] _ fix1 out hfix1 hfrom).1]
        exact hres1
      · intro hall
        exact router_fails_always gridMiles gridHasher gridLt oneWay 20 0 1 g1 hg1
          (by rw [hgr1]; decide) fuel (hall (0, 1) (by decide))
    · rw [hm] at hfrom ⊢
      refine ⟨?_, ?_⟩
      · rw [(planFromOrder_agree gridMiles gridHasher gridLt oneWay eastAngle squareAngle 20
          fuel 0 _ [] _ fix2 out hfix2 hfrom).1]
        exact hres2
      · intro hall
        exact router_fails_always gridMiles gridHasher gridLt oneWay 20 0 2 g2 hg2
          (by rw [hgr2]; decide) fuel (hall (0, 2) (by decide))
  · exact generateDeliveryPlan_pair_returns gridMiles gridHasher gridLt oneWay sqrtApprox
      expApprox countingInts halfReals eastAngle squareAngle oneWay_startsAtKey
      (nonNegEdges_of_nonneg gridMiles gridHasher oneWay gridMiles_nonneg)
      (drawsSeparate_counting 2 (by decide)) 20 0 _ _ [] fix1 fix2 hfix1 hfix2

/-- C23 (deliver commands, refuted for the code). On the grid with the depot at `A`: for the
two stops at `B` and `D`, whatever the random draws and the number of loop iterations
allowed, a call that returns reports `DELIVERY_SUCCESS` with three deliver commands for two
requests, the third with the empty item, emitted for the one-segment leg back to the depot;
and for two stops at the depot's own coordinate, whose legs have no segment, it reports
`DELIVERY_SUCCESS` with no deliver command at all. -/
theorem C23_deliver_commands_miscounted (sqrtFn : Nat → ℚ) (expFn : ℚ → ℚ) (ints : Nat → Nat)
    (reals : Nat → ℚ) (fuel : Nat) :
    (∀ out, generateDeliveryPlan gridMiles gridHasher gridLt grid sqrtFn expFn ints reals
        eastAngle squareAngle fuel 0 stopsBD [] = some out →
      out.result = DeliveryResult.DELIVERY_SUCCESS ∧
      (deliverItems out.commands = ["beer", "salmon", ""] ∨
        deliverItems out.commands = ["salmon", "beer", ""])) ∧
    (∀ out, generateDeliveryPlan gridMiles gridHasher gridLt grid sqrtFn expFn ints reals
        eastAngle squareAngle fuel 0 stopsAtDepot [] = some out →
      out.result = DeliveryResult.DELIVERY_SUCCESS ∧ deliverItems out.commands = []) := by
  constructor
  · intro out hplan
    obtain ⟨fix1, hfix1, hres1⟩ := Option.map_eq_some'.1
      (by decide! : (planFromOrder gridMiles gridHasher gridLt grid eastAngle squareAngle 20 0
        [⟨"beer", 1⟩, ⟨"salmon", 3⟩] [] 0).map (fun o => (o.result, deliverItems o.commands))
          = some (DeliveryResult.DELIVERY_SUCCESS, ["beer", "salmon", ""]))
    obtain ⟨fix2, hfix2, hres2⟩ := Option.map_eq_some'.1
      (by decide! : (planFromOrder gridMiles gridHasher gridLt grid eastAngle squareAngle 20 0
        [⟨"salmon", 3⟩, ⟨"beer", 1⟩] [] 0).map (fun o => (o.result, deliverItems o.commands))
          = some (DeliveryResult.DELIVERY_SUCCESS, ["salmon", "beer", ""]))
    obtain ⟨optimized, _, horder, hfrom⟩ :=
      generateDeliveryPlan_pair gridMiles gridHasher gridLt grid sqrtFn expFn ints reals
        eastAngle squareAngle fuel 0 _ _ [] out hplan
    rcases horder with hm | hm
    · rw [hm] at hfrom
      obtain ⟨h1, h2⟩ := planFromOrder_agree gridMiles gridHasher gridLt grid eastAngle
        squareAngle 20 fuel 0 _ [] _ fix1 out hfix1 hfrom
      rw [h1, h2]
      exact ⟨congrArg Prod.fst hres1, Or.inl (congrArg Prod.snd hres1)⟩
    · rw [hm] at hfrom
      obtain ⟨h1, h2⟩ := planFromOrder_agree gridMiles gridHasher gridLt grid eastAngle
        squareAngle 20 fuel 0 _ [] _ fix2 out hfix2 hfrom
      rw [h1, h2]
      exact ⟨congrArg Prod.fst hres2, Or.inr (congrArg Prod.snd hres2)⟩
  · intro out hplan
    obtain ⟨fix1, hfix1, hres1⟩ := Option.map_eq_some'.1
      (by decide! : (planFromOrder gridMiles gridHasher gridLt grid eastAngle squareAngle 20 0
        [⟨"beer", 0⟩, ⟨"salmon", 0⟩] [] 0).map (fun o => (o.result, deliverItems o.commands))
          = some (DeliveryResult.DELIVERY_SUCCESS, []))
    obtain ⟨fix2, hfix2, hres2⟩ := Option.map_eq_some'.1
      (by decide! : (planFromOrder gridMiles gridHasher gridLt grid eastAngle squareAngle 20 0
        [⟨"salmon", 0⟩, ⟨"beer", 0⟩] [] 0).map (fun o => (o.result, deliverItems o.commands))
          = some (DeliveryResult.DELIVERY_SUCCESS, []))
    obtain ⟨optimized, _, horder, hfrom⟩ :=
      generateDeliveryPlan_pair gridMiles gridHasher gridLt grid sqrtFn expFn ints reals
        eastAngle squareAngle fuel 0 _ _ [] out hplan
    rcases horder with hm | hm
    · rw [hm] at hfrom
      obtain ⟨h1, h2⟩ := planFromOrder_agree gridMiles gridHasher gridLt grid eastAngle
        squareAngle 20 fuel 0 _ [] _ fix1 out hfix1 hfrom
      rw [h1, h2]
      exact ⟨congrArg Prod.fst hres1, congrArg Prod.snd hres1⟩
    · rw [hm] at hfrom
      obtain ⟨h1, h2⟩ := planFromOrder_agree gridMiles gridHasher gridLt grid eastAngle
        squareAngle 20 fuel 0 _ [] _ fix2 out hfix2 hfrom
      rw [h1, h2]
      exact ⟨congrArg Prod.fst hres2, congrArg Prod.snd hres2⟩

/-- C23 with the counting integer stream: the call for the stops at `B` and `D` does return,
with `DELIVERY_SUCCESS` and three deliver commands. -/
theorem C23_deliver_commands_miscounted_witness :
    ∃ (fuel : Nat) (out : PlanOutput ℚ),
      generateDeliveryPlan gridMiles gridHasher gridLt grid sqrtApprox expApprox countingInts
        halfReals eastAngle squareAngle fuel 0 stopsBD [] = some out ∧
      out.result = DeliveryResult.DELIVERY_SUCCESS ∧
      (deliverItems out.commands).length = 3 ∧ "" ∈ deliverItems out.commands := by
  obtain ⟨fix1, hfix1, _⟩ := Option.map_eq_some'.1
    (by decide! : (planFromOrder gridMiles gridHasher gridLt grid eastAngle squareAngle 20 0
      [⟨"beer", 1⟩, ⟨"salmon", 3⟩] [] 0).map (fun o => o.result)
        = some DeliveryResult.DELIVERY_SUCCESS)
  obtain ⟨fix2, hfix2, _⟩ := Option.map_eq_some'.1
    (by decide! : (planFromOrder gridMiles gridHasher gridLt grid eastAngle squareAngle 20 0
      [⟨"salmon", 3⟩, ⟨"beer", 1⟩] [] 0).map (fun o => o.result)
        = some DeliveryResult.DELIVERY_SUCCESS)
  obtain ⟨fuel, _, out, _, hplan⟩ :=
    generateDeliveryPlan_pair_returns gridMiles gridHasher gridLt grid sqrtApprox expApprox
      countingInts halfReals eastAngle squareAngle (load_startsAtKey gridHasher _)
      (nonNegEdges_of_nonneg gridMiles gridHasher grid gridMiles_nonneg)
      (drawsSeparate_counting 2 (by decide)) 20 0 ⟨"beer", 1⟩ ⟨"salmon", 3⟩ [] fix1 fix2 hfix1
      hfix2
  obtain ⟨hres, hitems⟩ :=
    (C23_deliver_commands_miscounted sqrtApprox expApprox countingInts halfReals fuel).1 out
      hplan
  refine ⟨fuel, out, hplan, hres, ?_, ?_⟩
  · rcases hitems with h | h <;> rw [h] <;> rfl
  · rcases hitems with h | h <;> rw [h] <;> decide

end DeliveryRouter
